import Mathlib

/-!
Verification of the table-reconstruction and response-recovery core of the
SOC1 compliance-report analysis tool.

The development shallowly embeds the TypeScript source:
* `PDFProcessor` (glyph row grouping, table-row heuristic, table-structure
  detection, table materialization),
* `OpenRouterAPI` (response normalization, the cascading structured-result
  parser with its fallbacks, chunk splitting, and chunk-result merging).

Numbers are modelled as exact rationals (`Rat`).  JavaScript `NaN` and
`Infinity` outcomes of divisions by a non-positive mean are modelled
explicitly where they influence the control flow (see `gapWithinHalfOfMean`).
-/

namespace SOC1

/-- A positioned text run on a page.  `x`/`y` are `transform[4]`/`transform[5]`
of a pdf.js text item; `str` is its text. -/
structure Glyph where
  str : String
  x : Rat
  y : Rat
  width : Rat
  height : Rat
  deriving DecidableEq, Repr, Inhabited

/-- `PDFProcessor.TABLE_DETECTION_THRESHOLD = 0.9`. -/
def TABLE_DETECTION_THRESHOLD : Rat := 9 / 10

/-- `PDFProcessor.MIN_TABLE_ROWS = 3`. -/
def MIN_TABLE_ROWS : Nat := 3

/-- `PDFProcessor.MIN_TABLE_COLS = 3`. -/
def MIN_TABLE_COLS : Nat := 3

/-- Consecutive differences `xs[i] - xs[i-1]`, mirroring the gap loop in
`PDFProcessor.isTableRow`. -/
def consecutiveGaps : List Rat → List Rat
  | [] => []
  | [_] => []
  | a :: b :: rest => (b - a) :: consecutiveGaps (b :: rest)

/-- The per-gap consistency test `Math.abs(gap - avgGap) / avgGap < 0.5` of
`PDFProcessor.isTableRow`.  When `avgGap = 0`, JavaScript produces `NaN`
(for a zero gap) or `+Infinity` (for a nonzero gap), and both comparisons
with `0.5` are false; we model that by an explicit zero test.  For a
nonzero (possibly negative) mean the comparison is exact rational
arithmetic, as in the source. -/
def gapWithinHalfOfMean (avgGap gap : Rat) : Bool :=
  if avgGap = 0 then false else |gap - avgGap| / avgGap < 1 / 2

/-- `PDFProcessor.isTableRow`: at least `MIN_TABLE_COLS` items, and the
fraction of consecutive x-origin gaps passing the consistency test must
reach `TABLE_DETECTION_THRESHOLD`. -/
def isTableRow (row : List Glyph) : Bool :=
  if row.length < MIN_TABLE_COLS then false
  else
    let xPositions := row.map (·.x)
    let gaps := consecutiveGaps xPositions
    if gaps.length = 0 then false
    else
      let avgGap := gaps.sum / (gaps.length : Rat)
      let consistentGaps := (gaps.filter (fun gap => gapWithinHalfOfMean avgGap gap)).length
      TABLE_DETECTION_THRESHOLD ≤ (consistentGaps : Rat) / (gaps.length : Rat)

/-- The mean of the consecutive x-origin gaps of a row (`avgGap` in
`PDFProcessor.isTableRow`). -/
def meanGap (row : List Glyph) : Rat :=
  let gaps := consecutiveGaps (row.map (·.x))
  gaps.sum / (gaps.length : Rat)

/-- Spec-side row qualification, following §4.2 of the design: the row has at
least `MIN_COLS` glyphs and the fraction of consecutive x-origin gaps lying
within 50% relative deviation of the mean gap reaches the 0.9 threshold.
A gap counts as within 50% relative deviation exactly when the source's
comparison succeeds: the relative deviation is taken against the signed
mean and is treated as undefined (never within) at a zero mean, matching
the JavaScript `NaN`/`Infinity` semantics of the division. -/
def specRowQualifies (row : List Glyph) : Prop :=
  MIN_TABLE_COLS ≤ row.length ∧
  (let gaps := consecutiveGaps (row.map (·.x))
   let mean := gaps.sum / (gaps.length : Rat)
   TABLE_DETECTION_THRESHOLD ≤
     ((gaps.filter (fun gap => gapWithinHalfOfMean mean gap)).length : Rat) / (gaps.length : Rat))

theorem consecutiveGaps_length (xs : List Rat) :
    (consecutiveGaps xs).length = xs.length - 1 := by
  induction xs with
  | nil => simp [consecutiveGaps]
  | cons a xs ih =>
    cases xs with
    | nil => simp [consecutiveGaps]
    | cons b rest =>
      simp only [consecutiveGaps, List.length_cons] at ih ⊢
      omega

/-- C5: `isTableRow` accepts a row exactly when it has at least
`MIN_COLS = 3` items and the fraction of consecutive glyph x-origin gaps
within 50% relative deviation of the mean gap reaches the 0.9 threshold;
in particular any row with fewer than 3 items is rejected regardless of
gap consistency. -/
theorem isTableRow_iff_specRowQualifies :
    ∀ row : List Glyph,
      (isTableRow row = true ↔ specRowQualifies row) ∧
      (row.length < MIN_TABLE_COLS → isTableRow row = false) := by
  intro row
  constructor
  · unfold isTableRow specRowQualifies
    by_cases h : row.length < MIN_TABLE_COLS
    · simp only [if_pos h]
      constructor
      · intro hfalse; cases hfalse
      · rintro ⟨hge, -⟩; omega
    · have hlen : (consecutiveGaps (row.map (·.x))).length = row.length - 1 := by
        rw [consecutiveGaps_length, List.length_map]
      have hne : ¬ (consecutiveGaps (row.map (·.x))).length = 0 := by
        rw [hlen]; unfold MIN_TABLE_COLS at h; omega
      simp only [if_neg h, if_neg hne, decide_eq_true_eq]
      constructor
      · intro hthr; exact ⟨Nat.le_of_not_lt h, hthr⟩
      · rintro ⟨-, hthr⟩; exact hthr
  · intro h
    unfold isTableRow
    simp only [if_pos h]

/-- Witness for C5 at a concrete two-glyph row: the short-row hypothesis is
discharged and the row is rejected. -/
theorem isTableRow_iff_specRowQualifies_witness :
    isTableRow [⟨"a", 0, 0, 0, 0⟩, ⟨"b", 50, 0, 0, 0⟩] = false :=
  (isTableRow_iff_specRowQualifies [⟨"a", 0, 0, 0, 0⟩, ⟨"b", 50, 0, 0, 0⟩]).2
    (by decide)

/-- A concrete row whose glyph x-origins decrease, so every consecutive gap
and the mean gap are negative. -/
def rowNegGap : List Glyph :=
  [⟨"a", 10, 0, 0, 0⟩, ⟨"b", 8, 0, 0, 0⟩, ⟨"c", 6, 0, 0, 0⟩]

/-- C10 counterexample: a row whose mean gap is negative nevertheless
qualifies as a table row (the signed division `|gap - mean| / mean` is
non-positive, hence below `0.5`, for every gap), refuting "the mean gap is
zero or negative → the row does not qualify". -/
theorem isTableRow_negative_mean_qualifies :
    isTableRow rowNegGap = true ∧ meanGap rowNegGap < 0 := by
  constructor
  · norm_num [isTableRow, rowNegGap, consecutiveGaps, gapWithinHalfOfMean,
      MIN_TABLE_COLS, TABLE_DETECTION_THRESHOLD]
  · norm_num [meanGap, rowNegGap, consecutiveGaps]

/-- C10 (amended): `isTableRow` is total by construction and faults on no
input; when the mean of the consecutive x-origin gaps is zero — in
particular when all gaps are zero — every gap fails the consistency test
(`NaN`/`Infinity` comparisons are false in the source) and the row does
not qualify.  A negative mean, by contrast, does not by itself disqualify
the row (see `isTableRow_negative_mean_qualifies`). -/
theorem isTableRow_zero_mean_not_qualify :
    ∀ row : List Glyph, meanGap row = 0 → isTableRow row = false := by
  intro row h
  unfold isTableRow
  by_cases hlt : row.length < MIN_TABLE_COLS
  · simp only [if_pos hlt]
  · by_cases hz : (consecutiveGaps (row.map (·.x))).length = 0
    · simp only [if_neg hlt, if_pos hz]
    · unfold meanGap at h
      simp only [if_neg hlt, if_neg hz, h]
      have hfilter :
          (consecutiveGaps (row.map (·.x))).filter
            (fun gap => gapWithinHalfOfMean 0 gap) = [] := by
        apply List.filter_eq_nil_iff.mpr
        intro g _
        simp [gapWithinHalfOfMean]
      rw [hfilter]
      simp [TABLE_DETECTION_THRESHOLD]

/-- Witness for C10's amended theorem: a row of three glyphs at equal
x-origins has zero mean gap and is rejected. -/
theorem isTableRow_zero_mean_witness :
    meanGap [⟨"a", 5, 0, 0, 0⟩, ⟨"b", 5, 0, 0, 0⟩, ⟨"c", 5, 0, 0, 0⟩] = 0 ∧
    isTableRow [⟨"a", 5, 0, 0, 0⟩, ⟨"b", 5, 0, 0, 0⟩, ⟨"c", 5, 0, 0, 0⟩] = false := by
  have hm : meanGap [⟨"a", 5, 0, 0, 0⟩, ⟨"b", 5, 0, 0, 0⟩, ⟨"c", 5, 0, 0, 0⟩] = 0 := by
    norm_num [meanGap, consecutiveGaps]
  exact ⟨hm, isTableRow_zero_mean_not_qualify _ hm⟩

/-- A table cell, addressed by `(row, col)` (`PDFProcessor.TableCell`). -/
structure TableCell where
  text : String
  x : Rat
  y : Rat
  width : Rat
  height : Rat
  row : Nat
  col : Nat
  deriving DecidableEq, Repr, Inhabited

/-- A materialized table (`PDFProcessor.Table`). -/
structure Table where
  id : String
  pageNumber : Nat
  x : Rat
  y : Rat
  width : Rat
  height : Rat
  rows : Nat
  columns : Nat
  cells : List TableCell
  rawText : String
  deriving DecidableEq, Repr, Inhabited

/-- A provisional run of table-like rows (`detectTableStructures`'s
candidate objects). -/
structure TableCandidate where
  rows : List (List Glyph)
  startIndex : Nat
  endIndex : Nat
  deriving DecidableEq, Repr, Inhabited

/-- `Math.min(...)` over a list. JavaScript yields `+Infinity` on an empty
argument list; `Rat` cannot represent it, so we return 0 there — that case
arises only for a candidate all of whose rows are empty, whose bounding box
is meaningless and which no claim concerns. -/
def mathMin : List Rat → Rat
  | [] => 0
  | a :: rest => rest.foldl min a

/-- `Math.max(...)` over a list (empty case as in `mathMin`, JS `-Infinity`). -/
def mathMax : List Rat → Rat
  | [] => 0
  | a :: rest => rest.foldl max a

/-- The cell pushed for glyph `item` at row index `ri`, column index `ci`
in `createTableFromCandidate`. -/
def mkCell (item : Glyph) (ri ci : Nat) : TableCell :=
  ⟨item.str, item.x, item.y, item.width, item.height, ri, ci⟩

/-- The inner `row.forEach((item, colIndex) => cells.push(...))` loop. -/
def rowCellsFrom (ri : Nat) : Nat → List Glyph → List TableCell
  | _, [] => []
  | ci, g :: gs => mkCell g ri ci :: rowCellsFrom ri (ci + 1) gs

/-- The outer `rows.forEach((row, rowIndex) => ...)` loop building all cells. -/
def cellsFrom : Nat → List (List Glyph) → List TableCell
  | _, [] => []
  | ri, row :: rest => rowCellsFrom ri 0 row ++ cellsFrom (ri + 1) rest

/-- `maxCols`: the running maximum of row lengths in
`createTableFromCandidate`. -/
def maxColsOf (rows : List (List Glyph)) : Nat :=
  (rows.map (·.length)).foldl max 0

/-- `PDFProcessor.createTableFromCandidate`: bounding box from member glyph
coordinates, cells addressed by ordinal position, column count the longest
member row, tab-joined raw text. -/
def createTableFromCandidate (candidate : TableCandidate) (pageNumber idx : Nat) :
    Option Table :=
  let rows := candidate.rows
  if rows.length = 0 then none
  else
    let allItems := rows.flatten
    let xPositions := allItems.map (·.x)
    let yPositions := allItems.map (·.y)
    let minX := mathMin xPositions
    let maxX := mathMax (allItems.map (fun item => item.x + item.width))
    let minY := mathMin yPositions
    let maxY := mathMax yPositions
    some
      { id := "table_" ++ toString pageNumber ++ "_" ++ toString idx
        pageNumber := pageNumber
        x := minX
        y := minY
        width := maxX - minX
        height := maxY - minY
        rows := rows.length
        columns := maxColsOf rows
        cells := cellsFrom 0 rows
        rawText := String.intercalate "\n"
          (rows.map (fun row => String.intercalate "\t" (row.map (·.str)))) }

theorem mem_rowCellsFrom {ri ci : Nat} {gs : List Glyph} {c : TableCell}
    (h : c ∈ rowCellsFrom ri ci gs) :
    c.row = ri ∧ ci ≤ c.col ∧ c.col < ci + gs.length := by
  induction gs generalizing ci with
  | nil => cases h
  | cons g gs ih =>
    simp only [rowCellsFrom, List.mem_cons] at h
    rcases h with h | h
    · subst h; simp [mkCell]
    · obtain ⟨h1, h2, h3⟩ := ih h
      refine ⟨h1, by omega, by simpa [Nat.add_comm, Nat.add_left_comm] using h3⟩

theorem mem_cellsFrom {ri : Nat} {rows : List (List Glyph)} {c : TableCell}
    (h : c ∈ cellsFrom ri rows) :
    ∃ k, k < rows.length ∧ c.row = ri + k ∧ c.col < (rows.getD k []).length := by
  induction rows generalizing ri with
  | nil => cases h
  | cons row rest ih =>
    simp only [cellsFrom, List.mem_append] at h
    rcases h with h | h
    · obtain ⟨h1, -, h3⟩ := mem_rowCellsFrom h
      exact ⟨0, by simp, by simpa using h1, by simpa using h3⟩
    · obtain ⟨k, hk, hrow, hcol⟩ := ih h
      exact ⟨k + 1, by simpa using hk, by omega, by simpa using hcol⟩

theorem le_foldl_max (l : List Nat) :
    ∀ a : Nat, a ≤ l.foldl max a ∧ ∀ x ∈ l, x ≤ l.foldl max a := by
  induction l with
  | nil => intro a; exact ⟨le_refl a, by simp⟩
  | cons b l ih =>
    intro a
    refine ⟨?_, ?_⟩
    · calc a ≤ max a b := le_max_left a b
        _ ≤ _ := (ih (max a b)).1
    · intro x hx
      rcases List.mem_cons.mp hx with h | h
      · subst h
        calc x ≤ max a x := le_max_right a x
          _ ≤ _ := (ih (max a x)).1
      · exact (ih (max a b)).2 x h

theorem getD_length_le_maxColsOf (rows : List (List Glyph)) (k : Nat)
    (hk : k < rows.length) : (rows.getD k []).length ≤ maxColsOf rows := by
  have hmem : (rows.getD k []).length ∈ rows.map (·.length) := by
    refine List.mem_map.mpr ⟨rows.getD k [], ?_, rfl⟩
    rw [List.getD_eq_getElem _ _ hk]
    exact List.getElem_mem _
  exact (le_foldl_max (rows.map (·.length)) 0).2 _ hmem

theorem rowCellsFrom_pairwise (ri ci : Nat) (gs : List Glyph) :
    (rowCellsFrom ri ci gs).Pairwise (fun a b => (a.row, a.col) ≠ (b.row, b.col)) := by
  induction gs generalizing ci with
  | nil => exact List.Pairwise.nil
  | cons g gs ih =>
    refine List.Pairwise.cons ?_ (ih (ci + 1))
    intro b hb h
    obtain ⟨-, hge, -⟩ := mem_rowCellsFrom hb
    have : ci = b.col := congrArg Prod.snd h
    omega

theorem cellsFrom_pairwise (ri : Nat) (rows : List (List Glyph)) :
    (cellsFrom ri rows).Pairwise (fun a b => (a.row, a.col) ≠ (b.row, b.col)) := by
  induction rows generalizing ri with
  | nil => exact List.Pairwise.nil
  | cons row rest ih =>
    rw [cellsFrom, List.pairwise_append]
    refine ⟨rowCellsFrom_pairwise ri 0 row, ih (ri + 1), ?_⟩
    intro a ha b hb h
    obtain ⟨ha1, -, -⟩ := mem_rowCellsFrom ha
    obtain ⟨k, -, hb1, -⟩ := mem_cellsFrom hb
    have : a.row = b.row := congrArg Prod.fst h
    omega

/-- C8: every table produced by `createTableFromCandidate` has pairwise
distinct cell addresses, and every cell's `(row, col)` lies within
`[0, rows) × [0, columns)`, where `columns` is the length of the longest
member row. -/
theorem createTableFromCandidate_cells_wf :
    ∀ (candidate : TableCandidate) (page idx : Nat) (t : Table),
      createTableFromCandidate candidate page idx = some t →
      t.cells.Pairwise (fun a b => (a.row, a.col) ≠ (b.row, b.col)) ∧
      ∀ cell ∈ t.cells, cell.row < t.rows ∧ cell.col < t.columns := by
  intro candidate page idx t h
  unfold createTableFromCandidate at h
  by_cases hz : candidate.rows.length = 0
  · simp only [if_pos hz] at h; cases h
  · simp only [if_neg hz, Option.some.injEq] at h
    subst h
    refine ⟨cellsFrom_pairwise 0 candidate.rows, ?_⟩
    intro cell hc
    obtain ⟨k, hk, hrow, hcol⟩ := mem_cellsFrom hc
    constructor
    · show cell.row < candidate.rows.length
      omega
    · show cell.col < maxColsOf candidate.rows
      calc cell.col < (candidate.rows.getD k []).length := hcol
        _ ≤ maxColsOf candidate.rows := getD_length_le_maxColsOf _ _ hk

/-- A concrete 2 × 2-ish candidate used to witness C8. -/
def candWitness : TableCandidate :=
  ⟨[[⟨"a", 0, 9, 1, 1⟩, ⟨"b", 5, 9, 1, 1⟩], [⟨"c", 0, 4, 1, 1⟩]], 0, 1⟩

/-- The table materialized from `candWitness`. -/
def tableWitness : Table := (createTableFromCandidate candWitness 1 0).getD default

/-- Witness for C8 at a concrete candidate. -/
theorem createTableFromCandidate_cells_wf_witness :
    tableWitness.cells.Pairwise (fun a b => (a.row, a.col) ≠ (b.row, b.col)) ∧
    ∀ cell ∈ tableWitness.cells, cell.row < tableWitness.rows ∧
      cell.col < tableWitness.columns :=
  createTableFromCandidate_cells_wf candWitness 1 0 tableWitness rfl

/-- Whether the row at index `k` qualifies as a table row (`rows[k]` in the
scan loops of `detectTableStructures`; out-of-range reads never qualify
since the empty row has fewer than `MIN_TABLE_COLS` glyphs). -/
def qualAt (rows : List (List Glyph)) (k : Nat) : Bool :=
  isTableRow (rows.getD k [])

theorem qualAt_lt {rows : List (List Glyph)} {k : Nat}
    (h : qualAt rows k = true) : k < rows.length := by
  by_contra hge
  push_neg at hge
  rw [qualAt, List.getD_eq_default _ _ hge] at h
  exact absurd h (by simp [isTableRow, MIN_TABLE_COLS])

/-- The inner `while (j < rows.length && isTableRow(rows[j])) j++` loop of
`detectTableStructures`: the first index `≥ j` whose row does not qualify
(or `rows.length`). -/
def scanRunEnd (rows : List (List Glyph)) (j : Nat) : Nat :=
  if h : j < rows.length then
    if qualAt rows j then scanRunEnd rows (j + 1) else j
  else j
termination_by rows.length - j
decreasing_by omega

theorem scanRunEnd_le (rows : List (List Glyph)) (j : Nat) :
    j ≤ scanRunEnd rows j := by
  induction j using scanRunEnd.induct rows with
  | case1 j h hq ih => rw [scanRunEnd, dif_pos h, if_pos hq]; omega
  | case2 j h hq => rw [scanRunEnd, dif_pos h, if_neg hq]
  | case3 j h => rw [scanRunEnd, dif_neg h]

theorem scanRunEnd_not_qual (rows : List (List Glyph)) (j : Nat) :
    qualAt rows (scanRunEnd rows j) = false := by
  induction j using scanRunEnd.induct rows with
  | case1 j h hq ih => rwa [scanRunEnd, dif_pos h, if_pos hq]
  | case2 j h hq => rw [scanRunEnd, dif_pos h, if_neg hq]; simpa using hq
  | case3 j h =>
    rw [scanRunEnd, dif_neg h]
    by_contra hq
    exact h (qualAt_lt (by simpa using hq))

theorem scanRunEnd_qual (rows : List (List Glyph)) (j : Nat) :
    ∀ k, j ≤ k → k < scanRunEnd rows j → qualAt rows k = true := by
  induction j using scanRunEnd.induct rows with
  | case1 j h hq ih =>
    intro k hjk hk
    rw [scanRunEnd, dif_pos h, if_pos hq] at hk
    rcases Nat.eq_or_lt_of_le hjk with heq | hlt
    · subst heq; exact hq
    · exact ih k hlt hk
  | case2 j h hq => intro k hjk hk; rw [scanRunEnd, dif_pos h, if_neg hq] at hk; omega
  | case3 j h => intro k hjk hk; rw [scanRunEnd, dif_neg h] at hk; omega

theorem scanRunEnd_le_length (rows : List (List Glyph)) (j : Nat)
    (h : j ≤ rows.length) : scanRunEnd rows j ≤ rows.length := by
  induction j using scanRunEnd.induct rows with
  | case1 j hlt hq ih => rw [scanRunEnd, dif_pos hlt, if_pos hq]; exact ih hlt
  | case2 j hlt hq => rw [scanRunEnd, dif_pos hlt, if_neg hq]; omega
  | case3 j hlt => rw [scanRunEnd, dif_neg hlt]; exact h

theorem scanRunEnd_gt {rows : List (List Glyph)} {j : Nat}
    (hq : qualAt rows j = true) : j < scanRunEnd rows j := by
  have h : j < rows.length := qualAt_lt hq
  rw [scanRunEnd, dif_pos h, if_pos hq]
  have := scanRunEnd_le rows (j + 1)
  omega

/-- `detectTableStructures`'s scan, started at index `i` (the `for` loop with
its `i = j - 1` skip after a processed run). -/
def detectFrom (rows : List (List Glyph)) (i : Nat) : List TableCandidate :=
  if h : i + 1 < rows.length then
    if hq : qualAt rows i && qualAt rows (i + 1) then
      let j := scanRunEnd rows (i + 1)
      let run := (rows.drop i).take (j - i)
      let rest := detectFrom rows j
      if MIN_TABLE_ROWS ≤ run.length then ⟨run, i, j - 1⟩ :: rest else rest
    else detectFrom rows (i + 1)
  else []
termination_by rows.length - i
decreasing_by
  · have h1 : i + 1 ≤ scanRunEnd rows (i + 1) := scanRunEnd_le rows (i + 1)
    omega
  · omega

/-- `PDFProcessor.detectTableStructures`. -/
def detectTableStructures (rows : List (List Glyph)) : List TableCandidate :=
  detectFrom rows 0

/-- The contiguous slice `rows[s..e]` that a candidate run carries. -/
def runSlice (rows : List (List Glyph)) (s e : Nat) : List (List Glyph) :=
  (rows.drop s).take (e + 1 - s)

/-- A maximal run of qualifying rows: every row in `[s, e]` qualifies, the
row before `s` (if any) does not, and the row after `e` does not (an
out-of-range read never qualifies). -/
def MaxRun (rows : List (List Glyph)) (s e : Nat) : Prop :=
  s ≤ e ∧
  (∀ k ∈ Finset.Icc s e, qualAt rows k = true) ∧
  (s = 0 ∨ qualAt rows (s - 1) = false) ∧
  qualAt rows (e + 1) = false

theorem detectFrom_trigger {rows : List (List Glyph)} {i : Nat}
    (h : i + 1 < rows.length)
    (hq : (qualAt rows i && qualAt rows (i + 1)) = true) :
    detectFrom rows i =
      if MIN_TABLE_ROWS ≤ ((rows.drop i).take (scanRunEnd rows (i + 1) - i)).length
      then (⟨(rows.drop i).take (scanRunEnd rows (i + 1) - i), i,
              scanRunEnd rows (i + 1) - 1⟩ : TableCandidate) ::
             detectFrom rows (scanRunEnd rows (i + 1))
      else detectFrom rows (scanRunEnd rows (i + 1)) := by
  rw [detectFrom, dif_pos h, dif_pos hq]

theorem detectFrom_no_trigger {rows : List (List Glyph)} {i : Nat}
    (h : i + 1 < rows.length)
    (hq : ¬ (qualAt rows i && qualAt rows (i + 1)) = true) :
    detectFrom rows i = detectFrom rows (i + 1) := by
  rw [detectFrom, dif_pos h, dif_neg hq]

theorem detectFrom_stop {rows : List (List Glyph)} {i : Nat}
    (h : ¬ i + 1 < rows.length) : detectFrom rows i = [] := by
  rw [detectFrom, dif_neg h]

theorem detectFrom_mem_iff (rows : List (List Glyph)) :
    ∀ n i, rows.length - i ≤ n →
      (i = 0 ∨ qualAt rows (i - 1) = false ∨ qualAt rows i = false) →
      ∀ c : TableCandidate,
        c ∈ detectFrom rows i ↔
          ∃ s e, i ≤ s ∧ c = ⟨runSlice rows s e, s, e⟩ ∧ MaxRun rows s e ∧
            MIN_TABLE_ROWS ≤ e + 1 - s := by
  intro n
  induction n with
  | zero =>
    intro i hn _ c
    rw [detectFrom_stop (by omega)]
    simp only [List.not_mem_nil, false_iff, not_exists]
    rintro s e ⟨hs, -, ⟨hse, hqmem, -, -⟩, h3⟩
    have he := qualAt_lt (hqmem e (by simp [Finset.mem_Icc]; omega))
    omega
  | succ n ih =>
    intro i hn hpre c
    by_cases h : i + 1 < rows.length
    · by_cases hq : (qualAt rows i && qualAt rows (i + 1)) = true
      · obtain ⟨hqi, hqi1⟩ := Bool.and_eq_true_iff.mp hq
        set j := scanRunEnd rows (i + 1) with hjdef
        have hj2 : i + 1 < j := scanRunEnd_gt hqi1
        have hjq : qualAt rows j = false := scanRunEnd_not_qual rows (i + 1)
        have hmid : ∀ k, i + 1 ≤ k → k < j → qualAt rows k = true :=
          scanRunEnd_qual rows (i + 1)
        have hjlen : j ≤ rows.length := scanRunEnd_le_length rows (i + 1) (by omega)
        have hrunlen : ((rows.drop i).take (j - i)).length = j - i := by
          simp only [List.length_take, List.length_drop]
          omega
        have hmaxrun : MaxRun rows i (j - 1) := by
          refine ⟨by omega, ?_, ?_, ?_⟩
          · intro k hk
            simp only [Finset.mem_Icc] at hk
            rcases Nat.eq_or_lt_of_le hk.1 with heq | hlt
            · rw [← heq]; exact hqi
            · exact hmid k hlt (by omega)
          · rcases hpre with h0 | hpre | hfalse
            · exact Or.inl h0
            · exact Or.inr hpre
            · rw [hqi] at hfalse; simp at hfalse
          · have : j - 1 + 1 = j := by omega
            rw [this]; exact hjq
        -- a maximal run starting exactly at i must end exactly at j - 1
        have huniq : ∀ e, MaxRun rows i e → e = j - 1 := by
          rintro e ⟨hse, hqmem, -, hnotq⟩
          have h1 : j ≤ e + 1 := by
            by_contra hcon
            push_neg at hcon
            have hmt := hmid (e + 1) (by omega) hcon
            rw [hnotq] at hmt
            simp at hmt
          have h2 : e + 1 ≤ j := by
            by_contra hcon
            push_neg at hcon
            have hmt := hqmem j (by simp [Finset.mem_Icc]; omega)
            rw [hjq] at hmt
            simp at hmt
          omega
        -- a maximal run starting strictly after i starts at or after j
        have hafter : ∀ s e, MaxRun rows s e → i < s → j ≤ s := by
          rintro s e ⟨hse, hqmem, hleft, -⟩ his
          by_contra hcon
          push_neg at hcon
          have hq1 : qualAt rows (s - 1) = true := by
            rcases Nat.eq_or_lt_of_le his with heq | hlt
            · rw [← heq]; simpa using hqi
            · exact hmid (s - 1) (by omega) (by omega)
          rcases hleft with h0 | hqf
          · omega
          · rw [hqf] at hq1; simp at hq1
        have hslice : (⟨(rows.drop i).take (j - i), i, j - 1⟩ : TableCandidate) =
            ⟨runSlice rows i (j - 1), i, j - 1⟩ := by
          unfold runSlice
          have : j - 1 + 1 - i = j - i := by omega
          rw [this]
        have hihj := ih j (by omega) (Or.inr (Or.inr hjq))
        rw [detectFrom_trigger h hq, ← hjdef]
        by_cases hlen3 : MIN_TABLE_ROWS ≤ ((rows.drop i).take (j - i)).length
        · rw [if_pos hlen3]
          rw [hrunlen] at hlen3
          constructor
          · intro hc
            rcases List.mem_cons.mp hc with hceq | hcmem
            · refine ⟨i, j - 1, le_refl i, by rw [hceq, hslice], hmaxrun, ?_⟩
              unfold MIN_TABLE_ROWS at hlen3 ⊢
              omega
            · obtain ⟨s, e, hs, hceq, hmr, h3⟩ := (hihj c).mp hcmem
              exact ⟨s, e, by omega, hceq, hmr, h3⟩
          · rintro ⟨s, e, hs, hceq, hmr, h3⟩
            rcases Nat.eq_or_lt_of_le hs with heq | hlt
            · subst heq
              have he := huniq e hmr
              subst he
              exact List.mem_cons.mpr (Or.inl (by rw [hceq, hslice]))
            · exact List.mem_cons.mpr
                (Or.inr ((hihj c).mpr ⟨s, e, hafter s e hmr hlt, hceq, hmr, h3⟩))
        · rw [if_neg hlen3]
          rw [hrunlen] at hlen3
          constructor
          · intro hc
            obtain ⟨s, e, hs, hceq, hmr, h3⟩ := (hihj c).mp hc
            exact ⟨s, e, by omega, hceq, hmr, h3⟩
          · rintro ⟨s, e, hs, hceq, hmr, h3⟩
            rcases Nat.eq_or_lt_of_le hs with heq | hlt
            · subst heq
              have he := huniq e hmr
              subst he
              unfold MIN_TABLE_ROWS at hlen3 h3
              omega
            · exact (hihj c).mpr ⟨s, e, hafter s e hmr hlt, hceq, hmr, h3⟩
      · rw [detectFrom_no_trigger h hq]
        have hor : qualAt rows i = false ∨ qualAt rows (i + 1) = false := by
          cases hi : qualAt rows i with
          | false => exact Or.inl rfl
          | true =>
            cases hi1 : qualAt rows (i + 1) with
            | false => exact Or.inr rfl
            | true => rw [hi, hi1] at hq; simp at hq
        have hih := ih (i + 1) (by omega) (by
          rcases hor with hf | hf
          · exact Or.inr (Or.inl (by simpa using hf))
          · exact Or.inr (Or.inr hf))
        constructor
        · intro hc
          obtain ⟨s, e, hs, hceq, hmr, h3⟩ := (hih c).mp hc
          exact ⟨s, e, by omega, hceq, hmr, h3⟩
        · rintro ⟨s, e, hs, hceq, hmr, h3⟩
          refine (hih c).mpr ⟨s, e, ?_, hceq, hmr, h3⟩
          rcases Nat.eq_or_lt_of_le hs with heq | hlt
          · exfalso
            obtain ⟨hse, hqmem, -, -⟩ := hmr
            unfold MIN_TABLE_ROWS at h3
            have hq1 : qualAt rows i = true := by
              rw [heq]; exact hqmem s (by simp [Finset.mem_Icc]; omega)
            have hq2 : qualAt rows (i + 1) = true := by
              rw [heq]; exact hqmem (s + 1) (by simp [Finset.mem_Icc]; omega)
            rw [hq1, hq2] at hq
            simp at hq
          · omega
    · rw [detectFrom_stop h]
      simp only [List.not_mem_nil, false_iff, not_exists]
      rintro s e ⟨hs, -, ⟨hse, hqmem, -, -⟩, h3⟩
      have he := qualAt_lt (hqmem e (by simp [Finset.mem_Icc]; omega))
      unfold MIN_TABLE_ROWS at h3
      omega

/-- JavaScript's whitespace class (`\s`, `trim`), restricted to the ASCII
whitespace characters relevant to this pipeline. -/
def isJsWhitespace (c : Char) : Bool :=
  c = ' ' || c = '\t' || c = '\n' || c = '\r' || c = '\x0b' || c = '\x0c'

/-- `String.prototype.trim` on a character list. -/
def jsTrimList (cs : List Char) : List Char :=
  ((cs.dropWhile isJsWhitespace).reverse.dropWhile isJsWhitespace).reverse

/-- `String.prototype.trim`. -/
def jsTrim (s : String) : String := String.mk (jsTrimList s.data)

/-- `yTolerance = 3` in `groupTextItemsIntoRows`. -/
def Y_TOLERANCE : Rat := 3

/-- The `textItems.forEach` body of `groupTextItemsIntoRows`: attach the
glyph to the first open row whose first glyph's y-coordinate lies within
the tolerance, else open a new row at the end. -/
def addToFirstMatchingRow : List (List Glyph) → Glyph → List (List Glyph)
  | [], item => [[item]]
  | row :: rest, item =>
    if 0 < row.length ∧ |item.y - (row.headD default).y| ≤ Y_TOLERANCE then
      (row ++ [item]) :: rest
    else row :: addToFirstMatchingRow rest item

/-- `PDFProcessor.groupTextItemsIntoRows`: cluster glyphs into rows by
y-tolerance, then sort rows by descending y (top of page first) and each
row's glyphs by ascending x.  `Array.prototype.sort` is stable in modern
JavaScript, as is `List.mergeSort`. -/
def groupTextItemsIntoRows (textItems : List Glyph) : List (List Glyph) :=
  let rows := textItems.foldl addToFirstMatchingRow []
  let sorted := rows.mergeSort
    (fun a b => decide ((b.headD default).y ≤ (a.headD default).y))
  sorted.map (fun row => row.mergeSort (fun a b => decide (a.x ≤ b.x)))

/-- `PDFProcessor.extractTablesFromPage` (minus the pdf.js plumbing):
filter glyphs with nonempty trimmed text, group them into rows, detect
candidate runs, materialize each candidate, and keep only tables meeting
both size thresholds. -/
def extractTablesFromPage (textItems : List Glyph) (pageNumber : Nat) : List Table :=
  let filtered := textItems.filter (fun item => 0 < (jsTrim item.str).length)
  if filtered.length = 0 then []
  else
    let rows := groupTextItemsIntoRows filtered
    let tableCandidates := detectTableStructures rows
    tableCandidates.enum.filterMap (fun p =>
      match createTableFromCandidate p.2 pageNumber p.1 with
      | some table =>
        if MIN_TABLE_ROWS ≤ table.rows ∧ MIN_TABLE_COLS ≤ table.columns then
          some table
        else none
      | none => none)

theorem maxrun_no_start_inside {rows : List (List Glyph)} {s1 e1 s2 e2 : Nat}
    (h1 : MaxRun rows s1 e1) (h2 : MaxRun rows s2 e2)
    (hlt : s1 < s2) (hle : s2 ≤ e1) : False := by
  obtain ⟨-, hq1, -, -⟩ := h1
  obtain ⟨-, -, hleft2, -⟩ := h2
  have hqa : qualAt rows (s2 - 1) = true :=
    hq1 (s2 - 1) (by simp [Finset.mem_Icc]; omega)
  rcases hleft2 with h0 | hf
  · omega
  · rw [hf] at hqa; simp at hqa

theorem maxrun_no_end_inside {rows : List (List Glyph)} {s1 e1 s2 e2 : Nat}
    (h1 : MaxRun rows s1 e1) (h2 : MaxRun rows s2 e2)
    (hlt : e1 < e2) (hge : s2 ≤ e1 + 1) : False := by
  obtain ⟨-, -, -, hend1⟩ := h1
  obtain ⟨-, hq2, -, -⟩ := h2
  have hqa : qualAt rows (e1 + 1) = true :=
    hq2 (e1 + 1) (by simp [Finset.mem_Icc]; omega)
  rw [hend1] at hqa; simp at hqa

theorem maxrun_overlap_eq {rows : List (List Glyph)} {s1 e1 s2 e2 : Nat}
    (h1 : MaxRun rows s1 e1) (h2 : MaxRun rows s2 e2)
    (ho1 : s2 ≤ e1) (ho2 : s1 ≤ e2) : s1 = s2 ∧ e1 = e2 := by
  have hs : s1 = s2 := by
    by_contra hne
    rcases Nat.lt_or_ge s1 s2 with hlt | hge
    · exact maxrun_no_start_inside h1 h2 hlt ho1
    · exact maxrun_no_start_inside h2 h1 (by omega) ho2
  subst hs
  have he : e1 = e2 := by
    by_contra hne
    rcases Nat.lt_or_ge e1 e2 with hlt | hge
    · exact maxrun_no_end_inside h1 h2 hlt (by omega)
    · exact maxrun_no_end_inside h2 h1 (by omega) (by
        obtain ⟨hse, -, -, -⟩ := h2; omega)
  exact ⟨rfl, he⟩

/-- C6: a candidate is produced by the top-to-bottom scan exactly for each
maximal run of consecutively qualifying rows of length at least
`MIN_ROWS = 3` (a run opens where two consecutive rows qualify, extends
greedily, and carries exactly the rows `rows[s..e]`); distinct candidates
never overlap; and a materialized table is accepted by
`extractTablesFromPage` only when it has at least `MIN_ROWS` rows and
`MIN_COLS` columns. -/
theorem detectTableStructures_characterization :
    (∀ (rows : List (List Glyph)) (c : TableCandidate),
        c ∈ detectTableStructures rows ↔
          ∃ s e, c = ⟨runSlice rows s e, s, e⟩ ∧ MaxRun rows s e ∧
            MIN_TABLE_ROWS ≤ e + 1 - s) ∧
    (∀ (rows : List (List Glyph)) (c₁ c₂ : TableCandidate),
        c₁ ∈ detectTableStructures rows → c₂ ∈ detectTableStructures rows →
        c₁ ≠ c₂ →
        c₁.endIndex < c₂.startIndex ∨ c₂.endIndex < c₁.startIndex) ∧
    (∀ (textItems : List Glyph) (pageNumber : Nat),
        (extractTablesFromPage textItems pageNumber).all
          (fun t => decide (MIN_TABLE_ROWS ≤ t.rows ∧ MIN_TABLE_COLS ≤ t.columns)) =
          true) := by
  have hmain : ∀ (rows : List (List Glyph)) (c : TableCandidate),
      c ∈ detectTableStructures rows ↔
        ∃ s e, c = ⟨runSlice rows s e, s, e⟩ ∧ MaxRun rows s e ∧
          MIN_TABLE_ROWS ≤ e + 1 - s := by
    intro rows c
    have h := detectFrom_mem_iff rows rows.length 0 (by omega) (Or.inl rfl) c
    rw [detectTableStructures]
    rw [h]
    constructor
    · rintro ⟨s, e, -, hceq, hmr, h3⟩; exact ⟨s, e, hceq, hmr, h3⟩
    · rintro ⟨s, e, hceq, hmr, h3⟩; exact ⟨s, e, Nat.zero_le s, hceq, hmr, h3⟩
  refine ⟨hmain, ?_, ?_⟩
  · intro rows c₁ c₂ hm1 hm2 hne
    obtain ⟨s1, e1, hc1, hmr1, h31⟩ := (hmain rows c₁).mp hm1
    obtain ⟨s2, e2, hc2, hmr2, h32⟩ := (hmain rows c₂).mp hm2
    by_contra hov
    push_neg at hov
    obtain ⟨ho1, ho2⟩ := hov
    rw [hc1, hc2] at ho1 ho2
    dsimp only at ho1 ho2
    obtain ⟨hs, he⟩ := maxrun_overlap_eq hmr1 hmr2 ho1 ho2
    exact hne (by rw [hc1, hc2, hs, he])
  · intro textItems pageNumber
    rw [List.all_eq_true]
    intro t ht
    unfold extractTablesFromPage at ht
    by_cases hz :
        (textItems.filter (fun item => 0 < (jsTrim item.str).length)).length = 0
    · rw [if_pos hz] at ht; cases ht
    · rw [if_neg hz] at ht
      simp only [List.mem_filterMap] at ht
      obtain ⟨p, -, hp⟩ := ht
      split at hp
      · split at hp
        · rename_i hok
          rw [Option.some.injEq] at hp
          subst hp
          exact decide_eq_true hok
        · cases hp
      · cases hp

/-- Two runs of three evenly-spaced rows separated by a short prose-like
row, used to witness C6. -/
def rowsDetectWitness : List (List Glyph) :=
  [[⟨"a", 0, 70, 1, 1⟩, ⟨"b", 10, 70, 1, 1⟩, ⟨"c", 20, 70, 1, 1⟩],
   [⟨"d", 0, 60, 1, 1⟩, ⟨"e", 10, 60, 1, 1⟩, ⟨"f", 20, 60, 1, 1⟩],
   [⟨"g", 0, 50, 1, 1⟩, ⟨"h", 10, 50, 1, 1⟩, ⟨"i", 20, 50, 1, 1⟩],
   [⟨"z", 0, 40, 1, 1⟩],
   [⟨"j", 0, 30, 1, 1⟩, ⟨"k", 10, 30, 1, 1⟩, ⟨"l", 20, 30, 1, 1⟩],
   [⟨"m", 0, 20, 1, 1⟩, ⟨"n", 10, 20, 1, 1⟩, ⟨"o", 20, 20, 1, 1⟩],
   [⟨"p", 0, 10, 1, 1⟩, ⟨"q", 10, 10, 1, 1⟩, ⟨"r", 20, 10, 1, 1⟩]]

/-- The first candidate the scan should produce on `rowsDetectWitness`. -/
def candDetectA : TableCandidate :=
  ⟨[[⟨"a", 0, 70, 1, 1⟩, ⟨"b", 10, 70, 1, 1⟩, ⟨"c", 20, 70, 1, 1⟩],
    [⟨"d", 0, 60, 1, 1⟩, ⟨"e", 10, 60, 1, 1⟩, ⟨"f", 20, 60, 1, 1⟩],
    [⟨"g", 0, 50, 1, 1⟩, ⟨"h", 10, 50, 1, 1⟩, ⟨"i", 20, 50, 1, 1⟩]], 0, 2⟩

/-- The second candidate the scan should produce on `rowsDetectWitness`. -/
def candDetectB : TableCandidate :=
  ⟨[[⟨"j", 0, 30, 1, 1⟩, ⟨"k", 10, 30, 1, 1⟩, ⟨"l", 20, 30, 1, 1⟩],
    [⟨"m", 0, 20, 1, 1⟩, ⟨"n", 10, 20, 1, 1⟩, ⟨"o", 20, 20, 1, 1⟩],
    [⟨"p", 0, 10, 1, 1⟩, ⟨"q", 10, 10, 1, 1⟩, ⟨"r", 20, 10, 1, 1⟩]], 4, 6⟩

/-- Witness for C6: the two maximal qualifying runs `[0, 2]` and `[4, 6]` of
`rowsDetectWitness` are reported as candidates, they do not overlap, and
the acceptance filter of `extractTablesFromPage` holds on a concrete page. -/
theorem detectTableStructures_characterization_witness :
    candDetectA ∈ detectTableStructures rowsDetectWitness ∧
    candDetectB ∈ detectTableStructures rowsDetectWitness ∧
    (candDetectA.endIndex < candDetectB.startIndex ∨
      candDetectB.endIndex < candDetectA.startIndex) ∧
    (extractTablesFromPage [] 0).all
      (fun t => decide (MIN_TABLE_ROWS ≤ t.rows ∧ MIN_TABLE_COLS ≤ t.columns)) =
      true := by
  have hqrow : ∀ k ∈ Finset.Icc 0 2, qualAt rowsDetectWitness k = true := by
    intro k hk
    simp only [Finset.mem_Icc] at hk
    obtain ⟨-, hk2⟩ := hk
    match k, hk2 with
    | 0, _ =>
      norm_num [qualAt, rowsDetectWitness, isTableRow, consecutiveGaps,
        gapWithinHalfOfMean, MIN_TABLE_COLS, TABLE_DETECTION_THRESHOLD]
    | 1, _ =>
      norm_num [qualAt, rowsDetectWitness, isTableRow, consecutiveGaps,
        gapWithinHalfOfMean, MIN_TABLE_COLS, TABLE_DETECTION_THRESHOLD]
    | 2, _ =>
      norm_num [qualAt, rowsDetectWitness, isTableRow, consecutiveGaps,
        gapWithinHalfOfMean, MIN_TABLE_COLS, TABLE_DETECTION_THRESHOLD]
  have hqrow2 : ∀ k ∈ Finset.Icc 4 6, qualAt rowsDetectWitness k = true := by
    intro k hk
    simp only [Finset.mem_Icc] at hk
    obtain ⟨hk1, hk2⟩ := hk
    match k, hk1, hk2 with
    | 4, _, _ =>
      norm_num [qualAt, rowsDetectWitness, isTableRow, consecutiveGaps,
        gapWithinHalfOfMean, MIN_TABLE_COLS, TABLE_DETECTION_THRESHOLD]
    | 5, _, _ =>
      norm_num [qualAt, rowsDetectWitness, isTableRow, consecutiveGaps,
        gapWithinHalfOfMean, MIN_TABLE_COLS, TABLE_DETECTION_THRESHOLD]
    | 6, _, _ =>
      norm_num [qualAt, rowsDetectWitness, isTableRow, consecutiveGaps,
        gapWithinHalfOfMean, MIN_TABLE_COLS, TABLE_DETECTION_THRESHOLD]
  have hq3 : qualAt rowsDetectWitness 3 = false := by
    norm_num [qualAt, rowsDetectWitness, isTableRow, MIN_TABLE_COLS]
  have hq7 : qualAt rowsDetectWitness 7 = false := rfl
  have hmA : candDetectA ∈ detectTableStructures rowsDetectWitness :=
    (detectTableStructures_characterization.1 rowsDetectWitness
      candDetectA).mpr ⟨0, 2, rfl, ⟨by omega, hqrow, Or.inl rfl, hq3⟩, by decide⟩
  have hmB : candDetectB ∈ detectTableStructures rowsDetectWitness :=
    (detectTableStructures_characterization.1 rowsDetectWitness
      candDetectB).mpr ⟨4, 6, rfl, ⟨by omega, hqrow2, Or.inr hq3, hq7⟩, by decide⟩
  have hne : candDetectA ≠ candDetectB := by
    intro h
    have := congrArg TableCandidate.startIndex h
    simp [candDetectA, candDetectB] at this
  refine ⟨hmA, hmB, ?_, detectTableStructures_characterization.2.2 [] 0⟩
  exact detectTableStructures_characterization.2.1 rowsDetectWitness
    candDetectA candDetectB hmA hmB hne

/-! ## JavaScript values and `JSON.parse`

The response-recovery pipeline operates on values produced by
`response.json()`, i.e. parsed JSON: acyclic, unshared trees.  We model
them as an inductive type.  Numbers are exact rationals (JavaScript
parses them to doubles; no claim depends on rounding). -/

/-- The opening brace character (spelled via its code point). -/
def braceOpen : Char := Char.ofNat 123

/-- The closing brace character (spelled via its code point). -/
def braceClose : Char := Char.ofNat 125

/-- The backquote character (spelled via its code point). -/
def backquoteChar : Char := Char.ofNat 96

/-- A JSON value / JavaScript object tree. -/
inductive JsVal where
  | nullV : JsVal
  | boolV : Bool → JsVal
  | numV : Rat → JsVal
  | strV : String → JsVal
  | arrV : List JsVal → JsVal
  | objV : List (String × JsVal) → JsVal
  deriving Inhabited

mutual

/-- Structural equality on `JsVal` (decidable equality is derived from it
below; the automatic derivation does not support this nested inductive). -/
def jsValBeq : JsVal → JsVal → Bool
  | .nullV, .nullV => true
  | .boolV a, .boolV b => a == b
  | .numV a, .numV b => a == b
  | .strV a, .strV b => a == b
  | .arrV a, .arrV b => jsValListBeq a b
  | .objV a, .objV b => jsValFieldsBeq a b
  | _, _ => false

/-- Elementwise equality on value lists. -/
def jsValListBeq : List JsVal → List JsVal → Bool
  | [], [] => true
  | a :: as, b :: bs => jsValBeq a b && jsValListBeq as bs
  | _, _ => false

/-- Entrywise equality on field lists. -/
def jsValFieldsBeq : List (String × JsVal) → List (String × JsVal) → Bool
  | [], [] => true
  | (k1, v1) :: as, (k2, v2) :: bs =>
    k1 == k2 && jsValBeq v1 v2 && jsValFieldsBeq as bs
  | _, _ => false

end

theorem jsValBeq_iff_aux :
    ∀ (n : Nat) (a b : JsVal), sizeOf a ≤ n → (jsValBeq a b = true ↔ a = b) := by
  intro n
  induction n with
  | zero =>
    intro a b h
    exfalso
    cases a <;> simp at h
  | succ n ih =>
    have hlist : ∀ (xs ys : List JsVal), (∀ x ∈ xs, sizeOf x ≤ n) →
        (jsValListBeq xs ys = true ↔ xs = ys) := by
      intro xs
      induction xs with
      | nil => intro ys _; cases ys <;> simp [jsValListBeq]
      | cons x xs ihx =>
        intro ys hsz
        cases ys with
        | nil => simp [jsValListBeq]
        | cons y ys =>
          rw [jsValListBeq]
          rw [Bool.and_eq_true]
          rw [ih x y (hsz x (by simp))]
          rw [ihx ys (fun z hz => hsz z (by simp [hz]))]
          simp
    have hfields : ∀ (xs ys : List (String × JsVal)),
        (∀ p ∈ xs, sizeOf p.2 ≤ n) →
        (jsValFieldsBeq xs ys = true ↔ xs = ys) := by
      intro xs
      induction xs with
      | nil => intro ys _; cases ys <;> simp [jsValFieldsBeq]
      | cons x xs ihx =>
        intro ys hsz
        obtain ⟨k1, v1⟩ := x
        cases ys with
        | nil => simp [jsValFieldsBeq]
        | cons y ys =>
          obtain ⟨k2, v2⟩ := y
          rw [jsValFieldsBeq]
          rw [Bool.and_eq_true, Bool.and_eq_true]
          rw [ih v1 v2 (hsz (k1, v1) (by simp))]
          rw [ihx ys (fun z hz => hsz z (by simp [hz]))]
          constructor
          · rintro ⟨⟨hk, hv⟩, hrest⟩
            rw [beq_iff_eq] at hk
            rw [hk, hv, hrest]
          · rintro heq
            injection heq with h1 h2
            injection h1 with hk hv
            exact ⟨⟨by rw [hk, beq_iff_eq], hv⟩, h2⟩
    intro a b h
    cases a with
    | nullV => cases b <;> simp [jsValBeq]
    | boolV x => cases b <;> simp [jsValBeq]
    | numV x => cases b <;> simp [jsValBeq]
    | strV x => cases b <;> simp [jsValBeq]
    | arrV xs =>
      cases b with
      | arrV ys =>
        have hsz : ∀ x ∈ xs, sizeOf x ≤ n := by
          intro x hx
          have h1 : sizeOf x < sizeOf xs := List.sizeOf_lt_of_mem hx
          have h2 : sizeOf (JsVal.arrV xs) = 1 + sizeOf xs := by simp
          omega
        rw [jsValBeq, hlist xs ys hsz]
        simp
      | nullV => simp [jsValBeq]
      | boolV y => simp [jsValBeq]
      | numV y => simp [jsValBeq]
      | strV y => simp [jsValBeq]
      | objV y => simp [jsValBeq]
    | objV fs =>
      cases b with
      | objV gs =>
        have hsz : ∀ p ∈ fs, sizeOf p.2 ≤ n := by
          intro p hp
          have h1 : sizeOf p < sizeOf fs := List.sizeOf_lt_of_mem hp
          have h2 : sizeOf (JsVal.objV fs) = 1 + sizeOf fs := by simp
          have h3 : sizeOf p.2 < sizeOf p := by
            obtain ⟨k, v⟩ := p
            simp
          omega
        rw [jsValBeq, hfields fs gs hsz]
        simp
      | nullV => simp [jsValBeq]
      | boolV y => simp [jsValBeq]
      | numV y => simp [jsValBeq]
      | strV y => simp [jsValBeq]
      | arrV y => simp [jsValBeq]

instance : DecidableEq JsVal := fun a b =>
  decidable_of_iff (jsValBeq a b = true) (jsValBeq_iff_aux (sizeOf a) a b (le_refl _))

/-- JavaScript truthiness (`NaN` never arises in the model: parsed numbers
are finite). -/
def jsTruthy : JsVal → Bool
  | .nullV => false
  | .boolV b => b
  | .numV q => decide (q ≠ 0)
  | .strV s => decide (s ≠ "")
  | .arrV _ => true
  | .objV _ => true

/-- Property read `v[k]`: `none` models JavaScript `undefined` (also for
reads on non-objects, which this defensive code performs freely). -/
def getField : JsVal → String → Option JsVal
  | .objV fields, k => fields.lookup k
  | _, _ => none

/-- Property read collapsing `undefined` to `null`; the pipeline only ever
distinguishes the two through truthiness and `??`, which treat them
alike. -/
def getF (v : JsVal) (k : String) : JsVal := (getField v k).getD .nullV

/-- JavaScript `a || b`. -/
def jsOr (v d : JsVal) : JsVal := if jsTruthy v then v else d

/-- JSON whitespace (`ws` in RFC 8259). -/
def jsonWsCh (c : Char) : Bool := c = ' ' || c = '\t' || c = '\n' || c = '\r'

/-- Skip JSON whitespace. -/
def skipWs (cs : List Char) : List Char := cs.dropWhile jsonWsCh

/-- The value of a hexadecimal digit. -/
def hexVal (c : Char) : Option Nat :=
  if '0' ≤ c ∧ c ≤ '9' then some (c.toNat - 48)
  else if 'a' ≤ c ∧ c ≤ 'f' then some (c.toNat - 87)
  else if 'A' ≤ c ∧ c ≤ 'F' then some (c.toNat - 55)
  else none

/-- JSON string body after the opening quote: content characters up to the
closing quote, with escapes decoded.  (Lone surrogates from `\u` escapes,
which `Char` cannot represent, decode to the null character; no claim
exercises them.) -/
def parseStringBody : List Char → Option (List Char × List Char)
  | [] => none
  | '"' :: rest => some ([], rest)
  | '\\' :: '"' :: rest => (parseStringBody rest).map (fun p => ('"' :: p.1, p.2))
  | '\\' :: '\\' :: rest => (parseStringBody rest).map (fun p => ('\\' :: p.1, p.2))
  | '\\' :: '/' :: rest => (parseStringBody rest).map (fun p => ('/' :: p.1, p.2))
  | '\\' :: 'b' :: rest => (parseStringBody rest).map (fun p => ('\x08' :: p.1, p.2))
  | '\\' :: 'f' :: rest => (parseStringBody rest).map (fun p => ('\x0c' :: p.1, p.2))
  | '\\' :: 'n' :: rest => (parseStringBody rest).map (fun p => ('\n' :: p.1, p.2))
  | '\\' :: 'r' :: rest => (parseStringBody rest).map (fun p => ('\r' :: p.1, p.2))
  | '\\' :: 't' :: rest => (parseStringBody rest).map (fun p => ('\t' :: p.1, p.2))
  | '\\' :: 'u' :: h1 :: h2 :: h3 :: h4 :: rest =>
    match hexVal h1, hexVal h2, hexVal h3, hexVal h4 with
    | some a, some b, some c, some d =>
      (parseStringBody rest).map
        (fun p => (Char.ofNat (a * 4096 + b * 256 + c * 16 + d) :: p.1, p.2))
    | _, _, _, _ => none
  | '\\' :: _ => none
  | c :: rest =>
    if c.toNat < 32 then none
    else (parseStringBody rest).map (fun p => (c :: p.1, p.2))

/-- Decimal digit test. -/
def isDigitCh (c : Char) : Bool := '0' ≤ c && c ≤ '9'

/-- Accumulate decimal digits into a natural number. -/
def digitsToNatAux : List Char → Nat → Nat
  | [], acc => acc
  | c :: rest, acc => digitsToNatAux rest (acc * 10 + (c.toNat - 48))

/-- The value of a decimal digit string. -/
def digitsToNat (cs : List Char) : Nat := digitsToNatAux cs 0

/-- The optional fraction part of a JSON number. -/
def parseFrac (cs : List Char) : Option (Rat × List Char) :=
  match cs with
  | c :: rest =>
    if c = '.' then
      let fd := rest.takeWhile isDigitCh
      if fd.length = 0 then none
      else some ((digitsToNat fd : Rat) / ((10 : Rat) ^ fd.length), rest.drop fd.length)
    else some (0, cs)
  | [] => some (0, cs)

/-- The optional exponent part of a JSON number, as a multiplier. -/
def parseExp (cs : List Char) : Option (Rat × List Char) :=
  match cs with
  | c :: rest =>
    if c = 'e' ∨ c = 'E' then
      let (eneg, rest2) : Bool × List Char :=
        match rest with
        | d :: r2 => if d = '-' then (true, r2) else if d = '+' then (false, r2)
                     else (false, rest)
        | [] => (false, rest)
      let ed := rest2.takeWhile isDigitCh
      if ed.length = 0 then none
      else
        some (if eneg then 1 / ((10 : Rat) ^ digitsToNat ed)
              else ((10 : Rat) ^ digitsToNat ed), rest2.drop ed.length)
    else some (1, cs)
  | [] => some (1, cs)

/-- A JSON number (RFC 8259 grammar: optional minus, integer part without
leading zeros, optional fraction, optional exponent), as an exact
rational. -/
def parseNumberCore (cs : List Char) : Option (Rat × List Char) :=
  let (neg, cs1) : Bool × List Char :=
    match cs with
    | c :: rest => if c = '-' then (true, rest) else (false, cs)
    | [] => (false, cs)
  let intDigits := cs1.takeWhile isDigitCh
  if intDigits.length = 0 then none
  else if 1 < intDigits.length ∧ intDigits.headD '0' = '0' then none
  else
    match parseFrac (cs1.drop intDigits.length) with
    | none => none
    | some (frac, afterFrac) =>
      match parseExp afterFrac with
      | none => none
      | some (mult, rest) =>
        let mag := ((digitsToNat intDigits : Rat) + frac) * mult
        some (if neg then -mag else mag, rest)

/-- Key insertion with JavaScript object-literal semantics: a duplicate key
keeps its original position but takes the last value. -/
def upsertRev (acc : List (String × JsVal)) (k : String) (v : JsVal) :
    List (String × JsVal) :=
  if acc.any (fun p => p.1 = k) then
    acc.map (fun p => if p.1 = k then (k, v) else p)
  else (k, v) :: acc

mutual

/-- A JSON value (recursive descent; the fuel only bounds recursion depth
and is chosen large enough by `jsonParse`). -/
def parseVal : Nat → List Char → Option (JsVal × List Char)
  | 0, _ => none
  | Nat.succ fuel, cs0 =>
    match skipWs cs0 with
    | [] => none
    | c :: rest =>
      if c = 'n' then
        match rest with
        | 'u' :: 'l' :: 'l' :: r => some (.nullV, r)
        | _ => none
      else if c = 't' then
        match rest with
        | 'r' :: 'u' :: 'e' :: r => some (.boolV true, r)
        | _ => none
      else if c = 'f' then
        match rest with
        | 'a' :: 'l' :: 's' :: 'e' :: r => some (.boolV false, r)
        | _ => none
      else if c = '"' then
        (parseStringBody rest).map (fun p => (.strV (String.mk p.1), p.2))
      else if c = '[' then
        parseArrTail fuel rest
      else if c = braceOpen then
        parseObjTail fuel rest
      else
        (parseNumberCore (c :: rest)).map (fun p => (.numV p.1, p.2))

/-- The remainder of a JSON array after `[`. -/
def parseArrTail : Nat → List Char → Option (JsVal × List Char)
  | 0, _ => none
  | Nat.succ fuel, cs =>
    match skipWs cs with
    | c :: rest =>
      if c = ']' then some (.arrV [], rest)
      else parseArrElems fuel (c :: rest) []
    | [] => none

/-- Array elements separated by commas (the accumulator is reversed). -/
def parseArrElems : Nat → List Char → List JsVal → Option (JsVal × List Char)
  | 0, _, _ => none
  | Nat.succ fuel, cs, acc =>
    match parseVal fuel cs with
    | none => none
    | some (v, rest) =>
      match skipWs rest with
      | c :: rest2 =>
        if c = ',' then parseArrElems fuel rest2 (v :: acc)
        else if c = ']' then some (.arrV (v :: acc).reverse, rest2)
        else none
      | [] => none

/-- The remainder of a JSON object after the opening brace. -/
def parseObjTail : Nat → List Char → Option (JsVal × List Char)
  | 0, _ => none
  | Nat.succ fuel, cs =>
    match skipWs cs with
    | c :: rest =>
      if c = braceClose then some (.objV [], rest)
      else parseObjFields fuel (c :: rest) []
    | [] => none

/-- Object members separated by commas (the accumulator is reversed;
duplicate keys follow `upsertRev`). -/
def parseObjFields : Nat → List Char → List (String × JsVal) →
    Option (JsVal × List Char)
  | 0, _, _ => none
  | Nat.succ fuel, cs, acc =>
    match skipWs cs with
    | c :: rest =>
      if c = '"' then
        match parseStringBody rest with
        | none => none
        | some (key, rest2) =>
          match skipWs rest2 with
          | d :: rest3 =>
            if d = ':' then
              match parseVal fuel rest3 with
              | none => none
              | some (v, rest4) =>
                let acc2 := upsertRev acc (String.mk key) v
                match skipWs rest4 with
                | e :: rest5 =>
                  if e = ',' then parseObjFields fuel rest5 acc2
                  else if e = braceClose then some (.objV acc2.reverse, rest5)
                  else none
                | [] => none
            else none
          | [] => none
      else none
    | [] => none

end

/-- `JSON.parse`: a complete value with only trailing whitespace allowed,
with ample fuel. -/
def jsonParse (cs : List Char) : Option JsVal :=
  match parseVal (2 * cs.length + 8) cs with
  | some (v, rest) => if skipWs rest = [] then some v else none
  | none => none

/-! ## The cascading parse strategies of `analyzeSingleChunk` -/

/-- A `JSON.parse` success counts for the cascade only when the value is
truthy (the source tests `if (result)` / `if (!result)`). -/
def truthyParse (cs : List Char) : Option JsVal :=
  (jsonParse cs).bind (fun v => if jsTruthy v then some v else none)

/-- The index of the first occurrence of `c`. -/
def firstIdxOf (c : Char) (cs : List Char) : Option Nat := cs.indexOf? c

/-- The index of the last occurrence of `c`. -/
def lastIdxOf (c : Char) (cs : List Char) : Option Nat :=
  (cs.reverse.indexOf? c).map (fun k => cs.length - 1 - k)

/-- The greedy span matched by `/\x7b[\s\S]*\x7d/`: from the first opening
brace through the last closing brace after it. -/
def braceSpan (cs : List Char) : Option (List Char) :=
  match firstIdxOf braceOpen cs, lastIdxOf braceClose cs with
  | some i, some j => if i < j then some ((cs.drop i).take (j + 1 - i)) else none
  | _, _ => none

/-- Strategy 1: parse the first-to-last brace span. -/
def strategy1 (cs : List Char) : Option JsVal := (braceSpan cs).bind truthyParse

/-- Strategy 2: parse the whole content. -/
def strategy2 (cs : List Char) : Option JsVal := truthyParse cs

/-- Whether a closing brace is followed (after optional whitespace) by a
closing code fence, ending the lazy group of strategy 3's fence pattern. -/
def fenceCloses (rest : List Char) : Bool :=
  (rest.dropWhile isJsWhitespace).take 3 =
    [backquoteChar, backquoteChar, backquoteChar]

/-- The lazy body of strategy 3's fenced group: characters after the
opening brace up to the first closing brace that closes the fence. -/
def fenceBody : List Char → Option (List Char)
  | [] => none
  | c :: rest =>
    if c = braceClose && fenceCloses rest then some [braceClose]
    else (fenceBody rest).map (fun b => c :: b)

/-- Attempt the fence pattern at the current position: three backquotes, an
optional `json` tag, whitespace, then the braced group. -/
def tryFence (cs : List Char) : Option (List Char) :=
  if cs.take 3 = [backquoteChar, backquoteChar, backquoteChar] then
    let cs1 := cs.drop 3
    let cs2 := if cs1.take 4 = ['j', 's', 'o', 'n'] then cs1.drop 4 else cs1
    match cs2.dropWhile isJsWhitespace with
    | c :: rest =>
      if c = braceOpen then (fenceBody rest).map (fun b => braceOpen :: b)
      else none
    | [] => none
  else none

/-- The leftmost match of strategy 3's fence pattern. -/
def findFenceFrom : List Char → Option (List Char)
  | [] => none
  | c :: rest =>
    match tryFence (c :: rest) with
    | some inner => some inner
    | none => findFenceFrom rest

/-- Strategy 3: parse the group of the first fenced code block. -/
def strategy3 (cs : List Char) : Option JsVal := (findFenceFrom cs).bind truthyParse

/-- `.replace(/^[^\x7b]*/, '')`: drop everything before the first opening
brace. -/
def stripBeforeFirstBrace (cs : List Char) : List Char :=
  cs.dropWhile (fun c => c ≠ braceOpen)

/-- `.replace(/[^\x7d]*$/, '')`: drop everything after the last closing
brace. -/
def stripAfterLastBrace (cs : List Char) : List Char :=
  (cs.reverse.dropWhile (fun c => c ≠ braceClose)).reverse

/-- `startsWith('\x7b') && endsWith('\x7d')`. -/
def startsEndsWithBraces (cs : List Char) : Bool :=
  (match cs with | c :: _ => c = braceOpen | [] => false) &&
  (match cs.getLast? with | some c => c = braceClose | none => false)

/-- Strategy 4: strip everything before the first and after the last brace,
trim, and parse if the remainder is brace-delimited. -/
def strategy4 (cs : List Char) : Option JsVal :=
  let cleaned := jsTrimList (stripAfterLastBrace (stripBeforeFirstBrace cs))
  if startsEndsWithBraces cleaned then truthyParse cleaned else none

/-- For the regex `\n\s*\n` matched at a newline: how many further
characters the match consumes.  `\s*` is greedy but must leave a final
newline, so the match extends to the last newline of the maximal
whitespace run; `none` when the run holds no further newline. -/
def blankSepExtra (cs : List Char) : Option Nat :=
  let run := cs.takeWhile isJsWhitespace
  (run.reverse.findIdx? (fun c => c = '\n')).map (fun r => run.length - r)

/-- `.replace(/\n\s*\n/g, '\n')` (strategy 5's blank-line collapse). -/
def collapseBlank : List Char → List Char
  | [] => []
  | c :: rest =>
    if h : c = '\n' ∧ (blankSepExtra rest).isSome then
      '\n' :: collapseBlank (rest.drop ((blankSepExtra rest).getD 0))
    else c :: collapseBlank rest
termination_by cs => cs.length
decreasing_by
  · simp only [List.length_cons, List.length_drop]; omega
  · simp only [List.length_cons]; omega

/-- `.replace(/,\s*c/g, 'c')` for a closing character `c` (strategy 5's
trailing-comma removal): a comma qualifies when the maximal whitespace run
after it is followed by `c`. -/
def stripTrailingCommas (close : Char) : List Char → List Char
  | [] => []
  | c :: rest =>
    if c = ',' then
      let ws := rest.takeWhile isJsWhitespace
      match hd : rest.drop ws.length with
      | d :: rest2 =>
        if d = close then close :: stripTrailingCommas close rest2
        else c :: stripTrailingCommas close rest
      | [] => c :: stripTrailingCommas close rest
    else c :: stripTrailingCommas close rest
termination_by cs => cs.length
decreasing_by
  · have h2 : (rest.drop (rest.takeWhile isJsWhitespace).length).length =
        rest2.length + 1 := by rw [hd]; simp
    rw [List.length_drop] at h2
    simp only [List.length_cons]
    omega
  all_goals simp only [List.length_cons]; omega

/-- `\w` (ASCII word character). -/
def isWordChar (c : Char) : Bool :=
  ('a' ≤ c && c ≤ 'z') || ('A' ≤ c && c ≤ 'Z') || ('0' ≤ c && c ≤ '9') || c = '_'

/-- `.replace(/([\x7b,]\s*)(\w+):/g, '$1"$2":')` (strategy 5's bare-key
quoting): after an opening brace or comma and optional whitespace, a
word-run followed by a colon is wrapped in quotes. -/
def quoteBareKeys : List Char → List Char
  | [] => []
  | c :: rest =>
    if c = braceOpen ∨ c = ',' then
      let ws := rest.takeWhile isJsWhitespace
      let afterWs := rest.drop ws.length
      let word := afterWs.takeWhile isWordChar
      match hafter : afterWs.drop word.length with
      | d :: rest2 =>
        if h : d = ':' ∧ 0 < word.length then
          c :: (ws ++ '"' :: (word ++ '"' :: ':' :: quoteBareKeys rest2))
        else c :: quoteBareKeys rest
      | [] => c :: quoteBareKeys rest
    else c :: quoteBareKeys rest
termination_by cs => cs.length
decreasing_by
  · have h1 : rest2.length < afterWs.length := by
      have h2 : (afterWs.drop word.length).length = rest2.length + 1 := by
        rw [hafter]; simp
      have h3 : (afterWs.drop word.length).length ≤ afterWs.length := by
        rw [List.length_drop]; omega
      omega
    have h4 : afterWs.length ≤ rest.length := by
      simp only [afterWs, List.length_drop]; omega
    simp only [List.length_cons]
    omega
  all_goals simp only [List.length_cons]; omega

/-- `.replace(/:\s*([^",\x7b\[\s][^,\x7d\]]*?)([,\x7d\]])/g, ': "$1"$2')`
(strategy 5's bare-value quoting): after a colon and optional whitespace, a
segment not starting with a quote, comma, opening brace, opening bracket
or whitespace, running lazily to the first comma, closing brace or closing
bracket, is wrapped in quotes (with a single space after the colon, as the
replacement template dictates). -/
def quoteBareValues : List Char → List Char
  | [] => []
  | c :: rest =>
    if c = ':' then
      let ws := rest.takeWhile isJsWhitespace
      match hafter : rest.drop ws.length with
      | d :: rest2 =>
        if d = '"' ∨ d = ',' ∨ d = braceOpen ∨ d = '[' ∨ isJsWhitespace d then
          c :: quoteBareValues rest
        else
          let seg := (d :: rest2).takeWhile
            (fun x => ¬ (x = ',' ∨ x = braceClose ∨ x = ']'))
          match hseg : (d :: rest2).drop seg.length with
          | e :: rest3 =>
            c :: ' ' :: '"' :: (seg ++ '"' :: e :: quoteBareValues rest3)
          | [] => c :: quoteBareValues rest
      | [] => c :: quoteBareValues rest
    else c :: quoteBareValues rest
termination_by cs => cs.length
decreasing_by
  · simp only [List.length_cons]; omega
  · have h1 : rest3.length < (d :: rest2).length := by
      have h2 : ((d :: rest2).drop seg.length).length = rest3.length + 1 := by
        rw [hseg]; simp
      have h3 : ((d :: rest2).drop seg.length).length ≤ (d :: rest2).length := by
        rw [List.length_drop]; omega
      omega
    have h4 : (d :: rest2).length ≤ rest.length := by
      have h5 : (rest.drop (rest.takeWhile isJsWhitespace).length).length =
          (d :: rest2).length := by rw [hafter]
      rw [List.length_drop] at h5
      simp only [List.length_cons] at h5 ⊢
      omega
    simp only [List.length_cons]
    omega
  all_goals simp only [List.length_cons]; omega

/-- Strategy 5 (local models only): aggressive cleaning — strip outside the
outermost braces, collapse blank lines, drop trailing commas, trim, quote
bare keys and bare scalar values — then parse if brace-delimited. -/
def strategy5 (useLocalModel : Bool) (cs : List Char) : Option JsVal :=
  if useLocalModel then
    let cs1 := stripBeforeFirstBrace cs
    let cs2 := stripAfterLastBrace cs1
    let cs3 := collapseBlank cs2
    let cs4 := stripTrailingCommas braceClose cs3
    let cs5 := stripTrailingCommas ']' cs4
    let cs6 := jsTrimList cs5
    let cs7 := quoteBareKeys cs6
    let cs8 := quoteBareValues cs7
    if startsEndsWithBraces cs8 then truthyParse cs8 else none
  else none

/-! ## `extractFromNaturalLanguage` -/

/-- The character class `[:\s]`. -/
def isColonOrWs (c : Char) : Bool := c = ':' || isJsWhitespace c

/-- The character class `[^.\n]`. -/
def notDotNl (c : Char) : Bool := ¬ (c = '.' || c = '\n')

/-- The tail `[:\s]*([^.\n]+)` of a label pattern, applied to the
characters following the label; returns the capture group.  `[:\s]*` is
greedy, backtracking one character at a time until the capture can start
(its first character must not be a newline, the only `[:\s]` character
excluded from `[^.\n]`). -/
def labelTail (cs : List Char) : Option (List Char) :=
  let run := cs.takeWhile isColonOrWs
  let after := cs.drop run.length
  match after with
  | c :: _ =>
    if notDotNl c then some (after.takeWhile notDotNl)
    else
      (run.reverse.findIdx? (fun x => x ≠ '\n')).map
        (fun r => ((run.drop (run.length - 1 - r)) ++ after).takeWhile notDotNl)
  | [] =>
    (run.reverse.findIdx? (fun x => x ≠ '\n')).map
      (fun r => ((run.drop (run.length - 1 - r)) ++ after).takeWhile notDotNl)

/-- Case-insensitive match of the literal `label` at the head of `cs`,
then the capture of `labelTail`. -/
def matchLabelAt (label : List Char) (cs : List Char) : Option (List Char) :=
  if (cs.take label.length).map Char.toLower = label.map Char.toLower then
    labelTail (cs.drop label.length)
  else none

/-- Leftmost match of `/label[:\s]*([^.\n]+)/i`, returning the capture. -/
def searchLabel (label : List Char) : List Char → Option (List Char)
  | [] => none
  | c :: rest =>
    match matchLabelAt label (c :: rest) with
    | some cap => some cap
    | none => searchLabel label rest

/-- Leftmost case-insensitive occurrence of a literal, returning the
matched slice of the subject (`match[0]`). -/
def searchLiteralCI (lit : List Char) : List Char → Option (List Char)
  | [] => none
  | c :: rest =>
    if ((c :: rest).take lit.length).map Char.toLower = lit.map Char.toLower then
      some ((c :: rest).take lit.length)
    else searchLiteralCI lit rest

/-- `'Not specified'`. -/
def notSpecified : String := "Not specified"

/-- The pattern loop shared by the service-organization, auditor and
report-period extractions: the first pattern whose capture trims to more
than 2 characters wins; a match with a shorter capture falls through to
the next pattern. -/
def firstGoodLabel (labels : List String) (cs : List Char) : Option String :=
  match labels with
  | [] => none
  | l :: ls =>
    match searchLabel l.data cs with
    | some cap =>
      if 2 < (jsTrimList cap).length then some (String.mk (jsTrimList cap))
      else firstGoodLabel ls cs
    | none => firstGoodLabel ls cs

/-- The opinion extraction: the labelled pattern's capture if it matches,
else the first of the literal opinion keywords found in the content
(`match[0].trim()`). -/
def opinionOf (cs : List Char) : Option String :=
  match searchLabel "opinion".data cs with
  | some cap => some (String.mk (jsTrimList cap))
  | none =>
    match searchLiteralCI "unqualified".data cs with
    | some m => some (String.mk (jsTrimList m))
    | none =>
      match searchLiteralCI "qualified".data cs with
      | some m => some (String.mk (jsTrimList m))
      | none =>
        match searchLiteralCI "adverse".data cs with
        | some m => some (String.mk (jsTrimList m))
        | none =>
          match searchLiteralCI "disclaimer".data cs with
          | some m => some (String.mk (jsTrimList m))
          | none => none

/-- A keyword-pattern prefix matcher: returns the number of characters the
prefix consumes when it matches at the head of the input. -/
def literalPreCI (kw : List Char) (cs : List Char) : Option Nat :=
  if (cs.take kw.length).map Char.toLower = kw.map Char.toLower then
    some kw.length
  else none

/-- Prefix matcher for `/carve.out/i`: `carve`, any single character other
than a line terminator (the regex `.`), then `out`. -/
def carvePre (cs : List Char) : Option Nat :=
  match literalPreCI "carve".data cs with
  | some _ =>
    match cs.drop 5 with
    | c :: rest =>
      if c ≠ '\n' ∧ c ≠ '\r' ∧
          (rest.take 3).map Char.toLower = ['o', 'u', 't'] then some 9
      else none
    | [] => none
  | none => none

/-- A match of `/pre[^.]*?([^.\n]+)/` at the head of `cs`: the lazy
`[^.]*?` expands only through newlines (the sole `[^.]` characters on
which the capture cannot start), then the capture runs greedily to the
first period or newline.  Returns the full match (`match[0]`) and the
remaining input. -/
def matchKeywordAt (pre : List Char → Option Nat) (cs : List Char) :
    Option (List Char × List Char) :=
  match pre cs with
  | some n =>
    let t := cs.drop n
    let nls := t.takeWhile (fun c => c = '\n')
    let t2 := t.drop nls.length
    match t2 with
    | c :: _ =>
      if notDotNl c then
        let cap := t2.takeWhile notDotNl
        some (cs.take n ++ nls ++ cap, t2.drop cap.length)
      else none
    | [] => none
  | none => none

theorem takeWhileLengthLe {α : Type} (p : α → Bool) (l : List α) :
    (l.takeWhile p).length ≤ l.length := by
  induction l with
  | nil => simp
  | cons a l ih =>
    rw [List.takeWhile_cons]
    split
    · simpa using ih
    · simp

theorem matchKeywordAt_shrinks {pre : List Char → Option Nat}
    {cs m after : List Char} (h : matchKeywordAt pre cs = some (m, after)) :
    after.length < cs.length := by
  unfold matchKeywordAt at h
  rcases hp : pre cs with - | n
  · rw [hp] at h; cases h
  · rw [hp] at h
    simp only at h
    rcases ht2 : (cs.drop n).drop ((cs.drop n).takeWhile (fun c => c = '\n')).length
      with - | ⟨c, t2rest⟩
    · rw [ht2] at h; cases h
    · rw [ht2] at h
      dsimp only at h
      by_cases hc : notDotNl c
      · rw [if_pos hc] at h
        simp only [Option.some.injEq, Prod.mk.injEq] at h
        have hcap : 0 < ((c :: t2rest).takeWhile notDotNl).length := by
          rw [List.takeWhile_cons, if_pos hc]
          simp
        have hlen2 : (c :: t2rest).length ≤ cs.length := by
          have e1 := ht2
          have l1 : ((cs.drop n).drop
              ((cs.drop n).takeWhile (fun c => c = '\n')).length).length ≤
              cs.length := by
            simp only [List.length_drop]; omega
          rw [e1] at l1
          exact l1
        have hafter : after =
            (c :: t2rest).drop ((c :: t2rest).takeWhile notDotNl).length := by
          rw [← h.2]
        have : after.length ≤ (c :: t2rest).length -
            ((c :: t2rest).takeWhile notDotNl).length := by
          rw [hafter, List.length_drop]
        have hcaple : ((c :: t2rest).takeWhile notDotNl).length ≤
            (c :: t2rest).length := takeWhileLengthLe _ _
        simp only [List.length_cons] at hlen2 hcaple this
        omega
      · rw [if_neg hc] at h; cases h

/-- All matches of a global keyword pattern, scanning left to right and
resuming after each match (`String.prototype.match` with `/g`). -/
def searchKeywordAll (pre : List Char → Option Nat) : List Char → List (List Char)
  | [] => []
  | c :: rest =>
    match hm : matchKeywordAt pre (c :: rest) with
    | some (m, after) => m :: searchKeywordAll pre after
    | none => searchKeywordAll pre rest
termination_by cs => cs.length
decreasing_by
  · have := matchKeywordAt_shrinks hm
    simpa using this
  · simp

/-- The control-failure entry synthesized for the `index`-th match of
`/control failure[^.]*?([^.\n]+)/gi`. -/
def nlControlFailure (idx : Nat) (m : List Char) : JsVal :=
  .objV [("id", .strV ("extracted-control-failure-" ++ toString (idx + 1))),
         ("description", .strV (String.mk (jsTrimList m))),
         ("type", .strV "unknown"),
         ("effectiveness", .strV "not_tested"),
         ("exceptions", .arrV [.strV "Extracted from natural language"]),
         ("pageNumbers", .arrV [.numV 1]),
         ("confidenceScore", .numV (7 / 10))]

/-- The exclusion entry synthesized for the `index`-th match of
`/exclusion[^.]*?([^.\n]+)/gi`. -/
def nlExclusion (idx : Nat) (m : List Char) : JsVal :=
  .objV [("id", .strV ("extracted-exclusion-" ++ toString (idx + 1))),
         ("description", .strV (String.mk (jsTrimList m))),
         ("reason", .strV "Extracted from natural language response"),
         ("pageNumbers", .arrV [.numV 1]),
         ("confidenceScore", .numV (7 / 10))]

/-- The carve-out entry synthesized for the `index`-th match of
`/carve.out[^.]*?([^.\n]+)/gi`. -/
def nlCarveOut (idx : Nat) (m : List Char) : JsVal :=
  .objV [("id", .strV ("extracted-carveout-" ++ toString (idx + 1))),
         ("description", .strV (String.mk (jsTrimList m))),
         ("provider", .strV "Unknown"),
         ("reason", .strV "Extracted from natural language response"),
         ("pageNumbers", .arrV [.numV 1]),
         ("confidenceScore", .numV (7 / 10))]

/-- `OpenRouterAPI.extractFromNaturalLanguage`: label-anchored field
extraction plus keyword scans, returning a record only when at least one
field was populated beyond its default (the `hasContent` test checks the
service organization, the auditor, and the three lists). -/
def extractFromNaturalLanguage (content : String) : Option JsVal :=
  let cs := content.data
  let so := (firstGoodLabel ["service organization", "organization", "company",
    "entity"] cs).getD notSpecified
  let aud := (firstGoodLabel ["auditor", "audit firm", "cpa firm",
    "examiner"] cs).getD notSpecified
  let per := (firstGoodLabel ["report period", "period", "as of",
    "through"] cs).getD notSpecified
  let op := (opinionOf cs).getD notSpecified
  let cfs := (searchKeywordAll (literalPreCI "control failure".data) cs).enum.map
    (fun p => nlControlFailure p.1 p.2)
  let exs := (searchKeywordAll (literalPreCI "exclusion".data) cs).enum.map
    (fun p => nlExclusion p.1 p.2)
  let cos := (searchKeywordAll carvePre cs).enum.map
    (fun p => nlCarveOut p.1 p.2)
  if so ≠ notSpecified ∨ aud ≠ notSpecified ∨ cfs ≠ [] ∨ exs ≠ [] ∨ cos ≠ [] then
    some (.objV [
      ("executiveSummary", .objV [
        ("reportPeriod", .strV per),
        ("serviceOrganization", .strV so),
        ("auditor", .strV aud),
        ("opinion", .strV op)]),
      ("controlFailures", .arrV cfs),
      ("exclusions", .arrV exs),
      ("carveOuts", .arrV cos)])
  else none

/-! ## `createFallbackResult` and `transformSOC1Result` -/

/-- The truncated raw-content preview embedded by `createFallbackResult`
(`content.substring(0, 1000) + '...'` beyond 1000 characters). -/
def truncatedPreview (content : String) : String :=
  if 1000 < content.length then String.mk (content.data.take 1000) ++ "..."
  else content

/-- The control-failure entry of the fallback stub record. -/
def fallbackControlFailureEntry (content : String) : JsVal :=
  .objV [("id", .strV "fallback-control-failure-1"),
    ("description", .strV ("Raw AI response could not be parsed as JSON. Response length: " ++
      toString content.length ++ " characters. Check console for full response.")),
    ("type", .strV "unknown"),
    ("effectiveness", .strV "not_tested"),
    ("exceptions", .arrV [.strV "JSON parsing failed"]),
    ("pageNumbers", .arrV [.numV 1]),
    ("confidenceScore", .numV (1 / 10))]

/-- The exclusion entry of the fallback stub record, embedding the
truncated raw-content preview. -/
def fallbackExclusionEntry (content : String) : JsVal :=
  .objV [("id", .strV "fallback-exclusion-1"),
    ("description", .strV ("AI response parsing failed. Raw content preview: " ++
      truncatedPreview content)),
    ("reason", .strV "The local model may not be following the expected JSON format. Check console logs for the full response."),
    ("pageNumbers", .arrV [.numV 1]),
    ("confidenceScore", .numV (1 / 10))]

/-- The carve-out entry of the fallback stub record. -/
def fallbackCarveOutEntry : JsVal :=
  .objV [("id", .strV "fallback-carveout-1"),
    ("description", .strV "Unable to extract carve-outs due to JSON parsing error"),
    ("provider", .strV "Unknown"),
    ("reason", .strV "Local model response format issue. Check console for actual response."),
    ("pageNumbers", .arrV [.numV 1]),
    ("confidenceScore", .numV (1 / 10))]

/-- `OpenRouterAPI.createFallbackResult`: the terminal stub record, with a
fixed `confidenceScore` of 0.1 on each synthesized entry and the truncated
raw-content preview embedded in the exclusion's description. -/
def createFallbackResult (content : String) : JsVal :=
  .objV [
    ("executiveSummary", .objV [
      ("reportPeriod", .strV "Unable to extract - see raw content"),
      ("serviceOrganization", .strV "Unable to extract - see raw content"),
      ("auditor", .strV "Unable to extract - see raw content"),
      ("opinion", .strV "Unable to extract - see raw content")]),
    ("controlFailures", .arrV [fallbackControlFailureEntry content]),
    ("exclusions", .arrV [fallbackExclusionEntry content]),
    ("carveOuts", .arrV [fallbackCarveOutEntry])]

/-- A finding of the transformed (display-format) result. -/
structure Finding where
  id : String
  attributeName : JsVal
  description : JsVal
  value : JsVal
  pageNumbers : JsVal
  confidence : JsVal
  category : String
  dataType : String
  critical : Bool
  deriving DecidableEq, Inhabited

/-- The transformed result: findings, categories, and the raw record kept
for merging and debugging. -/
structure TransformedResult where
  findings : List Finding
  categories : List String
  rawResult : JsVal
  deriving DecidableEq, Inhabited

/-- JavaScript template-literal display of a value (only strings and
integers occur in the claims; other shapes follow `String(v)` for
primitives and arrays, and `[object Object]` for objects; non-integer
numbers are not exercised and are rendered from the rational). -/
def jsDisplay : JsVal → String
  | .strV s => s
  | .numV q => if q.den = 1 then toString q.num else toString q
  | .nullV => "null"
  | .boolV b => cond b "true" "false"
  | .arrV xs => String.intercalate "," (xs.map jsDisplayShallow)
  | .objV _ => "[object Object]"
where
  /-- One level of array-element display (arrays of arrays do not occur). -/
  jsDisplayShallow : JsVal → String
  | .strV s => s
  | .numV q => if q.den = 1 then toString q.num else toString q
  | .nullV => ""
  | .boolV b => cond b "true" "false"
  | .arrV _ => ""
  | .objV _ => "[object Object]"

/-- The finding built from the `index`-th control failure in
`transformSOC1Result`. -/
def transformControlFailure (idx : Nat) (control : JsVal) : Finding :=
  { id := "control-failure-" ++ toString idx
    attributeName := jsOr (getF control "id")
      (.strV ("Control Failure " ++ toString (idx + 1)))
    description := jsOr (getF control "description")
      (.strV "Control failure description not provided")
    value := jsOr (getF control "effectiveness") (.strV "Not specified")
    pageNumbers := jsOr (getF control "pageNumbers") (.arrV [.numV 1])
    confidence := jsOr (getF control "confidenceScore") (.numV (8 / 10))
    category := "Control Failures"
    dataType := "string"
    critical := decide (getF control "effectiveness" = .strV "ineffective") }

/-- The finding built from the `index`-th exclusion. -/
def transformExclusion (idx : Nat) (exclusion : JsVal) : Finding :=
  { id := "exclusion-" ++ toString idx
    attributeName := jsOr (getF exclusion "id")
      (.strV ("Exclusion " ++ toString (idx + 1)))
    description := jsOr (getF exclusion "description")
      (.strV "Exclusion description not provided")
    value := jsOr (getF exclusion "reason") (.strV "No reason provided")
    pageNumbers := jsOr (getF exclusion "pageNumbers") (.arrV [.numV 1])
    confidence := jsOr (getF exclusion "confidenceScore") (.numV (9 / 10))
    category := "Exclusions"
    dataType := "string"
    critical := false }

/-- The finding built from the `index`-th carve-out. -/
def transformCarveOut (idx : Nat) (carveOut : JsVal) : Finding :=
  { id := "carveout-" ++ toString idx
    attributeName := jsOr (getF carveOut "id")
      (.strV ("Carve-Out " ++ toString (idx + 1)))
    description := jsOr (getF carveOut "description")
      (.strV "Carve-out description not provided")
    value := .strV (jsDisplay (jsOr (getF carveOut "provider")
        (.strV "Unknown Provider")) ++ " - " ++
      jsDisplay (jsOr (getF carveOut "reason") (.strV "No reason provided")))
    pageNumbers := jsOr (getF carveOut "pageNumbers") (.arrV [.numV 1])
    confidence := jsOr (getF carveOut "confidenceScore") (.numV (9 / 10))
    category := "Carve-Outs"
    dataType := "string"
    critical := false }

/-- The executive-summary finding appended by `transformSOC1Result`. -/
def execSummaryFinding (s : JsVal) : Finding :=
  { id := "executive-summary"
    attributeName := .strV "Executive Summary"
    description := .strV "SOC1 Report Executive Summary"
    value := .objV [
      ("reportPeriod", jsOr (getF s "reportPeriod") (.strV "Not specified")),
      ("serviceOrganization",
        jsOr (getF s "serviceOrganization") (.strV "Not specified")),
      ("auditor", jsOr (getF s "auditor") (.strV "Not specified")),
      ("opinion", jsOr (getF s "opinion") (.strV "Not specified"))]
    pageNumbers := .arrV [.numV 1]
    confidence := .numV 1
    category := "Executive Summary"
    dataType := "object"
    critical := false }

/-- The category-list access of `transformSOC1Result`: the entries iterated
when the field is a (truthy) array, else nothing (`aiResult.x &&
Array.isArray(aiResult.x)`). -/
def arrayEntries (aiResult : JsVal) (key : String) : List JsVal :=
  match getField aiResult key with
  | some (.arrV xs) => xs
  | _ => []

/-- `OpenRouterAPI.transformSOC1Result`. -/
def transformSOC1Result (aiResult : JsVal) : TransformedResult :=
  let cfs := (arrayEntries aiResult "controlFailures").enum.map
    (fun p => transformControlFailure p.1 p.2)
  let exs := (arrayEntries aiResult "exclusions").enum.map
    (fun p => transformExclusion p.1 p.2)
  let cos := (arrayEntries aiResult "carveOuts").enum.map
    (fun p => transformCarveOut p.1 p.2)
  let execs :=
    match getField aiResult "executiveSummary" with
    | some s => if jsTruthy s then [execSummaryFinding s] else []
    | none => []
  { findings := cfs ++ exs ++ cos ++ execs
    categories := ["Control Failures", "Exclusions", "Carve-Outs",
      "Executive Summary"]
    rawResult := aiResult }

/-- The parsing stage of `OpenRouterAPI.analyzeSingleChunk`, from the
normalized content onward: strategies 1-5 in order (5 only for local
models), then natural-language extraction, then the terminal fallback.
Total by construction — every arm returns a transformed record, mirroring
the source's guarantee that parse failures never escape. -/
def analyzeSingleChunkParse (useLocalModel : Bool) (content : String) :
    TransformedResult :=
  let cs := content.data
  let result :=
    match strategy1 cs with
    | some r => some r
    | none =>
      match strategy2 cs with
      | some r => some r
      | none =>
        match strategy3 cs with
        | some r => some r
        | none =>
          match strategy4 cs with
          | some r => some r
          | none => strategy5 useLocalModel cs
  match result with
  | some r => transformSOC1Result r
  | none =>
    match extractFromNaturalLanguage content with
    | some r => transformSOC1Result r
    | none => transformSOC1Result (createFallbackResult content)

/-- C1: the structured-result parsing stage is total — for every normalized
response text it returns a well-typed structured record and never throws
(`analyzeSingleChunkParse` is a total function); whenever all JSON
strategies and the natural-language extraction fail, the result is exactly
the transform of the stub record built by `createFallbackResult`, each of
whose three synthesized entries carries the fixed low confidence marker
0.1, and whose exclusion entry embeds a truncated preview of the raw
text. -/
theorem analyzeSingleChunkParse_fallback :
    ∀ (useLocalModel : Bool) (content : String),
      strategy1 content.data = none →
      strategy2 content.data = none →
      strategy3 content.data = none →
      strategy4 content.data = none →
      strategy5 useLocalModel content.data = none →
      extractFromNaturalLanguage content = none →
      analyzeSingleChunkParse useLocalModel content =
        transformSOC1Result (createFallbackResult content) ∧
      (∀ key ∈ ["controlFailures", "exclusions", "carveOuts"],
        ∀ entries, getField (createFallbackResult content) key =
            some (.arrV entries) →
          entries ≠ [] ∧
          ∀ e ∈ entries, getF e "confidenceScore" = .numV (1 / 10)) ∧
      (arrayEntries (createFallbackResult content) "exclusions").map
          (fun e => getF e "description") =
        [.strV ("AI response parsing failed. Raw content preview: " ++
          truncatedPreview content)] := by
  intro useLocalModel content h1 h2 h3 h4 h5 h6
  refine ⟨?_, ?_, rfl⟩
  · unfold analyzeSingleChunkParse
    dsimp only
    rw [h1, h2, h3, h4, h5, h6]
  · intro key hk entries hent
    have hcf : getField (createFallbackResult content) "controlFailures" =
        some (.arrV [fallbackControlFailureEntry content]) := rfl
    have hex : getField (createFallbackResult content) "exclusions" =
        some (.arrV [fallbackExclusionEntry content]) := rfl
    have hco : getField (createFallbackResult content) "carveOuts" =
        some (.arrV [fallbackCarveOutEntry]) := rfl
    simp only [List.mem_cons, List.not_mem_nil, or_false] at hk
    rcases hk with hk | hk | hk
    · subst hk
      rw [hcf, Option.some.injEq, JsVal.arrV.injEq] at hent
      subst hent
      exact ⟨by simp, by rintro e he; rw [List.mem_singleton] at he; subst he; rfl⟩
    · subst hk
      rw [hex, Option.some.injEq, JsVal.arrV.injEq] at hent
      subst hent
      exact ⟨by simp, by rintro e he; rw [List.mem_singleton] at he; subst he; rfl⟩
    · subst hk
      rw [hco, Option.some.injEq, JsVal.arrV.injEq] at hent
      subst hent
      exact ⟨by simp, by rintro e he; rw [List.mem_singleton] at he; subst he; rfl⟩

/-- Witness for C1 at the empty normalized text with a local model: every
strategy hypothesis holds and the fallback equations follow. -/
theorem analyzeSingleChunkParse_fallback_witness :
    analyzeSingleChunkParse true "" =
      transformSOC1Result (createFallbackResult "") ∧
    (∀ key ∈ ["controlFailures", "exclusions", "carveOuts"],
      ∀ entries, getField (createFallbackResult "") key = some (.arrV entries) →
        entries ≠ [] ∧
        ∀ e ∈ entries, getF e "confidenceScore" = .numV (1 / 10)) ∧
    (arrayEntries (createFallbackResult "") "exclusions").map
        (fun e => getF e "description") =
      [.strV ("AI response parsing failed. Raw content preview: " ++
        truncatedPreview "")] :=
  analyzeSingleChunkParse_fallback true "" rfl rfl rfl rfl
    (by
      show strategy5 true ([] : List Char) = none
      simp [strategy5, stripBeforeFirstBrace, stripAfterLastBrace,
        collapseBlank, stripTrailingCommas, jsTrimList, quoteBareKeys,
        quoteBareValues, startsEndsWithBraces])
    (by
      simp [extractFromNaturalLanguage, searchKeywordAll, firstGoodLabel,
        searchLabel, opinionOf, searchLiteralCI, notSpecified])

/-! ## `combineChunkResults`, `removeDuplicates`, `analyzeMultipleChunks` -/

/-- `OpenRouterAPI.removeDuplicates`'s filter with its `seen` set.  The
JavaScript `Set` holds the id values already kept (`undefined`, modelled
as `none`, for items without the field); ids are strings in this pipeline,
where structural equality agrees with the `Set`'s SameValueZero. -/
def removeDuplicatesAux (idField : String) (seen : List (Option JsVal)) :
    List JsVal → List JsVal
  | [] => []
  | item :: rest =>
    if getField item idField ∈ seen then removeDuplicatesAux idField seen rest
    else item :: removeDuplicatesAux idField (getField item idField :: seen) rest

/-- `OpenRouterAPI.removeDuplicates`. -/
def removeDuplicates (items : List JsVal) (idField : String) : List JsVal :=
  removeDuplicatesAux idField [] items

/-- The `combined` accumulator of `combineChunkResults`. -/
structure CombineAcc where
  executiveSummary : JsVal
  controlFailures : List JsVal
  exclusions : List JsVal
  carveOuts : List JsVal
  deriving DecidableEq, Inhabited

/-- One iteration of the `for (const result of chunkResults)` loop: skip a
result with a falsy `rawResult`; take the first truthy executive summary;
append each category array. -/
def combineStep (acc : CombineAcc) (result : TransformedResult) : CombineAcc :=
  if jsTruthy result.rawResult then
    let raw := result.rawResult
    { executiveSummary :=
        if jsTruthy (getF raw "executiveSummary") &&
            !(jsTruthy acc.executiveSummary) then
          getF raw "executiveSummary"
        else acc.executiveSummary
      controlFailures := acc.controlFailures ++ arrayEntries raw "controlFailures"
      exclusions := acc.exclusions ++ arrayEntries raw "exclusions"
      carveOuts := acc.carveOuts ++ arrayEntries raw "carveOuts" }
  else acc

/-- `'No valid results from any document sections'`. -/
def noValidResultsMsg : String := "No valid results from any document sections"

/-- `OpenRouterAPI.combineChunkResults`: throws on an empty result list,
otherwise accumulates, deduplicates each category by `id`, and transforms
the combined record. -/
def combineChunkResults (chunkResults : List TransformedResult) :
    Except String TransformedResult :=
  if chunkResults.length = 0 then .error noValidResultsMsg
  else
    let acc := chunkResults.foldl combineStep ⟨.nullV, [], [], []⟩
    let combined : JsVal := .objV [
      ("executiveSummary", acc.executiveSummary),
      ("controlFailures", .arrV (removeDuplicates acc.controlFailures "id")),
      ("exclusions", .arrV (removeDuplicates acc.exclusions "id")),
      ("carveOuts", .arrV (removeDuplicates acc.carveOuts "id"))]
    .ok (transformSOC1Result combined)

/-- `OpenRouterAPI.analyzeMultipleChunks`, with the network modelled by the
given per-chunk outcomes: each chunk either yields a transformed result or
throws a transport error, which the loop catches, logs and skips; the
collected successes are merged. -/
def analyzeMultipleChunksModel
    (outcomes : List (Except String TransformedResult)) :
    Except String TransformedResult :=
  combineChunkResults (outcomes.filterMap (fun o => o.toOption))

/-- The per-chunk category lists the merge concatenates, in chunk order
(results with a falsy `rawResult` contribute nothing, mirroring the
loop's skip). -/
def catConcat (rs : List TransformedResult) (key : String) : List JsVal :=
  (rs.map (fun r =>
    if jsTruthy r.rawResult then arrayEntries r.rawResult key else [])).flatten

/-- The truthy executive summaries observed in chunk order. -/
def execCandidates (rs : List TransformedResult) : List JsVal :=
  rs.filterMap (fun r =>
    if jsTruthy r.rawResult ∧ jsTruthy (getF r.rawResult "executiveSummary")
    then some (getF r.rawResult "executiveSummary") else none)

theorem removeDuplicatesAux_filter (idField : String) (d : Option JsVal) :
    ∀ (items : List JsVal) (seen : List (Option JsVal)),
      (removeDuplicatesAux idField seen items).filter
          (fun x => decide (getField x idField = d)) =
        if d ∈ seen then []
        else (items.filter (fun x => decide (getField x idField = d))).take 1 := by
  intro items
  induction items with
  | nil =>
    intro seen
    rw [removeDuplicatesAux]
    split <;> simp
  | cons item rest ih =>
    intro seen
    rw [removeDuplicatesAux]
    by_cases hseen : getField item idField ∈ seen
    · rw [if_pos hseen, ih seen]
      by_cases hd : d ∈ seen
      · rw [if_pos hd, if_pos hd]
      · rw [if_neg hd, if_neg hd]
        have hne : ¬ getField item idField = d := by
          intro heq; rw [heq] at hseen; exact hd hseen
        rw [List.filter_cons, if_neg (by simpa using hne)]
    · rw [if_neg hseen]
      rw [List.filter_cons]
      by_cases hid : getField item idField = d
      · rw [if_pos (by simpa using hid)]
        rw [ih (getField item idField :: seen)]
        have hdin : d ∈ getField item idField :: seen := by
          rw [← hid]; exact List.mem_cons_self _ _
        rw [if_pos hdin]
        have hdout : ¬ d ∈ seen := by
          intro hmem; rw [← hid] at hmem; exact hseen hmem
        rw [if_neg hdout, List.filter_cons, if_pos (by simpa using hid)]
        simp
      · rw [if_neg (by simpa using hid)]
        rw [ih (getField item idField :: seen)]
        have hiff : (d ∈ getField item idField :: seen) ↔ d ∈ seen := by
          rw [List.mem_cons]
          constructor
          · rintro (h | h)
            · exact absurd h.symm hid
            · exact h
          · exact Or.inr
        by_cases hd : d ∈ seen
        · rw [if_pos (hiff.mpr hd), if_pos hd]
        · rw [if_neg (fun h => hd (hiff.mp h)), if_neg hd,
            List.filter_cons, if_neg (by simpa using hid)]

theorem removeDuplicatesAux_sublist (idField : String) :
    ∀ (items : List JsVal) (seen : List (Option JsVal)),
      (removeDuplicatesAux idField seen items).Sublist items := by
  intro items
  induction items with
  | nil => intro seen; rw [removeDuplicatesAux]
  | cons item rest ih =>
    intro seen
    rw [removeDuplicatesAux]
    split
    · exact (ih seen).cons item
    · exact (ih (getField item idField :: seen)).cons₂ item

theorem foldl_combineStep (rs : List TransformedResult) :
    ∀ acc : CombineAcc,
      rs.foldl combineStep acc =
        ⟨(if jsTruthy acc.executiveSummary then acc.executiveSummary
          else (execCandidates rs).headD acc.executiveSummary),
         acc.controlFailures ++ catConcat rs "controlFailures",
         acc.exclusions ++ catConcat rs "exclusions",
         acc.carveOuts ++ catConcat rs "carveOuts"⟩ := by
  induction rs with
  | nil =>
    intro acc
    simp only [List.foldl_nil, execCandidates, catConcat, List.filterMap_nil,
      List.map_nil, List.flatten_nil, List.append_nil, List.headD_nil]
    split <;> rfl
  | cons r rs ih =>
    intro acc
    rw [List.foldl_cons, ih (combineStep acc r)]
    unfold combineStep
    have hcat : ∀ key, catConcat (r :: rs) key =
        (if jsTruthy r.rawResult then arrayEntries r.rawResult key else []) ++
          catConcat rs key := by
      intro key
      unfold catConcat
      rw [List.map_cons, List.flatten_cons]
    by_cases hraw : jsTruthy r.rawResult
    · rw [if_pos hraw]
      have hexec : execCandidates (r :: rs) =
          (if jsTruthy (getF r.rawResult "executiveSummary")
           then [getF r.rawResult "executiveSummary"] else []) ++
            execCandidates rs := by
        unfold execCandidates
        rw [List.filterMap_cons]
        by_cases hx : jsTruthy (getF r.rawResult "executiveSummary")
        · rw [if_pos ⟨hraw, hx⟩, if_pos hx]; rfl
        · rw [if_neg (fun h => hx h.2), if_neg hx]; rfl
      simp only [hcat, hexec]
      by_cases hacc : jsTruthy acc.executiveSummary
      · have hguard :
            (jsTruthy (getF r.rawResult "executiveSummary") &&
              !(jsTruthy acc.executiveSummary)) = false := by
          rw [hacc]; simp
        rw [hguard]
        simp only [Bool.false_eq_true, if_false, hacc, if_true]
        simp [List.append_assoc, hraw]
      · have hacc2 : jsTruthy acc.executiveSummary = false := by
          simpa using hacc
        by_cases hx : jsTruthy (getF r.rawResult "executiveSummary")
        · have hguard :
              (jsTruthy (getF r.rawResult "executiveSummary") &&
                !(jsTruthy acc.executiveSummary)) = true := by
            rw [hx, hacc2]; rfl
          rw [hguard]
          simp only [if_true, if_pos hx, hx]
          simp [List.append_assoc, hraw, hacc2]
        · have hx2 : jsTruthy (getF r.rawResult "executiveSummary") = false := by
            simpa using hx
          have hguard :
              (jsTruthy (getF r.rawResult "executiveSummary") &&
                !(jsTruthy acc.executiveSummary)) = false := by
            rw [hx2]; rfl
          rw [hguard]
          simp only [Bool.false_eq_true, if_false, if_neg hx, hacc2]
          simp [List.append_assoc, hraw, hacc2]
    · rw [if_neg hraw]
      have hexec : execCandidates (r :: rs) = execCandidates rs := by
        unfold execCandidates
        rw [List.filterMap_cons, if_neg (fun h => hraw h.1)]
      simp [hcat, hexec, hraw]

/-- C2: merging a non-empty list of per-chunk results succeeds, and per
category the merged list is an order-preserving selection from the
concatenation of the chunks' lists (in chunk order) that keeps, for every
declared identifier, exactly the first occurrence and discards later
duplicates; the merged executive summary is the first truthy one observed
in chunk order. -/
theorem combineChunkResults_merge :
    ∀ rs : List TransformedResult, rs ≠ [] →
      ∃ t, combineChunkResults rs = .ok t ∧
        (∀ key ∈ ["controlFailures", "exclusions", "carveOuts"],
          ∃ merged, getField t.rawResult key = some (.arrV merged) ∧
            merged.Sublist (catConcat rs key) ∧
            ∀ d : Option JsVal,
              merged.filter (fun x => decide (getField x "id" = d)) =
                ((catConcat rs key).filter
                  (fun x => decide (getField x "id" = d))).take 1) ∧
        getField t.rawResult "executiveSummary" =
          some ((execCandidates rs).headD .nullV) := by
  intro rs hne
  have hlen : ¬ rs.length = 0 := by
    intro h; exact hne (List.length_eq_zero.mp h)
  unfold combineChunkResults
  rw [if_neg hlen]
  dsimp only
  rw [foldl_combineStep rs ⟨.nullV, [], [], []⟩]
  refine ⟨_, rfl, ?_, ?_⟩
  · intro key hk
    simp only [List.mem_cons, List.not_mem_nil, or_false] at hk
    rcases hk with hk | hk | hk <;> subst hk
    · exact ⟨removeDuplicates (catConcat rs "controlFailures") "id", rfl,
        removeDuplicatesAux_sublist "id" _ [],
        fun d => by
          have h := removeDuplicatesAux_filter "id" d
            (catConcat rs "controlFailures") []
          rwa [if_neg (List.not_mem_nil d)] at h⟩
    · exact ⟨removeDuplicates (catConcat rs "exclusions") "id", rfl,
        removeDuplicatesAux_sublist "id" _ [],
        fun d => by
          have h := removeDuplicatesAux_filter "id" d
            (catConcat rs "exclusions") []
          rwa [if_neg (List.not_mem_nil d)] at h⟩
    · exact ⟨removeDuplicates (catConcat rs "carveOuts") "id", rfl,
        removeDuplicatesAux_sublist "id" _ [],
        fun d => by
          have h := removeDuplicatesAux_filter "id" d
            (catConcat rs "carveOuts") []
          rwa [if_neg (List.not_mem_nil d)] at h⟩
  · show getField (JsVal.objV _) "executiveSummary" = _
    have : (if jsTruthy JsVal.nullV then JsVal.nullV
        else (execCandidates rs).headD JsVal.nullV) =
        (execCandidates rs).headD JsVal.nullV := by
      rw [if_neg (by simp [jsTruthy])]
    simp only [getField, List.lookup]
    rw [this]
    rfl

/-- Two partial records that each declare an exclusion with identifier
`EX-1`, used to witness C2 and C3. -/
def ex1First : JsVal := .objV [("id", .strV "EX-1"), ("description", .strV "first occurrence")]

/-- The later duplicate of `EX-1`. -/
def ex1Second : JsVal := .objV [("id", .strV "EX-1"), ("description", .strV "later duplicate")]

/-- First chunk result for the C2 witness. -/
def chunkResA : TransformedResult :=
  transformSOC1Result (.objV [
    ("executiveSummary", .objV [("opinion", .strV "unqualified")]),
    ("exclusions", .arrV [ex1First])])

/-- Second chunk result for the C2 witness. -/
def chunkResB : TransformedResult :=
  transformSOC1Result (.objV [("exclusions", .arrV [ex1Second])])

/-- Witness for C2: merging the two `EX-1` records keeps exactly the first
occurrence. -/
theorem combineChunkResults_merge_witness :
    (∃ t, combineChunkResults [chunkResA, chunkResB] = .ok t ∧
      (∀ key ∈ ["controlFailures", "exclusions", "carveOuts"],
        ∃ merged, getField t.rawResult key = some (.arrV merged) ∧
          merged.Sublist (catConcat [chunkResA, chunkResB] key) ∧
          ∀ d : Option JsVal,
            merged.filter (fun x => decide (getField x "id" = d)) =
              ((catConcat [chunkResA, chunkResB] key).filter
                (fun x => decide (getField x "id" = d))).take 1) ∧
      getField t.rawResult "executiveSummary" =
        some ((execCandidates [chunkResA, chunkResB]).headD .nullV)) ∧
    removeDuplicates (catConcat [chunkResA, chunkResB] "exclusions") "id" =
      [ex1First] := by
  refine ⟨combineChunkResults_merge [chunkResA, chunkResB] (by simp), ?_⟩
  rfl

/-- C3: merging zero successful chunk results raises exactly the designated
"no valid results" error; a chunk's failure is skipped, so the multi-chunk
pipeline fails if and only if every chunk fails, the only error it can
raise is the designated one, and it returns a merged result whenever some
chunk succeeds. -/
theorem analyzeMultipleChunks_fatal :
    ∀ outcomes : List (Except String TransformedResult),
      (analyzeMultipleChunksModel outcomes = .error noValidResultsMsg ↔
        ∀ o ∈ outcomes, o.toOption = none) ∧
      (∀ e, analyzeMultipleChunksModel outcomes = .error e →
        e = noValidResultsMsg) ∧
      ((∃ o ∈ outcomes, o.toOption ≠ none) →
        ∃ t, analyzeMultipleChunksModel outcomes = .ok t) := by
  intro outcomes
  unfold analyzeMultipleChunksModel combineChunkResults
  by_cases hz : (outcomes.filterMap (fun o => o.toOption)).length = 0
  · rw [if_pos hz]
    have hall : ∀ o ∈ outcomes, o.toOption = none := by
      have := List.length_eq_zero.mp hz
      intro o ho
      by_contra hne
      rcases ho2 : o.toOption with - | t
      · exact hne ho2
      · have : t ∈ outcomes.filterMap (fun o => o.toOption) :=
          List.mem_filterMap.mpr ⟨o, ho, ho2⟩
        rw [List.length_eq_zero.mp hz] at this
        cases this
    refine ⟨⟨fun _ => hall, fun _ => rfl⟩, fun e he => ?_, fun hex => ?_⟩
    · injection he with h
      exact h.symm
    · obtain ⟨o, ho, hne⟩ := hex
      exact absurd (hall o ho) hne
  · rw [if_neg hz]
    refine ⟨⟨fun h => ?_, fun hall => ?_⟩, fun e he => ?_, fun _ => ⟨_, rfl⟩⟩
    · cases h
    · exfalso
      apply hz
      rw [List.length_eq_zero, List.filterMap_eq_nil_iff]
      exact hall
    · cases he

/-! ## `splitTextIntoChunks` -/

/-- `text.split(/\n\s*\n/)`: scan left to right; at each newline whose
following whitespace run holds another newline, close the current
paragraph and resume after the separator. -/
def splitBlankAux : List Char → List Char → List (List Char)
  | [], acc => [acc.reverse]
  | c :: rest, acc =>
    if c = '\n' ∧ (blankSepExtra rest).isSome then
      acc.reverse :: splitBlankAux (rest.drop ((blankSepExtra rest).getD 0)) []
    else splitBlankAux rest (c :: acc)
termination_by cs _ => cs.length
decreasing_by
  · simp only [List.length_cons, List.length_drop]; omega
  · simp only [List.length_cons]; omega

/-- `text.split(/\n\s*\n/)`. -/
def splitBlank (cs : List Char) : List (List Char) := splitBlankAux cs []

/-- `[.!?]` (sentence-ending punctuation). -/
def isSentencePunct (c : Char) : Bool := c = '.' || c = '!' || c = '?'

/-- The length of a `/[.!?]+\s+/` separator matched at the head of `cs`
(maximal punctuation run followed by a nonempty maximal whitespace run),
or `none`. -/
def sentenceSepLen (cs : List Char) : Option Nat :=
  let punct := cs.takeWhile isSentencePunct
  if punct.length = 0 then none
  else
    let ws := (cs.drop punct.length).takeWhile isJsWhitespace
    if ws.length = 0 then none else some (punct.length + ws.length)

/-- `chunk.split(/[.!?]+\s+/)`. -/
def splitSentencesAux : List Char → List Char → List (List Char)
  | [], acc => [acc.reverse]
  | c :: rest, acc =>
    match hk : sentenceSepLen (c :: rest) with
    | some k => acc.reverse :: splitSentencesAux ((c :: rest).drop k) []
    | none => splitSentencesAux rest (c :: acc)
termination_by cs _ => cs.length
decreasing_by
  · have hk1 : 1 ≤ k := by
      unfold sentenceSepLen at hk
      dsimp only at hk
      split at hk
      · cases hk
      · split at hk
        · cases hk
        · injection hk with hkk
          omega
    rw [List.length_drop]
    simp only [List.length_cons]
    omega
  · simp only [List.length_cons]; omega

/-- `chunk.split(/[.!?]+\s+/)`. -/
def splitSentences (cs : List Char) : List (List Char) := splitSentencesAux cs []

/-- The paragraph-accumulation loop of `splitTextIntoChunks`: start a new
chunk when adding the next paragraph would exceed the budget and the
current chunk is nonempty, else append it (with a blank-line separator if
the current chunk is nonempty); finally push the trimmed chunk if
nonempty. -/
def chunkLoop (maxChars : Nat) : List (List Char) → List Char → List (List Char)
  | [], cur => if jsTrimList cur = [] then [] else [jsTrimList cur]
  | p :: ps, cur =>
    if maxChars < cur.length + p.length ∧ 0 < cur.length then
      jsTrimList cur :: chunkLoop maxChars ps p
    else
      chunkLoop maxChars ps (cur ++ ((if cur ≠ [] then ['\n', '\n'] else []) ++ p))

/-- The sentence-accumulation loop for oversized chunks (re-joining with
`'. '`). -/
def sentenceLoop (maxChars : Nat) : List (List Char) → List Char → List (List Char)
  | [], cur => if jsTrimList cur = [] then [] else [jsTrimList cur]
  | s :: ss, cur =>
    if maxChars < cur.length + s.length ∧ 0 < cur.length then
      jsTrimList cur :: sentenceLoop maxChars ss s
    else
      sentenceLoop maxChars ss (cur ++ ((if cur ≠ [] then ['.', ' '] else []) ++ s))

/-- `OpenRouterAPI.splitTextIntoChunks` (the character budget is
`maxTokens * 4`). -/
def splitTextIntoChunks (text : String) (maxTokens : Nat) : List String :=
  let maxChars := maxTokens * 4
  let paragraphs := splitBlank text.data
  let chunks := chunkLoop maxChars paragraphs []
  (chunks.flatMap (fun chunk =>
    if maxChars < chunk.length then
      sentenceLoop maxChars (splitSentences chunk) []
    else [chunk])).map String.mk

/-- Sum of the lengths of a list of parts. -/
def sumLen (ps : List (List Char)) : Nat := (ps.map List.length).sum

/-- Each part prefixed by a double-newline separator, flattened. -/
def sepFlat (ps : List (List Char)) : List Char :=
  (ps.map (fun p => '\n' :: '\n' :: p)).flatten

/-- The paragraph join performed by the accumulation loop in isolation (no
separator while the accumulated chunk is empty). -/
def foldJoin : List Char → List (List Char) → List Char
  | cur, [] => cur
  | cur, p :: ps =>
    foldJoin (cur ++ ((if cur ≠ [] then ['\n', '\n'] else []) ++ p)) ps

/-- Spec-side paragraph join: the paragraphs with each blank-line separator
replaced by a double newline. -/
def joinWithSep : List (List Char) → List Char
  | [] => []
  | [p] => p
  | p :: ps => p ++ ('\n' :: '\n' :: joinWithSep ps)

/-- The input with each blank-line paragraph separator normalized to a
double newline and outer whitespace trimmed. -/
def normalizeParagraphs (cs : List Char) : List Char :=
  jsTrimList (joinWithSep (splitBlank cs))

theorem findIdxq_lt_aux {α : Type} (p : α → Bool) :
    ∀ (l : List α) (i r : Nat), List.findIdx? p l i = some r →
      i ≤ r ∧ r < i + l.length := by
  intro l
  induction l with
  | nil => intro i r h; cases h
  | cons x xs ih =>
    intro i r h
    rw [List.findIdx?_cons] at h
    by_cases hp : p x
    · rw [if_pos hp] at h
      injection h with h
      subst h
      simp
    · rw [if_neg hp] at h
      have := ih (i + 1) r h
      simp only [List.length_cons]
      omega

theorem findIdxq_lt {α : Type} (p : α → Bool) (l : List α) (r : Nat)
    (h : l.findIdx? p = some r) : r < l.length := by
  have := findIdxq_lt_aux p l 0 r h
  omega

theorem jsTrimList_eq_nil_iff (l : List Char) :
    jsTrimList l = [] ↔ ∀ c ∈ l, isJsWhitespace c := by
  unfold jsTrimList
  constructor
  · intro h c hc
    rw [List.reverse_eq_nil_iff] at h
    have h2 := List.dropWhile_eq_nil_iff.mp h
    have h3 : ∀ x ∈ l.dropWhile isJsWhitespace, isJsWhitespace x := by
      intro x hx
      exact h2 x (by rwa [List.mem_reverse])
    rw [← List.takeWhile_append_dropWhile isJsWhitespace l] at hc
    rcases List.mem_append.mp hc with h4 | h4
    · exact List.mem_takeWhile_imp h4
    · exact h3 c h4
  · intro h
    have h1 : l.dropWhile isJsWhitespace = [] :=
      List.dropWhile_eq_nil_iff.mpr h
    rw [h1]
    simp

theorem jsTrimList_wsHead {pre l : List Char}
    (h : ∀ c ∈ pre, isJsWhitespace c) :
    jsTrimList (pre ++ l) = jsTrimList l := by
  unfold jsTrimList
  rw [List.dropWhile_append]
  simp [List.dropWhile_eq_nil_iff.mpr h]

theorem jsTrimList_no_ws {l : List Char}
    (h : ∀ c ∈ l, isJsWhitespace c = false) : jsTrimList l = l := by
  have hdrop : ∀ m : List Char, (∀ c ∈ m, isJsWhitespace c = false) →
      m.dropWhile isJsWhitespace = m := by
    intro m hm
    cases m with
    | nil => rfl
    | cons c rest =>
      rw [List.dropWhile_cons, if_neg (by rw [hm c (by simp)]; simp)]
  unfold jsTrimList
  rw [hdrop l h, hdrop l.reverse (fun c hc => h c (List.mem_reverse.mp hc)),
    List.reverse_reverse]

theorem jsTrimList_length_le (l : List Char) :
    (jsTrimList l).length ≤ l.length := by
  have hdrop : ∀ m : List Char, (m.dropWhile isJsWhitespace).length ≤ m.length :=
    fun m => (List.dropWhile_sublist _).length_le
  unfold jsTrimList
  rw [List.length_reverse]
  calc ((l.dropWhile isJsWhitespace).reverse.dropWhile isJsWhitespace).length
      ≤ (l.dropWhile isJsWhitespace).reverse.length := hdrop _
    _ = (l.dropWhile isJsWhitespace).length := List.length_reverse _
    _ ≤ l.length := hdrop l

theorem blankSepExtra_spec {rest : List Char} {k : Nat}
    (h : blankSepExtra rest = some k) :
    1 ≤ k ∧ k ≤ rest.length ∧ ∀ c ∈ rest.take k, isJsWhitespace c := by
  unfold blankSepExtra at h
  dsimp only at h
  rcases hf : (rest.takeWhile isJsWhitespace).reverse.findIdx? (fun c => c = '\n')
    with - | r
  · rw [hf] at h; cases h
  · rw [hf] at h
    injection h with h
    have hkv : (rest.takeWhile isJsWhitespace).length - r = k := h
    have hr := findIdxq_lt _ _ _ hf
    rw [List.length_reverse] at hr
    have hrun : (rest.takeWhile isJsWhitespace).length ≤ rest.length :=
      takeWhileLengthLe _ _
    subst hkv
    refine ⟨by omega, by omega, ?_⟩
    intro c hc
    generalize hm : (rest.takeWhile isJsWhitespace).length - r = m at hc
    have hmle : m ≤ (rest.takeWhile isJsWhitespace).length := by omega
    have hpre : rest.takeWhile isJsWhitespace <+: rest := List.takeWhile_prefix _
    obtain ⟨tl, htl⟩ := hpre
    have htake : rest.take m = (rest.takeWhile isJsWhitespace).take m := by
      conv_lhs => rw [← htl]
      rw [List.take_append_of_le_length hmle]
    rw [htake] at hc
    exact List.mem_takeWhile_imp (List.mem_of_mem_take hc)

theorem splitBlankAux_no_newline :
    ∀ (cs acc : List Char), (∀ c ∈ cs, ¬ c = '\n') →
      splitBlankAux cs acc = [acc.reverse ++ cs] := by
  intro cs
  induction cs with
  | nil => intro acc _; rw [splitBlankAux]; simp
  | cons c rest ih =>
    intro acc h
    rw [splitBlankAux]
    rw [if_neg (fun hc => h c (by simp) hc.1)]
    rw [ih (c :: acc) (fun x hx => h x (by simp [hx]))]
    simp

theorem splitSentencesAux_no_punct :
    ∀ (cs acc : List Char), (∀ c ∈ cs, isSentencePunct c = false) →
      splitSentencesAux cs acc = [acc.reverse ++ cs] := by
  intro cs
  induction cs with
  | nil => intro acc _; rw [splitSentencesAux]; simp
  | cons c rest ih =>
    intro acc h
    have hpunct : (c :: rest).takeWhile isSentencePunct = [] := by
      rw [List.takeWhile_cons, if_neg (by simp [h c (List.mem_cons_self c rest)])]
    have hsep : sentenceSepLen (c :: rest) = none := by
      simp only [sentenceSepLen, hpunct]
      simp
    rw [splitSentencesAux]
    split
    · rename_i k hk
      rw [hsep] at hk
      cases hk
    · rw [ih (c :: acc) (fun x hx => h x (by simp [hx]))]
      simp

theorem splitBlankAux_size :
    ∀ (cs acc : List Char),
      sumLen (splitBlankAux cs acc) + 2 * (splitBlankAux cs acc).length ≤
        acc.length + cs.length + 2 := by
  intro cs acc
  induction cs, acc using splitBlankAux.induct with
  | case1 acc =>
    rw [splitBlankAux]
    simp [sumLen]
  | case2 c rest acc h ih =>
    rw [splitBlankAux, if_pos h]
    obtain ⟨-, hsome⟩ := h
    obtain ⟨k, hk⟩ := Option.isSome_iff_exists.mp hsome
    obtain ⟨hk1, hk2, -⟩ := blankSepExtra_spec hk
    have ihk := ih
    rw [hk] at ihk
    simp only [Option.getD_some] at ihk
    rw [hk]
    simp only [Option.getD_some]
    simp only [sumLen, List.map_cons, List.sum_cons, List.length_cons] at ihk ⊢
    rw [List.length_reverse]
    rw [List.length_drop] at ihk
    simp only [List.length_nil] at ihk
    omega
  | case3 c rest acc h ih =>
    rw [splitBlankAux, if_neg h]
    have := ih
    simp only [List.length_cons] at this ⊢
    omega

theorem splitBlankAux_filter :
    ∀ (cs acc : List Char),
      ((splitBlankAux cs acc).map
        (fun p => p.filter (fun c => !(isJsWhitespace c)))).flatten =
        (acc.reverse ++ cs).filter (fun c => !(isJsWhitespace c)) := by
  intro cs acc
  induction cs, acc using splitBlankAux.induct with
  | case1 acc =>
    rw [splitBlankAux]
    simp
  | case2 c rest acc h ih =>
    rw [splitBlankAux, if_pos h]
    obtain ⟨hc, hsome⟩ := h
    obtain ⟨k, hk⟩ := Option.isSome_iff_exists.mp hsome
    obtain ⟨-, hk2, hkws⟩ := blankSepExtra_spec hk
    have ihk := ih
    rw [hk] at ihk
    simp only [Option.getD_some] at ihk
    rw [hk]
    simp only [Option.getD_some]
    rw [List.map_cons, List.flatten_cons, ihk]
    subst hc
    have hrest : (List.filter (fun c => !(isJsWhitespace c)) rest) =
        List.filter (fun c => !(isJsWhitespace c)) (rest.drop k) := by
      conv_lhs => rw [← List.take_append_drop k rest]
      rw [List.filter_append]
      have htk : (rest.take k).filter (fun c => !(isJsWhitespace c)) = [] := by
        rw [List.filter_eq_nil_iff]
        intro a ha
        rw [hkws a ha]
        simp
      rw [htk, List.nil_append]
    rw [List.filter_append, List.filter_append]
    simp only [List.reverse_nil, List.filter_nil, List.nil_append]
    rw [← hrest]
    have hnl : List.filter (fun c => !(isJsWhitespace c)) ['\n'] = [] := by
      simp [isJsWhitespace]
    rw [show ('\n' :: rest) = ['\n'] ++ rest from rfl, List.filter_append, hnl,
      List.nil_append]
  | case3 c rest acc h ih =>
    rw [splitBlankAux, if_neg h]
    rw [ih]
    simp

theorem splitBlankAux_ne_nil :
    ∀ (cs acc : List Char), splitBlankAux cs acc ≠ [] := by
  intro cs acc
  induction cs, acc using splitBlankAux.induct with
  | case1 acc => rw [splitBlankAux]; simp
  | case2 c rest acc h ih => rw [splitBlankAux, if_pos h]; simp
  | case3 c rest acc h ih => rw [splitBlankAux, if_neg h]; exact ih

theorem foldJoin_len_ge :
    ∀ (ps : List (List Char)) (cur : List Char),
      cur.length ≤ (foldJoin cur ps).length := by
  intro ps
  induction ps with
  | nil => intro cur; rw [foldJoin]
  | cons p ps ih =>
    intro cur
    rw [foldJoin]
    calc cur.length
        ≤ (cur ++ ((if cur ≠ [] then ['\n', '\n'] else []) ++ p)).length := by
          rw [List.length_append]; omega
      _ ≤ _ := ih _

theorem foldJoin_len_le :
    ∀ (ps : List (List Char)) (cur : List Char),
      (foldJoin cur ps).length ≤ cur.length + sumLen ps + 2 * ps.length := by
  intro ps
  induction ps with
  | nil => intro cur; rw [foldJoin]; simp [sumLen]
  | cons p ps ih =>
    intro cur
    rw [foldJoin]
    have h1 := ih (cur ++ ((if cur ≠ [] then ['\n', '\n'] else []) ++ p))
    have h2 : (cur ++ ((if cur ≠ [] then ['\n', '\n'] else []) ++ p)).length ≤
        cur.length + 2 + p.length := by
      rw [List.length_append, List.length_append]
      split <;> simp <;> omega
    simp only [sumLen, List.map_cons, List.sum_cons, List.length_cons] at h1 ⊢
    omega

theorem foldJoin_nil_cons (p : List Char) (ps : List (List Char)) :
    foldJoin [] (p :: ps) = foldJoin p ps := by
  rw [foldJoin]
  simp

theorem foldJoin_nonempty :
    ∀ (ps : List (List Char)) (cur : List Char), cur ≠ [] →
      foldJoin cur ps = cur ++ sepFlat ps := by
  intro ps
  induction ps with
  | nil => intro cur _; rw [foldJoin]; simp [sepFlat]
  | cons p ps ih =>
    intro cur hcur
    rw [foldJoin, if_pos hcur]
    rw [ih (cur ++ (['\n', '\n'] ++ p)) (by simp)]
    simp [sepFlat, List.append_assoc]

theorem joinWithSep_eq :
    ∀ (ps : List (List Char)) (p : List Char),
      joinWithSep (p :: ps) = p ++ sepFlat ps := by
  intro ps
  induction ps with
  | nil => intro p; simp [joinWithSep, sepFlat]
  | cons q ps ih =>
    intro p
    simp only [joinWithSep]
    rw [ih q]
    simp [sepFlat]

theorem foldJoin_trim_eq_join :
    ∀ ps : List (List Char),
      jsTrimList (foldJoin [] ps) = jsTrimList (joinWithSep ps) := by
  intro ps
  induction ps with
  | nil => rfl
  | cons p ps ih =>
    rw [foldJoin_nil_cons]
    by_cases hp : p = []
    · subst hp
      rw [ih]
      cases ps with
      | nil => rfl
      | cons q ps2 =>
        simp only [joinWithSep, List.nil_append]
        rw [show ('\n' :: '\n' :: joinWithSep (q :: ps2)) =
          ['\n', '\n'] ++ joinWithSep (q :: ps2) from rfl]
        rw [jsTrimList_wsHead (by decide)]
    · rw [foldJoin_nonempty ps p hp, joinWithSep_eq]

theorem joinWithSep_filter :
    ∀ ps : List (List Char),
      (joinWithSep ps).filter (fun c => !(isJsWhitespace c)) =
        (ps.map (fun p => p.filter (fun c => !(isJsWhitespace c)))).flatten := by
  intro ps
  induction ps with
  | nil => rfl
  | cons p ps ih =>
    cases ps with
    | nil => simp [joinWithSep]
    | cons q ps2 =>
      simp only [joinWithSep]
      rw [List.filter_append, List.map_cons, List.flatten_cons]
      rw [show ('\n' :: '\n' :: joinWithSep (q :: ps2)) =
        ['\n', '\n'] ++ joinWithSep (q :: ps2) from rfl]
      rw [List.filter_append]
      have hnl : (['\n', '\n'] : List Char).filter
          (fun c => !(isJsWhitespace c)) = [] := by
        simp [isJsWhitespace]
      rw [hnl, List.nil_append, ih]

theorem chunkLoop_no_split :
    ∀ (ps : List (List Char)) (cur : List Char) (maxChars : Nat),
      (foldJoin cur ps).length ≤ maxChars →
      chunkLoop maxChars ps cur =
        if jsTrimList (foldJoin cur ps) = [] then []
        else [jsTrimList (foldJoin cur ps)] := by
  intro ps
  induction ps with
  | nil => intro cur maxChars _; rw [chunkLoop, foldJoin]
  | cons p ps ih =>
    intro cur maxChars h
    rw [foldJoin] at h ⊢
    rw [chunkLoop]
    have hlen : cur.length + p.length ≤
        (foldJoin (cur ++ ((if cur ≠ [] then ['\n', '\n'] else []) ++ p)) ps).length := by
      calc cur.length + p.length
          ≤ (cur ++ ((if cur ≠ [] then ['\n', '\n'] else []) ++ p)).length := by
            simp only [List.length_append]
            omega
        _ ≤ _ := foldJoin_len_ge ps _
    rw [if_neg (by intro hg; omega)]
    exact ih _ maxChars h

/-- `'[Max Depth Reached]'`. -/
def maxDepthMarker : String := "[Max Depth Reached]"

/-- `'[Array Truncated - showing first 100 items]'`. -/
def arrayTruncMarker : String := "[Array Truncated - showing first 100 items]"

/-- `value.substring(0, 1000) + '...[Truncated]'`, applied by the
replacer when a string exceeds 1000 characters. -/
def truncateLongString (s : String) : String :=
  if 1000 < s.length then String.mk (s.data.take 1000) ++ "...[Truncated]" else s

mutual

/-- The `replacer` pass of `safeStringify`, applied over the whole value
in the depth-first order of `JSON.stringify`, threading the mutable
`depth` counter: the counter is incremented for every object or array
node visited and never decremented, and once it exceeds `maxDepth` every
later value, of any type, is replaced by the depth marker.  The `seen`
WeakSet is omitted: on the acyclic, unshared trees produced by
`response.json()` the `seen.has(value)` test is always false.  An array
of more than 100 elements is replaced by its first 100 elements plus a
marker string; the serializer then visits the elements of that new array
(including the marker, which itself falls to the depth marker if the
counter is already exhausted). -/
def replacerVisit (maxDepth : Nat) : JsVal → Nat → JsVal × Nat
  | v, depth =>
    if maxDepth < depth then (.strV maxDepthMarker, depth)
    else
      match v with
      | .objV fields =>
        let r := replacerVisitFields maxDepth fields (depth + 1)
        (.objV r.1, r.2)
      | .arrV elems =>
        if 100 < elems.length then
          let r := replacerVisitListTake maxDepth 100 elems (depth + 1)
          let last : JsVal :=
            if maxDepth < r.2 then .strV maxDepthMarker else .strV arrayTruncMarker
          (.arrV (r.1 ++ [last]), r.2)
        else
          let r := replacerVisitList maxDepth elems (depth + 1)
          (.arrV r.1, r.2)
      | .strV s => (.strV (truncateLongString s), depth)
      | other => (other, depth)

/-- Visit every element of an array in order, threading the counter. -/
def replacerVisitList (maxDepth : Nat) : List JsVal → Nat → List JsVal × Nat
  | [], depth => ([], depth)
  | v :: vs, depth =>
    let r := replacerVisit maxDepth v depth
    let rs := replacerVisitList maxDepth vs r.2
    (r.1 :: rs.1, rs.2)

/-- Visit the first `n` elements of an array in order (the elements
dropped by `slice(0, 100)` are never passed to the replacer). -/
def replacerVisitListTake (maxDepth : Nat) : Nat → List JsVal → Nat → List JsVal × Nat
  | _, [], depth => ([], depth)
  | 0, _ :: _, depth => ([], depth)
  | n + 1, v :: vs, depth =>
    let r := replacerVisit maxDepth v depth
    let rs := replacerVisitListTake maxDepth n vs r.2
    (r.1 :: rs.1, rs.2)

/-- Visit every field value of an object in key order, threading the
counter. -/
def replacerVisitFields (maxDepth : Nat) :
    List (String × JsVal) → Nat → List (String × JsVal) × Nat
  | [], depth => ([], depth)
  | (k, v) :: kvs, depth =>
    let r := replacerVisit maxDepth v depth
    let rs := replacerVisitFields maxDepth kvs r.2
    ((k, r.1) :: rs.1, rs.2)

end

/-- The character for a hexadecimal digit (lowercase). -/
def hexDigitChar (n : Nat) : Char :=
  if n < 10 then Char.ofNat (48 + n) else Char.ofNat (87 + n)

/-- JSON string escaping as in `JSON.stringify` (quote, backslash, named
control escapes, `\u00xx` for the remaining control characters). -/
def quoteJsonChar (c : Char) : String :=
  if c = '"' then "\\\""
  else if c = '\\' then "\\\\"
  else if c = '\n' then "\\n"
  else if c = '\r' then "\\r"
  else if c = '\t' then "\\t"
  else if c = Char.ofNat 8 then "\\b"
  else if c = Char.ofNat 12 then "\\f"
  else if c.toNat < 32 then
    "\\u00" ++ String.mk [hexDigitChar (c.toNat / 16), hexDigitChar (c.toNat % 16)]
  else String.mk [c]

/-- A JSON string literal with its quotes. -/
def quoteJsonString (s : String) : String :=
  "\"" ++ String.join (s.data.map quoteJsonChar) ++ "\""

/-- Two-space indentation at nesting level `n`. -/
def indentStr (n : Nat) : String := String.mk (List.replicate (2 * n) ' ')

mutual

/-- `JSON.stringify(v, null, 2)` at indentation level `lvl` (numbers have
denominator 1 in every value exercised and print as integers; other
rationals are rendered from the exact rational). -/
def jsonIndentVal : JsVal → Nat → String
  | .nullV, _ => "null"
  | .boolV b, _ => cond b "true" "false"
  | .numV q, _ => if q.den = 1 then toString q.num else toString q
  | .strV s, _ => quoteJsonString s
  | .arrV [], _ => "[]"
  | .arrV (v :: vs), lvl =>
    "[\n" ++ jsonIndentItems (v :: vs) (lvl + 1) ++ "\n" ++ indentStr lvl ++ "]"
  | .objV [], _ => "\x7b\x7d"
  | .objV (kv :: kvs), lvl =>
    "\x7b\n" ++ jsonIndentEntries (kv :: kvs) (lvl + 1) ++ "\n" ++ indentStr lvl ++ "\x7d"

/-- The comma-and-newline separated items of an array. -/
def jsonIndentItems : List JsVal → Nat → String
  | [], _ => ""
  | [v], lvl => indentStr lvl ++ jsonIndentVal v lvl
  | v :: vs, lvl =>
    indentStr lvl ++ jsonIndentVal v lvl ++ ",\n" ++ jsonIndentItems vs lvl

/-- The comma-and-newline separated entries of an object. -/
def jsonIndentEntries : List (String × JsVal) → Nat → String
  | [], _ => ""
  | [(k, v)], lvl => indentStr lvl ++ quoteJsonString k ++ ": " ++ jsonIndentVal v lvl
  | (k, v) :: kvs, lvl =>
    indentStr lvl ++ quoteJsonString k ++ ": " ++ jsonIndentVal v lvl ++ ",\n" ++
      jsonIndentEntries kvs lvl

end

/-- `safeStringify(obj)` (default `maxDepth = 3`): `JSON.stringify(obj,
replacer, 2)`, modeled as the replacer pass followed by 2-space
pretty-printing.  On the acyclic, unshared trees produced by
`response.json()` stringification cannot throw, so the catch branch
(which would return a bracketed error string, not an empty string) is
unreachable. -/
def safeStringify (obj : JsVal) : String :=
  jsonIndentVal ((replacerVisit 3 obj 0).1) 0

/-- `payload?.choices?.[0] ?? \x7b\x7d`: optional chaining, then indexing
(an array yields its first element, a string its first character, an
object its field "0", anything else `undefined`), with `??` collapsing
`undefined` and `null` to an empty object. -/
def choice0 (payload : JsVal) : JsVal :=
  let choices : Option JsVal := getField payload "choices"
  let elt : Option JsVal :=
    match choices with
    | some (.arrV l) => l.head?
    | some (.strV s) => s.data.head?.map (fun c => .strV (String.mk [c]))
    | some (.objV fs) => fs.lookup "0"
    | _ => none
  match elt with
  | some .nullV => .objV []
  | some v => v
  | none => .objV []

/-- `x ?? \x7b\x7d` on a property value (`??` catches both `undefined`,
modeled as `none`, and `null`). -/
def coalesceObj : Option JsVal → JsVal
  | none => .objV []
  | some .nullV => .objV []
  | some v => v

/-- The `message` object of `normalizeContent`:
`choice.message ?? \x7b\x7d`. -/
def messageOf (payload : JsVal) : JsVal :=
  coalesceObj (getField (choice0 payload) "message")

/-- `v.content` when it is a string. -/
def strContentOf (v : JsVal) : Option String :=
  match getField v "content" with
  | some (.strV s) => some s
  | _ => none

/-- Keep a string only when its trim is nonempty (the truthiness test
`str.trim()`). -/
def nonEmptyStr : Option String → Option String
  | some s => if jsTrim s = "" then none else some s
  | none => none

/-- One element of the parts array in branch (c) of `normalizeContent`:
`typeof part === 'string' ? part : part?.text ?? ''`, the non-string
result coerced by `join` via `String(v)` (`jsDisplay`). -/
def partToString (part : JsVal) : String :=
  match part with
  | .strV s => s
  | _ =>
    match getField part "text" with
    | none => ""
    | some .nullV => ""
    | some v => jsDisplay v

/-- Branch (c) of `normalizeContent`: when `message.content` is an array,
the concatenation of its parts. -/
def arrayContentJoined (message : JsVal) : Option String :=
  match getField message "content" with
  | some (.arrV parts) => some (String.join (parts.map partToString))
  | _ => none

/-- `Object.keys(v).length`: the number of own enumerable keys (fields of
an object, indices of an array or string; primitives have none; the
`message` passed here is never `null`). -/
def objKeysLength : JsVal → Nat
  | .objV fs => fs.length
  | .arrV l => l.length
  | .strV s => s.length
  | _ => 0

/-- `normalizeContent(payload)`: the priority cascade (a)-(e).  Every
branch is total in this model, so the try/catch wrapper (returning an
empty string) is dead code. -/
def normalizeContent (payload : JsVal) : String :=
  let choice := choice0 payload
  let message := messageOf payload
  match nonEmptyStr (strContentOf message) with
  | some s => s
  | none =>
    match nonEmptyStr (strContentOf choice) with
    | some s => s
    | none =>
      match nonEmptyStr (arrayContentJoined message) with
      | some j => j
      | none =>
        if jsTruthy message && decide (0 < objKeysLength message) then
          safeStringify message
        else safeStringify payload

mutual

/-- The output-size bound guaranteed by the replacer: every string of the
transformed tree has at most 1014 characters (1000 plus the 14-character
truncation suffix) and every array at most 101 elements (100 plus the
truncation marker). -/
def dumpBounded : JsVal → Bool
  | .strV s => decide (s.length ≤ 1014)
  | .arrV l => decide (l.length ≤ 101) && dumpBoundedList l
  | .objV fs => dumpBoundedFields fs
  | _ => true

/-- `dumpBounded` over array elements. -/
def dumpBoundedList : List JsVal → Bool
  | [] => true
  | v :: vs => dumpBounded v && dumpBoundedList vs

/-- `dumpBounded` over object field values. -/
def dumpBoundedFields : List (String × JsVal) → Bool
  | [] => true
  | (_, v) :: kvs => dumpBounded v && dumpBoundedFields kvs

end

mutual

/-- Nesting depth of a value (0 for leaves). -/
def treeDepth : JsVal → Nat
  | .arrV l => 1 + treeDepthList l
  | .objV fs => 1 + treeDepthFields fs
  | _ => 0

/-- Maximal depth over array elements. -/
def treeDepthList : List JsVal → Nat
  | [] => 0
  | v :: vs => max (treeDepth v) (treeDepthList vs)

/-- Maximal depth over object field values. -/
def treeDepthFields : List (String × JsVal) → Nat
  | [] => 0
  | (_, v) :: kvs => max (treeDepth v) (treeDepthFields kvs)

end

/-- The decimal digit character for `d % 10`-style values. -/
def digitChar : Nat → Char
  | 0 => '0' | 1 => '1' | 2 => '2' | 3 => '3' | 4 => '4'
  | 5 => '5' | 6 => '6' | 7 => '7' | 8 => '8' | _ => '9'

/-- Decimal digits of `n`, most significant first (the fuel argument only
bounds the division chain and is chosen large enough by `printNat`). -/
def printNatAux : Nat → Nat → List Char
  | 0, _ => []
  | fuel + 1, n =>
    if n < 10 then [digitChar n]
    else printNatAux fuel (n / 10) ++ [digitChar (n % 10)]

/-- The canonical decimal digits of `n` (no leading zeros). -/
def printNat (n : Nat) : List Char := printNatAux (n + 1) n

theorem digitChar_isDigit : ∀ d, isDigitCh (digitChar d) = true := by
  intro d
  rcases d with _|_|_|_|_|_|_|_|_|d
  · decide
  · decide
  · decide
  · decide
  · decide
  · decide
  · decide
  · decide
  · decide
  · exact (by decide : isDigitCh '9' = true)

theorem digitChar_toNat : ∀ d, d < 10 → (digitChar d).toNat = 48 + d := by
  intro d hd
  rcases d with _|_|_|_|_|_|_|_|_|d
  · decide
  · decide
  · decide
  · decide
  · decide
  · decide
  · decide
  · decide
  · decide
  · have hd0 : d = 0 := by omega
    subst hd0
    decide

theorem digitChar_ne_zero : ∀ d, 1 ≤ d → d < 10 → ¬ digitChar d = '0' := by
  intro d h1 h2
  rcases d with _|_|_|_|_|_|_|_|_|d
  · omega
  · decide
  · decide
  · decide
  · decide
  · decide
  · decide
  · decide
  · decide
  · have hd0 : d = 0 := by omega
    subst hd0
    decide

theorem digitsToNatAux_eq_foldl :
    ∀ (ds : List Char) (acc : Nat),
      digitsToNatAux ds acc =
        ds.foldl (fun a c => a * 10 + (c.toNat - 48)) acc := by
  intro ds
  induction ds with
  | nil => intro acc; rfl
  | cons c rest ih => intro acc; rw [digitsToNatAux, List.foldl_cons, ih]

theorem digitsToNat_append_digit (xs : List Char) (d : Char) :
    digitsToNat (xs ++ [d]) = 10 * digitsToNat xs + (d.toNat - 48) := by
  rw [digitsToNat, digitsToNat, digitsToNatAux_eq_foldl, digitsToNatAux_eq_foldl,
    List.foldl_append]
  rw [List.foldl_cons, List.foldl_nil]
  ring

theorem printNatAux_spec :
    ∀ (fuel n : Nat), n < 10 ^ fuel → 1 ≤ fuel →
      printNatAux fuel n ≠ [] ∧
      (printNatAux fuel n).all isDigitCh = true ∧
      digitsToNat (printNatAux fuel n) = n ∧
      (1 ≤ n → ¬ (printNatAux fuel n).headD '0' = '0') := by
  intro fuel
  induction fuel with
  | zero =>
    intro n hn hf
    omega
  | succ fuel ih =>
    intro n hn hf
    rw [printNatAux]
    by_cases h10 : n < 10
    · rw [if_pos h10]
      refine ⟨by simp, by simp [digitChar_isDigit], ?_, ?_⟩
      · rw [show digitsToNat [digitChar n] = ([] ++ [digitChar n] : List Char).foldl
          (fun a c => a * 10 + (c.toNat - 48)) 0 from by
            rw [digitsToNat, digitsToNatAux_eq_foldl]; rfl]
        rw [List.foldl_append, List.foldl_cons, List.foldl_nil, List.foldl_nil]
        rw [digitChar_toNat n h10]
        omega
      · intro h1
        simp only [List.headD_cons]
        exact digitChar_ne_zero n h1 h10
    · rw [if_neg h10]
      have hdiv : n / 10 < 10 ^ fuel := by
        rw [Nat.div_lt_iff_lt_mul (by norm_num)]
        rw [pow_succ] at hn
        omega
      have hf1 : 1 ≤ fuel := by
        by_contra hc
        have hc0 : fuel = 0 := by omega
        subst hc0
        simp at hdiv
        omega
      obtain ⟨hne, hdig, hval, hhead⟩ := ih (n / 10) hdiv hf1
      refine ⟨by simp, ?_, ?_, ?_⟩
      · rw [List.all_append]
        simp only [hdig, List.all_cons, List.all_nil, digitChar_isDigit]
        rfl
      · rw [digitsToNat_append_digit, hval, digitChar_toNat (n % 10) (by omega)]
        omega
      · intro _
        cases hcase : printNatAux fuel (n / 10) with
        | nil => exact absurd hcase hne
        | cons a as =>
          rw [List.cons_append]
          simp only [List.headD_cons]
          have := hhead (by omega)
          rw [hcase] at this
          simpa using this


theorem printNat_spec (n : Nat) :
    printNat n ≠ [] ∧ (printNat n).all isDigitCh = true ∧
    digitsToNat (printNat n) = n ∧
    (1 ≤ n → ¬ (printNat n).headD '0' = '0') := by
  have hlt : n < 10 ^ (n + 1) := by
    have := Nat.lt_pow_self (by norm_num : (1 : Nat) < 10) (n + 1)
    omega
  exact printNatAux_spec (n + 1) n hlt (by omega)

/-- A string character that needs no escaping (the serializations
exercised use only such characters). -/
def cleanChar (c : Char) : Bool :=
  !(c = '"') && !(c = '\\') && decide (32 ≤ c.toNat)

set_option maxHeartbeats 1000000 in
theorem parseStringBody_cons (c : Char) (l : List Char)
    (h1 : ¬ c = '"') (h2 : ¬ c = '\\') (h3 : ¬ c.toNat < 32) :
    parseStringBody (c :: l) =
      (parseStringBody l).map (fun p => (c :: p.1, p.2)) := by
  rw [parseStringBody]
  · rw [if_neg h3]
  all_goals intros
  all_goals first
  | exact absurd (by assumption : c = '"') h1
  | exact absurd (by assumption : c = '\\') h2

theorem parseStringBody_clean :
    ∀ (cs rest : List Char), cs.all cleanChar = true →
      parseStringBody (cs ++ '"' :: rest) = some (cs, rest) := by
  intro cs
  induction cs with
  | nil =>
    intro rest _
    rw [List.nil_append]
    rfl
  | cons c cs ih =>
    intro rest hclean
    rw [List.all_cons, Bool.and_eq_true] at hclean
    obtain ⟨hc, hcs⟩ := hclean
    simp only [cleanChar, Bool.and_eq_true, Bool.not_eq_true',
      decide_eq_false_iff_not, decide_eq_true_eq] at hc
    obtain ⟨⟨hq, hb⟩, hge⟩ := hc
    rw [List.cons_append, parseStringBody_cons c _ hq hb (by omega), ih rest hcs]
    rfl


/-- A clean string: every character printable without escaping. -/
def cleanStr (s : String) : Bool := s.data.all cleanChar

/-- Pairwise-distinct keys (so that parsing's duplicate-key upsert never
fires). -/
def keysDistinct : List String → Bool
  | [] => true
  | k :: ks => !(ks.contains k) && keysDistinct ks

mutual

/-- Values whose compact serialization parses back exactly: integer
numbers, clean strings, arrays of clean values, objects with clean,
pairwise-distinct keys and clean values. -/
def cleanValue : JsVal → Bool
  | .nullV => true
  | .boolV _ => true
  | .numV q => decide (q.den = 1)
  | .strV s => cleanStr s
  | .arrV l => cleanList l
  | .objV fs => keysDistinct (fs.map Prod.fst) && cleanFields fs

/-- `cleanValue` over array elements. -/
def cleanList : List JsVal → Bool
  | [] => true
  | v :: vs => cleanValue v && cleanList vs

/-- `cleanValue` over object fields. -/
def cleanFields : List (String × JsVal) → Bool
  | [] => true
  | (k, w) :: kvs => cleanStr k && cleanValue w && cleanFields kvs

end

/-- The canonical digits of an integer (minus sign for negatives). -/
def printNum (q : Rat) : List Char :=
  if q.num < 0 then '-' :: printNat q.num.natAbs else printNat q.num.natAbs

mutual

/-- The compact (whitespace-free) JSON serialization of a value. -/
def printJson : JsVal → List Char
  | .nullV => ['n', 'u', 'l', 'l']
  | .boolV b => if b then ['t', 'r', 'u', 'e'] else ['f', 'a', 'l', 's', 'e']
  | .numV q => printNum q
  | .strV s => '"' :: (s.data ++ ['"'])
  | .arrV [] => ['[', ']']
  | .arrV (v :: vs) => '[' :: (printJson v ++ (printJsonItems vs ++ [']']))
  | .objV [] => [braceOpen, braceClose]
  | .objV ((k, w) :: kvs) =>
    braceOpen :: ('"' :: (k.data ++ '"' :: ':' :: printJson w) ++
      (printJsonFields kvs ++ [braceClose]))

/-- Subsequent array items, each preceded by a comma. -/
def printJsonItems : List JsVal → List Char
  | [] => []
  | v :: vs => ',' :: (printJson v ++ printJsonItems vs)

/-- Subsequent object fields, each preceded by a comma. -/
def printJsonFields : List (String × JsVal) → List Char
  | [] => []
  | (k, w) :: kvs =>
    ',' :: ('"' :: (k.data ++ '"' :: ':' :: printJson w) ++ printJsonFields kvs)

end

mutual

/-- The fuel `parseVal` needs on the serialization of a value. -/
def fuelNeed : JsVal → Nat
  | .arrV [] => 2
  | .arrV (v :: vs) => 2 + fuelNeedElems (v :: vs)
  | .objV [] => 2
  | .objV (kv :: kvs) => 2 + fuelNeedFields (kv :: kvs)
  | _ => 1

def fuelNeedElems : List JsVal → Nat
  | [] => 0
  | [v] => 1 + fuelNeed v
  | v :: vs => 1 + max (fuelNeed v) (fuelNeedElems vs)

def fuelNeedFields : List (String × JsVal) → Nat
  | [] => 0
  | [(_, w)] => 1 + fuelNeed w
  | (_, w) :: kvs => 1 + max (fuelNeed w) (fuelNeedFields kvs)

end

/-- After a serialized number the stream may not continue with a digit, a
decimal point, or an exponent letter (always true after a separator or at
the end of input). -/
def numBoundary : List Char → Bool
  | [] => true
  | c :: _ => !(isDigitCh c) && !(c = '.') && !(c = 'e') && !(c = 'E')

theorem isDigitCh_toNat {c : Char} (h : isDigitCh c = true) :
    48 ≤ c.toNat ∧ c.toNat ≤ 57 := by
  rw [isDigitCh, Bool.and_eq_true, decide_eq_true_eq, decide_eq_true_eq] at h
  obtain ⟨h1, h2⟩ := h
  rw [Char.le_def] at h1 h2
  constructor
  · exact h1
  · exact h2

theorem takeWhile_append_of_all {p : Char → Bool} :
    ∀ (xs rest : List Char), xs.all p = true →
      (xs ++ rest).takeWhile p = xs ++ rest.takeWhile p := by
  intro xs rest
  induction xs with
  | nil => intro _; simp
  | cons x xs ih =>
    intro hall
    rw [List.all_cons, Bool.and_eq_true] at hall
    rw [List.cons_append, List.takeWhile_cons, if_pos hall.1, ih hall.2]
    rfl

theorem takeWhile_nil_of_head {p : Char → Bool} (rest : List Char)
    (h : ∀ c cs, rest = c :: cs → p c = false) :
    rest.takeWhile p = [] := by
  cases rest with
  | nil => rfl
  | cons c cs =>
    rw [List.takeWhile_cons, if_neg (by rw [h c cs rfl]; simp)]

theorem parseFrac_boundary (rest : List Char) (hb : numBoundary rest = true) :
    parseFrac rest = some (0, rest) := by
  cases rest with
  | nil => rfl
  | cons c r =>
    rw [numBoundary] at hb
    simp only [Bool.and_eq_true, Bool.not_eq_true', decide_eq_false_iff_not] at hb
    unfold parseFrac
    dsimp only
    rw [if_neg hb.1.1.2]

theorem parseExp_boundary (rest : List Char) (hb : numBoundary rest = true) :
    parseExp rest = some (1, rest) := by
  cases rest with
  | nil => rfl
  | cons c r =>
    rw [numBoundary] at hb
    simp only [Bool.and_eq_true, Bool.not_eq_true', decide_eq_false_iff_not] at hb
    unfold parseExp
    dsimp only
    rw [if_neg (by rintro (h | h); exact hb.1.2 h; exact hb.2 h)]

theorem printNat_zero : printNat 0 = ['0'] := by decide

theorem parseNumberCore_digits (n : Nat) (rest : List Char)
    (hb : numBoundary rest = true) :
    parseNumberCore (printNat n ++ rest) =
      some ((n : Rat), rest) := by
  have hdigit_rest : rest.takeWhile isDigitCh = [] := by
    apply takeWhile_nil_of_head
    intro c cs hc
    subst hc
    rw [numBoundary] at hb
    simp only [Bool.and_eq_true, Bool.not_eq_true'] at hb
    exact hb.1.1.1
  obtain ⟨hne, hdig, hval, hhead⟩ := printNat_spec n
  cases hp : printNat n with
  | nil => exact absurd hp hne
  | cons c0 cs0 =>
    have hc0 : isDigitCh c0 = true := by
      rw [hp, List.all_cons, Bool.and_eq_true] at hdig
      exact hdig.1
    have hc0m : ¬ c0 = '-' := by
      intro h
      subst h
      exact absurd hc0 (by decide)
    rw [List.cons_append]
    unfold parseNumberCore
    dsimp only
    rw [if_neg hc0m]
    dsimp only
    rw [show (c0 :: (cs0 ++ rest)).takeWhile isDigitCh =
      (c0 :: cs0 ++ rest).takeWhile isDigitCh from by rw [List.cons_append]]
    rw [takeWhile_append_of_all (c0 :: cs0) rest (by rw [← hp]; exact hdig),
      hdigit_rest, List.append_nil]
    rw [if_neg (by simp)]
    have hguard : ¬ (1 < (c0 :: cs0).length ∧ (c0 :: cs0).headD '0' = '0') := by
      rintro ⟨hlen, hzero⟩
      by_cases hn0 : n = 0
      · subst hn0
        rw [printNat_zero] at hp
        injection hp with h1 h2
        subst h2
        simp at hlen
      · have := hhead (by omega)
        rw [hp] at this
        exact this hzero
    rw [if_neg hguard]
    rw [show (c0 :: (cs0 ++ rest)).drop (c0 :: cs0).length =
      (c0 :: cs0 ++ rest).drop (c0 :: cs0).length from by rw [List.cons_append]]
    rw [List.drop_left]
    rw [parseFrac_boundary rest hb]
    dsimp only
    rw [parseExp_boundary rest hb]
    dsimp only
    rw [← hp, hval]
    norm_num

theorem parseNumberCore_print (q : Rat) (hq : q.den = 1) (rest : List Char)
    (hb : numBoundary rest = true) :
    parseNumberCore (printNum q ++ rest) = some (q, rest) := by
  have hqnum : ((q.num : Int) : Rat) = q := by
    have h1 := Rat.num_div_den q
    rw [hq] at h1
    simpa using h1
  rw [printNum]
  by_cases hneg : q.num < 0
  · rw [if_pos hneg, List.cons_append]
    have hdigit_rest : rest.takeWhile isDigitCh = [] := by
      apply takeWhile_nil_of_head
      intro c cs hc
      subst hc
      rw [numBoundary] at hb
      simp only [Bool.and_eq_true, Bool.not_eq_true'] at hb
      exact hb.1.1.1
    obtain ⟨hne, hdig, hval, hhead⟩ := printNat_spec q.num.natAbs
    cases hp : printNat q.num.natAbs with
    | nil => exact absurd hp hne
    | cons c0 cs0 =>
      unfold parseNumberCore
      dsimp only
      rw [if_pos rfl]
      dsimp only
      rw [List.cons_append]
      rw [show (c0 :: (cs0 ++ rest)).takeWhile isDigitCh =
        (c0 :: cs0 ++ rest).takeWhile isDigitCh from by rw [List.cons_append]]
      rw [takeWhile_append_of_all (c0 :: cs0) rest (by rw [← hp]; exact hdig),
        hdigit_rest, List.append_nil]
      rw [if_neg (by simp)]
      have hguard : ¬ (1 < (c0 :: cs0).length ∧ (c0 :: cs0).headD '0' = '0') := by
        rintro ⟨hlen, hzero⟩
        by_cases hn0 : q.num.natAbs = 0
        · rw [hn0, printNat_zero] at hp
          injection hp with h1 h2
          subst h2
          simp at hlen
        · have := hhead (by omega)
          rw [hp] at this
          exact this hzero
      rw [if_neg hguard]
      rw [show (c0 :: (cs0 ++ rest)).drop (c0 :: cs0).length =
        (c0 :: cs0 ++ rest).drop (c0 :: cs0).length from by rw [List.cons_append]]
      rw [List.drop_left]
      rw [parseFrac_boundary rest hb]
      dsimp only
      rw [parseExp_boundary rest hb]
      dsimp only
      rw [if_pos rfl]
      rw [← hp, hval]
      have h2 : ((q.num.natAbs : Nat) : Int) = -q.num :=
        Int.ofNat_natAbs_of_nonpos (le_of_lt hneg)
      have h3 : -((q.num.natAbs : Nat) : Rat) = q := by
        rw [show ((q.num.natAbs : Nat) : Rat) = (((q.num.natAbs : Nat) : Int) : Rat)
          from by rw [Int.cast_natCast]]
        rw [h2]
        push_cast
        simpa using hqnum
      rw [show -(((q.num.natAbs : Rat) + 0) * 1) = -((q.num.natAbs : Nat) : Rat)
        from by ring]
      rw [h3]
  · rw [if_neg hneg]
    rw [parseNumberCore_digits q.num.natAbs rest hb]
    have h2 : ((q.num.natAbs : Nat) : Int) = q.num := Int.natAbs_of_nonneg (by omega)
    have h3 : ((q.num.natAbs : Nat) : Rat) = q := by
      rw [show ((q.num.natAbs : Nat) : Rat) = (((q.num.natAbs : Nat) : Int) : Rat)
        from by rw [Int.cast_natCast]]
      rw [h2, hqnum]
    rw [h3]


theorem skipWs_cons_of_not_ws {c : Char} (l : List Char) (h : jsonWsCh c = false) :
    skipWs (c :: l) = c :: l := by
  rw [skipWs, List.dropWhile_cons, if_neg (by rw [h]; simp)]

theorem isDigitCh_facts {c : Char} (h : isDigitCh c = true) :
    jsonWsCh c = false ∧ ¬c = ']' ∧ ¬c = braceClose ∧ ¬c = 'n' ∧ ¬c = 't' ∧
      ¬c = 'f' ∧ ¬c = '"' ∧ ¬c = '[' ∧ ¬c = braceOpen := by
  obtain ⟨h1, h2⟩ := isDigitCh_toNat h
  have hne : ∀ d : Char, ¬(48 ≤ d.toNat ∧ d.toNat ≤ 57) → ¬c = d := by
    intro d hd he
    subst he
    exact hd ⟨h1, h2⟩
  refine ⟨?_, hne _ (by decide), hne _ (by decide), hne _ (by decide),
    hne _ (by decide), hne _ (by decide), hne _ (by decide), hne _ (by decide),
    hne _ (by decide)⟩
  rw [jsonWsCh]
  simp only [Bool.or_eq_false_iff, decide_eq_false_iff_not]
  exact ⟨⟨⟨hne _ (by decide), hne _ (by decide)⟩, hne _ (by decide)⟩,
    hne _ (by decide)⟩

theorem printJson_head (v : JsVal) :
    ∃ c l, printJson v = c :: l ∧ jsonWsCh c = false ∧ ¬c = ']' ∧
      ¬c = braceClose := by
  cases v with
  | nullV => exact ⟨'n', _, rfl, by decide, by decide, by decide⟩
  | boolV b =>
    cases b
    · refine ⟨'f', _, rfl, ?_, ?_, ?_⟩ <;> decide
    · refine ⟨'t', _, rfl, ?_, ?_, ?_⟩ <;> decide
  | numV q =>
    rw [show printJson (.numV q) = printNum q from rfl, printNum]
    by_cases hneg : q.num < 0
    · rw [if_pos hneg]
      exact ⟨'-', _, rfl, by decide, by decide, by decide⟩
    · rw [if_neg hneg]
      obtain ⟨hne, hdig, -, -⟩ := printNat_spec q.num.natAbs
      cases hp : printNat q.num.natAbs with
      | nil => exact absurd hp hne
      | cons c0 cs0 =>
        have hc0 : isDigitCh c0 = true := by
          rw [hp, List.all_cons, Bool.and_eq_true] at hdig
          exact hdig.1
        obtain ⟨hws, hrb, hbc, -⟩ := isDigitCh_facts hc0
        exact ⟨c0, cs0, rfl, hws, hrb, hbc⟩
  | strV s => exact ⟨'"', _, rfl, by decide, by decide, by decide⟩
  | arrV l =>
    cases l with
    | nil => exact ⟨'[', _, rfl, by decide, by decide, by decide⟩
    | cons v vs => exact ⟨'[', _, rfl, by decide, by decide, by decide⟩
  | objV fs =>
    cases fs with
    | nil => exact ⟨braceOpen, _, rfl, by decide, by decide, by decide⟩
    | cons kv kvs =>
      obtain ⟨k, w⟩ := kv
      exact ⟨braceOpen, _, rfl, by decide, by decide, by decide⟩

theorem fuelNeed_pos (v : JsVal) : 1 ≤ fuelNeed v := by
  cases v with
  | arrV l => cases l <;> (rw [fuelNeed]; omega)
  | objV fs =>
    cases fs with
    | nil => rw [fuelNeed]; omega
    | cons kv kvs => rw [fuelNeed]; omega
  | nullV => simp [fuelNeed]
  | boolV b => simp [fuelNeed]
  | numV q => simp [fuelNeed]
  | strV s => simp [fuelNeed]

theorem fuelNeedElems_cons (v : JsVal) (vs : List JsVal) :
    fuelNeedElems (v :: vs) =
      1 + max (fuelNeed v) (if vs = [] then fuelNeed v else fuelNeedElems vs) := by
  cases vs with
  | nil => simp [fuelNeedElems]
  | cons w ws => simp [fuelNeedElems]

theorem fuelNeedFields_cons (k : String) (w : JsVal) (kvs : List (String × JsVal)) :
    fuelNeedFields ((k, w) :: kvs) =
      1 + max (fuelNeed w) (if kvs = [] then fuelNeed w else fuelNeedFields kvs) := by
  cases kvs with
  | nil => simp [fuelNeedFields]
  | cons kv kvs2 => obtain ⟨k2, w2⟩ := kv; simp [fuelNeedFields]


theorem parseVal_print_aux :
    ∀ (n : Nat) (v : JsVal), sizeOf v ≤ n → cleanValue v = true →
      ∀ (fuel : Nat) (rest : List Char), fuelNeed v ≤ fuel →
        numBoundary rest = true →
        parseVal fuel (printJson v ++ rest) = some (v, rest) := by
  intro n
  induction n with
  | zero => intro v h; exfalso; cases v <;> simp at h
  | succ n ih =>
    have helems : ∀ (vs : List JsVal), (∀ x ∈ vs, sizeOf x ≤ n) →
        cleanList vs = true →
        ∀ (v : JsVal), sizeOf v ≤ n → cleanValue v = true →
        ∀ (acc : List JsVal) (fuel : Nat) (rest : List Char),
          fuelNeedElems (v :: vs) ≤ fuel → numBoundary rest = true →
          parseArrElems fuel
            (printJson v ++ (printJsonItems vs ++ ']' :: rest)) acc =
            some (.arrV (acc.reverse ++ v :: vs), rest) := by
      intro vs
      induction vs with
      | nil =>
        intro _ _ v hsz hcl acc fuel rest hfuel hrest
        rw [fuelNeedElems] at hfuel
        cases fuel with
        | zero => exfalso; have := fuelNeed_pos v; omega
        | succ f =>
          rw [show printJsonItems [] ++ ']' :: rest = ']' :: rest from rfl]
          rw [parseArrElems]
          rw [ih v hsz hcl f (']' :: rest) (by omega) rfl]
          dsimp only
          rw [skipWs_cons_of_not_ws _ (by decide)]
          dsimp only
          rw [if_neg (by decide), if_pos rfl, List.reverse_cons]
      | cons w ws ihw =>
        intro hszs hcls v hsz hcl acc fuel rest hfuel hrest
        have hf2 : 1 + max (fuelNeed v) (fuelNeedElems (w :: ws)) ≤ fuel := by
          rw [fuelNeedElems_cons] at hfuel
          simpa using hfuel
        rw [cleanList, Bool.and_eq_true] at hcls
        cases fuel with
        | zero => omega
        | succ f =>
          rw [show printJsonItems (w :: ws) ++ ']' :: rest =
            ',' :: ((printJson w ++ printJsonItems ws) ++ ']' :: rest) from rfl,
            List.append_assoc]
          rw [parseArrElems]
          rw [ih v hsz hcl f
            (',' :: (printJson w ++ (printJsonItems ws ++ ']' :: rest)))
            (by omega) rfl]
          dsimp only
          rw [skipWs_cons_of_not_ws _ (by decide)]
          dsimp only
          rw [if_pos rfl]
          rw [ihw (fun x hx => hszs x (by simp [hx])) hcls.2 w
            (hszs w (by simp)) hcls.1 (v :: acc) f rest (by omega) hrest]
          rw [List.reverse_cons, List.append_assoc]
          rfl
    have hfieldsAux : ∀ (kvs : List (String × JsVal)),
        (∀ p ∈ kvs, sizeOf p.2 ≤ n) → cleanFields kvs = true →
        ∀ (k : String) (w : JsVal), sizeOf w ≤ n →
          cleanStr k = true → cleanValue w = true →
        ∀ (acc : List (String × JsVal)) (fuel : Nat) (rest : List Char),
          keysDistinct (k :: kvs.map Prod.fst) = true →
          (∀ p ∈ acc, (k :: kvs.map Prod.fst).contains p.1 = false) →
          fuelNeedFields ((k, w) :: kvs) ≤ fuel → numBoundary rest = true →
          parseObjFields fuel
            ('"' :: (k.data ++ '"' :: ':' ::
              (printJson w ++ (printJsonFields kvs ++ braceClose :: rest)))) acc =
            some (.objV (acc.reverse ++ (k, w) :: kvs), rest) := by
      intro kvs
      induction kvs with
      | nil =>
        intro _ _ k w hsz hck hcw acc fuel rest hdist hacc hfuel hrest
        rw [fuelNeedFields] at hfuel
        cases fuel with
        | zero => exfalso; have := fuelNeed_pos w; omega
        | succ f =>
          rw [parseObjFields]
          dsimp only
          rw [skipWs_cons_of_not_ws _ (by decide)]
          dsimp only
          rw [if_pos rfl]
          rw [show printJsonFields [] ++ braceClose :: rest =
            braceClose :: rest from rfl]
          rw [parseStringBody_clean k.data (':' :: (printJson w ++ braceClose :: rest)) hck]
          dsimp only
          rw [skipWs_cons_of_not_ws _ (by decide)]
          dsimp only
          rw [if_pos rfl]
          rw [ih w hsz hcw f (braceClose :: rest) (by omega) rfl]
          dsimp only
          have hany : acc.any (fun p => p.1 = String.mk k.data) = false := by
            rw [List.any_eq_false]
            intro p hp
            have h1 := hacc p hp
            rw [List.contains_cons] at h1
            simp only [Bool.or_eq_false_iff, beq_eq_false_iff_ne, ne_eq] at h1
            simpa using h1.1
          rw [upsertRev, if_neg (by rw [hany]; simp)]
          rw [skipWs_cons_of_not_ws _ (by decide)]
          dsimp only
          rw [if_neg (by decide), if_pos rfl, List.reverse_cons]
      | cons kv2 kvs2 ihk =>
        obtain ⟨k2, w2⟩ := kv2
        intro hszs hcls k w hsz hck hcw acc fuel rest hdist hacc hfuel hrest
        have hf2 : 1 + max (fuelNeed w) (fuelNeedFields ((k2, w2) :: kvs2)) ≤ fuel := by
          rw [fuelNeedFields_cons] at hfuel
          simpa using hfuel
        rw [cleanFields, Bool.and_eq_true, Bool.and_eq_true] at hcls
        cases fuel with
        | zero => omega
        | succ f =>
          rw [parseObjFields]
          dsimp only
          rw [skipWs_cons_of_not_ws _ (by decide)]
          dsimp only
          rw [if_pos rfl]
          rw [show printJsonFields ((k2, w2) :: kvs2) ++ braceClose :: rest =
            ',' :: (('"' :: (k2.data ++ '"' :: ':' :: printJson w2) ++
              printJsonFields kvs2) ++ braceClose :: rest) from rfl]
          rw [parseStringBody_clean k.data _ hck]
          dsimp only
          rw [skipWs_cons_of_not_ws _ (by decide)]
          dsimp only
          rw [if_pos rfl]
          rw [ih w hsz hcw f
            (',' :: (('"' :: (k2.data ++ '"' :: ':' :: printJson w2) ++
              printJsonFields kvs2) ++ braceClose :: rest))
            (by omega) rfl]
          dsimp only
          have hany : acc.any (fun p => p.1 = String.mk k.data) = false := by
            rw [List.any_eq_false]
            intro p hp
            have h1 := hacc p hp
            rw [List.contains_cons] at h1
            simp only [Bool.or_eq_false_iff, beq_eq_false_iff_ne, ne_eq] at h1
            simpa using h1.1
          rw [upsertRev, if_neg (by rw [hany]; simp)]
          rw [skipWs_cons_of_not_ws _ (by decide)]
          dsimp only
          rw [if_pos rfl]
          rw [show ('"' :: (k2.data ++ '"' :: ':' :: printJson w2) ++
              printJsonFields kvs2) ++ braceClose :: rest =
            '"' :: (k2.data ++ '"' :: ':' ::
              (printJson w2 ++ (printJsonFields kvs2 ++ braceClose :: rest)))
            from by simp [List.append_assoc]]
          have hdist2 : keysDistinct (k2 :: kvs2.map Prod.fst) = true := by
            rw [show (k :: ((k2, w2) :: kvs2).map Prod.fst) =
              k :: k2 :: kvs2.map Prod.fst from rfl, keysDistinct,
              Bool.and_eq_true] at hdist
            exact hdist.2
          have hacc2 : ∀ p ∈ (String.mk k.data, w) :: acc,
              (k2 :: kvs2.map Prod.fst).contains p.1 = false := by
            intro p hp
            rcases List.mem_cons.mp hp with hp1 | hp1
            · subst hp1
              rw [show (k :: ((k2, w2) :: kvs2).map Prod.fst) =
                k :: k2 :: kvs2.map Prod.fst from rfl, keysDistinct,
                Bool.and_eq_true] at hdist
              have h3 := hdist.1
              rw [Bool.not_eq_true'] at h3
              simpa using h3
            · have h1 := hacc p hp1
              rw [show (k :: ((k2, w2) :: kvs2).map Prod.fst) =
                k :: k2 :: kvs2.map Prod.fst from rfl] at h1
              rw [List.contains_cons] at h1
              simp only [Bool.or_eq_false_iff] at h1
              exact h1.2
          rw [ihk (fun p hp => hszs p (by simp [hp])) hcls.2 k2 w2
            (hszs (k2, w2) (by simp)) hcls.1.1 hcls.1.2
            ((String.mk k.data, w) :: acc) f rest hdist2 hacc2 (by omega) hrest]
          rw [List.reverse_cons, List.append_assoc]
          rfl
    intro v hsz hclean fuel rest hfuel hrest
    cases v with
    | nullV =>
      cases fuel with
      | zero => exfalso; have := fuelNeed_pos .nullV; omega
      | succ f =>
        show parseVal (f + 1) (['n', 'u', 'l', 'l'] ++ rest) = some (.nullV, rest)
        rfl
    | boolV b =>
      cases fuel with
      | zero => exfalso; have := fuelNeed_pos (.boolV b); omega
      | succ f =>
        cases b with
        | true =>
          show parseVal (f + 1) (['t', 'r', 'u', 'e'] ++ rest) =
            some (.boolV true, rest)
          rfl
        | false =>
          show parseVal (f + 1) (['f', 'a', 'l', 's', 'e'] ++ rest) =
            some (.boolV false, rest)
          rfl
    | numV q =>
      have hq : q.den = 1 := by
        rw [cleanValue, decide_eq_true_eq] at hclean
        exact hclean
      cases fuel with
      | zero => exfalso; have := fuelNeed_pos (.numV q); omega
      | succ f =>
        rw [show printJson (.numV q) = printNum q from rfl, printNum]
        by_cases hneg : q.num < 0
        · rw [if_pos hneg, List.cons_append, parseVal,
            skipWs_cons_of_not_ws _ (by decide)]
          dsimp only
          rw [if_neg (by decide), if_neg (by decide), if_neg (by decide),
            if_neg (by decide), if_neg (by decide), if_neg (by decide)]
          rw [show '-' :: (printNat q.num.natAbs ++ rest) = printNum q ++ rest from by
            rw [printNum, if_pos hneg, List.cons_append]]
          rw [parseNumberCore_print q hq rest hrest]
          rfl
        · rw [if_neg hneg]
          obtain ⟨hne, hdig, -, -⟩ := printNat_spec q.num.natAbs
          cases hp : printNat q.num.natAbs with
          | nil => exact absurd hp hne
          | cons c0 cs0 =>
            have hc0 : isDigitCh c0 = true := by
              rw [hp, List.all_cons, Bool.and_eq_true] at hdig
              exact hdig.1
            obtain ⟨hws, -, -, hn, ht, hf, hqu, hbr, hbo⟩ := isDigitCh_facts hc0
            rw [List.cons_append, parseVal, skipWs_cons_of_not_ws _ hws]
            dsimp only
            rw [if_neg hn, if_neg ht, if_neg hf, if_neg hqu, if_neg hbr, if_neg hbo]
            rw [show c0 :: (cs0 ++ rest) = (c0 :: cs0) ++ rest from by
              rw [List.cons_append]]
            rw [← hp]
            rw [show printNat q.num.natAbs ++ rest = printNum q ++ rest from by
              rw [printNum, if_neg hneg]]
            rw [parseNumberCore_print q hq rest hrest]
            rfl
    | strV s =>
      have hcs : s.data.all cleanChar = true := by
        rw [cleanValue] at hclean
        exact hclean
      cases fuel with
      | zero => exfalso; have := fuelNeed_pos (.strV s); omega
      | succ f =>
        rw [show printJson (.strV s) ++ rest = '"' :: (s.data ++ '"' :: rest) from by
          rw [show printJson (.strV s) = '"' :: (s.data ++ ['"']) from rfl]
          simp [List.append_assoc]]
        rw [parseVal, skipWs_cons_of_not_ws _ (by decide)]
        dsimp only
        rw [if_neg (by decide), if_neg (by decide), if_neg (by decide), if_pos rfl]
        rw [parseStringBody_clean s.data rest hcs]
        rfl
    | arrV l =>
      cases l with
      | nil =>
        have hf2 : 2 ≤ fuel := by rw [fuelNeed] at hfuel; omega
        cases fuel with
        | zero => omega
        | succ f =>
          cases f with
          | zero => omega
          | succ f2 =>
            show parseVal (f2 + 1 + 1) (['[', ']'] ++ rest) = some (.arrV [], rest)
            rfl
      | cons v vs =>
        have hsz2 : sizeOf v ≤ n ∧ ∀ x ∈ vs, sizeOf x ≤ n := by
          have h2 : sizeOf (JsVal.arrV (v :: vs)) = 1 + (1 + sizeOf v + sizeOf vs) := by
            simp
          constructor
          · omega
          · intro x hx
            have h1 : sizeOf x < sizeOf vs := List.sizeOf_lt_of_mem hx
            omega
        have hcl2 : cleanValue v = true ∧ cleanList vs = true := by
          rw [cleanValue, cleanList, Bool.and_eq_true] at hclean
          exact hclean
        have hf2 : 2 + fuelNeedElems (v :: vs) ≤ fuel := by
          rw [fuelNeed] at hfuel
          omega
        have hfe1 : 1 ≤ fuelNeedElems (v :: vs) := by
          rw [fuelNeedElems_cons]
          omega
        cases fuel with
        | zero => omega
        | succ f =>
          cases f with
          | zero => omega
          | succ f2 =>
            rw [show printJson (.arrV (v :: vs)) ++ rest =
              '[' :: (printJson v ++ (printJsonItems vs ++ ']' :: rest)) from by
              rw [show printJson (.arrV (v :: vs)) =
                '[' :: (printJson v ++ (printJsonItems vs ++ [']'])) from rfl]
              simp [List.append_assoc]]
            rw [parseVal, skipWs_cons_of_not_ws _ (by decide)]
            dsimp only
            rw [if_neg (by decide), if_neg (by decide), if_neg (by decide),
              if_neg (by decide), if_pos rfl]
            rw [parseArrTail]
            obtain ⟨c0, l0, hv0, hws0, hrb0, -⟩ := printJson_head v
            rw [show printJson v ++ (printJsonItems vs ++ ']' :: rest) =
              c0 :: (l0 ++ (printJsonItems vs ++ ']' :: rest)) from by
              rw [hv0, List.cons_append]]
            rw [skipWs_cons_of_not_ws _ hws0]
            dsimp only
            rw [if_neg hrb0]
            rw [show c0 :: (l0 ++ (printJsonItems vs ++ ']' :: rest)) =
              printJson v ++ (printJsonItems vs ++ ']' :: rest) from by
              rw [hv0, List.cons_append]]
            rw [helems vs hsz2.2 hcl2.2 v hsz2.1 hcl2.1 [] f2 rest (by omega) hrest]
            rfl
    | objV fs =>
      cases fs with
      | nil =>
        have hf2 : 2 ≤ fuel := by rw [fuelNeed] at hfuel; omega
        cases fuel with
        | zero => omega
        | succ f =>
          cases f with
          | zero => omega
          | succ f2 =>
            show parseVal (f2 + 1 + 1) ([braceOpen, braceClose] ++ rest) =
              some (.objV [], rest)
            rfl
      | cons kv kvs =>
        obtain ⟨k, w⟩ := kv
        have hsz2 : sizeOf w ≤ n ∧ ∀ p ∈ kvs, sizeOf p.2 ≤ n := by
          have h2 : sizeOf (JsVal.objV ((k, w) :: kvs)) =
              1 + (1 + (1 + sizeOf k + sizeOf w) + sizeOf kvs) := by
            simp
          constructor
          · omega
          · intro p hp
            have h1 : sizeOf p < sizeOf kvs := List.sizeOf_lt_of_mem hp
            have h3 : sizeOf p.2 < sizeOf p := by
              obtain ⟨a, b⟩ := p
              simp
            omega
        have hcl2 : keysDistinct (k :: kvs.map Prod.fst) = true ∧
            cleanStr k = true ∧ cleanValue w = true ∧ cleanFields kvs = true := by
          rw [cleanValue, Bool.and_eq_true] at hclean
          obtain ⟨hd, hf⟩ := hclean
          rw [cleanFields, Bool.and_eq_true, Bool.and_eq_true] at hf
          exact ⟨hd, hf.1.1, hf.1.2, hf.2⟩
        have hf2 : 2 + fuelNeedFields ((k, w) :: kvs) ≤ fuel := by
          rw [fuelNeed] at hfuel
          omega
        have hfe1 : 1 ≤ fuelNeedFields ((k, w) :: kvs) := by
          rw [fuelNeedFields_cons]
          omega
        cases fuel with
        | zero => omega
        | succ f =>
          cases f with
          | zero => omega
          | succ f2 =>
            rw [show printJson (.objV ((k, w) :: kvs)) ++ rest =
              braceOpen :: ('"' :: (k.data ++ '"' :: ':' ::
                (printJson w ++ (printJsonFields kvs ++ braceClose :: rest))))
              from by
              rw [show printJson (.objV ((k, w) :: kvs)) =
                braceOpen :: ('"' :: (k.data ++ '"' :: ':' :: printJson w) ++
                  (printJsonFields kvs ++ [braceClose])) from rfl]
              simp [List.append_assoc]]
            rw [parseVal, skipWs_cons_of_not_ws _ (by decide)]
            dsimp only
            rw [if_neg (by decide), if_neg (by decide), if_neg (by decide),
              if_neg (by decide), if_neg (by decide), if_pos rfl]
            rw [parseObjTail]
            rw [skipWs_cons_of_not_ws _ (by decide)]
            dsimp only
            rw [if_neg (by decide)]
            rw [hfieldsAux kvs hsz2.2 hcl2.2.2.2 k w hsz2.1 hcl2.2.1 hcl2.2.2.1
              [] f2 rest hcl2.1 (by intro p hp; cases hp) (by omega) hrest]
            rfl


theorem printJson_length_pos (v : JsVal) : 1 ≤ (printJson v).length := by
  obtain ⟨c, l, hv, -⟩ := printJson_head v
  rw [hv]
  simp

theorem fuelNeed_le :
    ∀ (n : Nat) (v : JsVal), sizeOf v ≤ n →
      fuelNeed v ≤ 2 * (printJson v).length := by
  intro n
  induction n with
  | zero => intro v h; exfalso; cases v <;> simp at h
  | succ n ih =>
    have hEL : ∀ (vs : List JsVal), (∀ x ∈ vs, sizeOf x ≤ n) →
        ∀ (v : JsVal), sizeOf v ≤ n →
        fuelNeedElems (v :: vs) ≤
          1 + 2 * (printJson v).length + 2 * (printJsonItems vs).length := by
      intro vs
      induction vs with
      | nil =>
        intro _ v hv
        rw [fuelNeedElems]
        have := ih v hv
        simp only [printJsonItems, List.length_nil]
        omega
      | cons w ws ihw =>
        intro hsz v hv
        have h1 := ihw (fun x hx => hsz x (by simp [hx])) w (hsz w (by simp))
        have h2 := ih v hv
        rw [fuelNeedElems_cons]
        rw [show printJsonItems (w :: ws) =
          ',' :: (printJson w ++ printJsonItems ws) from rfl]
        simp only [List.length_cons, List.length_append, if_neg (by simp : ¬(w :: ws) = [])]
        omega
    have hFL : ∀ (kvs : List (String × JsVal)), (∀ p ∈ kvs, sizeOf p.2 ≤ n) →
        ∀ (k : String) (w : JsVal), sizeOf w ≤ n →
        fuelNeedFields ((k, w) :: kvs) ≤
          1 + 2 * (printJson w).length + 2 * (printJsonFields kvs).length := by
      intro kvs
      induction kvs with
      | nil =>
        intro _ k w hw
        rw [fuelNeedFields]
        have := ih w hw
        simp only [printJsonFields, List.length_nil]
        omega
      | cons kv2 kvs2 ihk =>
        obtain ⟨k2, w2⟩ := kv2
        intro hsz k w hw
        have h1 := ihk (fun p hp => hsz p (by simp [hp])) k2 w2 (hsz (k2, w2) (by simp))
        have h2 := ih w hw
        rw [fuelNeedFields_cons]
        rw [show printJsonFields ((k2, w2) :: kvs2) =
          ',' :: ('"' :: (k2.data ++ '"' :: ':' :: printJson w2) ++
            printJsonFields kvs2) from rfl]
        simp only [List.length_cons, List.length_append,
          if_neg (by simp : ¬((k2, w2) :: kvs2) = [])]
        omega
    intro v hsz
    cases v with
    | nullV => rw [show fuelNeed .nullV = 1 from rfl]; decide
    | boolV b =>
      rw [show fuelNeed (.boolV b) = 1 from rfl]
      have := printJson_length_pos (.boolV b)
      omega
    | numV q =>
      rw [show fuelNeed (.numV q) = 1 from rfl]
      have := printJson_length_pos (.numV q)
      omega
    | strV s =>
      rw [show fuelNeed (.strV s) = 1 from rfl]
      have := printJson_length_pos (.strV s)
      omega
    | arrV l =>
      cases l with
      | nil => rw [fuelNeed]; decide
      | cons v vs =>
        have hsz2 : (∀ x ∈ vs, sizeOf x ≤ n) ∧ sizeOf v ≤ n := by
          have h2 : sizeOf (JsVal.arrV (v :: vs)) = 1 + (1 + sizeOf v + sizeOf vs) := by
            simp
          constructor
          · intro x hx
            have h1 : sizeOf x < sizeOf vs := List.sizeOf_lt_of_mem hx
            omega
          · omega
        have h1 := hEL vs hsz2.1 v hsz2.2
        rw [fuelNeed]
        rw [show printJson (.arrV (v :: vs)) =
          '[' :: (printJson v ++ (printJsonItems vs ++ [']'])) from rfl]
        simp only [List.length_cons, List.length_append]
        omega
    | objV fs =>
      cases fs with
      | nil => rw [fuelNeed]; decide
      | cons kv kvs =>
        obtain ⟨k, w⟩ := kv
        have hsz2 : (∀ p ∈ kvs, sizeOf p.2 ≤ n) ∧ sizeOf w ≤ n := by
          have h2 : sizeOf (JsVal.objV ((k, w) :: kvs)) =
              1 + (1 + (1 + sizeOf k + sizeOf w) + sizeOf kvs) := by
            simp
          constructor
          · intro p hp
            have h1 : sizeOf p < sizeOf kvs := List.sizeOf_lt_of_mem hp
            have h3 : sizeOf p.2 < sizeOf p := by
              obtain ⟨a, b⟩ := p
              simp
            omega
          · omega
        have h1 := hFL kvs hsz2.1 k w hsz2.2
        rw [fuelNeed]
        rw [show printJson (.objV ((k, w) :: kvs)) =
          braceOpen :: ('"' :: (k.data ++ '"' :: ':' :: printJson w) ++
            (printJsonFields kvs ++ [braceClose])) from rfl]
        simp only [List.length_cons, List.length_append]
        omega

theorem jsonParse_print (v : JsVal) (hv : cleanValue v = true) :
    jsonParse (printJson v) = some v := by
  rw [jsonParse]
  have hfuel : fuelNeed v ≤ 2 * (printJson v).length + 8 := by
    have := fuelNeed_le (sizeOf v) v (le_refl _)
    omega
  have h1 := parseVal_print_aux (sizeOf v) v (le_refl _) hv
    (2 * (printJson v).length + 8) [] hfuel rfl
  rw [List.append_nil] at h1
  rw [h1]
  rfl

theorem truthyParse_print (fs : List (String × JsVal))
    (hv : cleanValue (.objV fs) = true) :
    truthyParse (printJson (.objV fs)) = some (.objV fs) := by
  rw [truthyParse, jsonParse_print _ hv]
  rfl

theorem findIdxq_append_first {p : Char → Bool} {c : Char} (hc : p c = true) :
    ∀ (xs l : List Char) (i : Nat), (∀ x ∈ xs, p x = false) →
      List.findIdx? p (xs ++ c :: l) i = some (i + xs.length) := by
  intro xs
  induction xs with
  | nil =>
    intro l i _
    rw [List.nil_append, List.findIdx?_cons, if_pos hc]
    simp
  | cons x xs ih =>
    intro l i hall
    rw [List.cons_append, List.findIdx?_cons,
      if_neg (by rw [hall x (by simp)]; simp)]
    rw [ih l (i + 1) (fun z hz => hall z (by simp [hz]))]
    simp only [List.length_cons]
    congr 1
    omega

theorem indexOfq_append_first {c : Char} :
    ∀ (xs l : List Char), (∀ x ∈ xs, ¬x = c) →
      (xs ++ c :: l).indexOf? c = some xs.length := by
  intro xs l hall
  rw [show (xs ++ c :: l).indexOf? c = List.findIdx? (fun x => x == c) (xs ++ c :: l) 0
    from rfl]
  rw [findIdxq_append_first (by simp) xs l 0
    (fun x hx => by rw [beq_eq_false_iff_ne]; exact hall x hx)]
  simp

theorem printJson_obj_shape (fs : List (String × JsVal)) :
    ∃ mid, printJson (.objV fs) = braceOpen :: (mid ++ [braceClose]) := by
  cases fs with
  | nil => exact ⟨[], rfl⟩
  | cons kv kvs =>
    obtain ⟨k, w⟩ := kv
    refine ⟨'"' :: (k.data ++ '"' :: ':' :: printJson w) ++ printJsonFields kvs,
      ?_⟩
    rw [show printJson (.objV ((k, w) :: kvs)) =
      braceOpen :: ('"' :: (k.data ++ '"' :: ':' :: printJson w) ++
        (printJsonFields kvs ++ [braceClose])) from rfl]
    rw [List.append_assoc]

theorem braceSpan_wrapped (fs : List (String × JsVal)) (p₁ p₂ : List Char)
    (hp1 : ∀ c ∈ p₁, ¬c = braceOpen) (hp2 : ∀ c ∈ p₂, ¬c = braceClose) :
    braceSpan (p₁ ++ (printJson (.objV fs) ++ p₂)) =
      some (printJson (.objV fs)) := by
  obtain ⟨mid, hshape⟩ := printJson_obj_shape fs
  have hlen : (printJson (.objV fs)).length = mid.length + 2 := by
    rw [hshape]
    simp
  have hfirst : firstIdxOf braceOpen (p₁ ++ (printJson (.objV fs) ++ p₂)) =
      some p₁.length := by
    rw [firstIdxOf, hshape, List.cons_append]
    exact indexOfq_append_first p₁ _ hp1
  have hsplit : p₁ ++ (printJson (.objV fs) ++ p₂) =
      (p₁ ++ braceOpen :: mid) ++ braceClose :: p₂ := by
    rw [hshape]
    simp [List.append_assoc]
  have hlast : lastIdxOf braceClose (p₁ ++ (printJson (.objV fs) ++ p₂)) =
      some (p₁.length + mid.length + 1) := by
    rw [lastIdxOf, hsplit, List.reverse_append, List.reverse_cons]
    rw [show p₂.reverse ++ [braceClose] ++ (p₁ ++ braceOpen :: mid).reverse =
      p₂.reverse ++ braceClose :: (p₁ ++ braceOpen :: mid).reverse from by simp]
    rw [indexOfq_append_first p₂.reverse _
      (fun c hc => hp2 c (List.mem_reverse.mp hc))]
    simp only [Option.map, List.length_reverse, List.length_append,
      List.length_cons]
    congr 1
    omega
  rw [braceSpan, hfirst, hlast]
  dsimp only
  rw [if_pos (by omega)]
  have hdrop : (p₁ ++ (printJson (.objV fs) ++ p₂)).drop p₁.length =
      printJson (.objV fs) ++ p₂ := List.drop_left _ _
  rw [hdrop]
  rw [show p₁.length + mid.length + 1 + 1 - p₁.length =
    (printJson (.objV fs)).length from by omega]
  rw [List.take_left]

theorem strategy1_wrapped (fs : List (String × JsVal)) (p₁ p₂ : List Char)
    (hv : cleanValue (.objV fs) = true)
    (hp1 : ∀ c ∈ p₁, ¬c = braceOpen) (hp2 : ∀ c ∈ p₂, ¬c = braceClose) :
    strategy1 (p₁ ++ (printJson (.objV fs) ++ p₂)) = some (.objV fs) := by
  rw [strategy1, braceSpan_wrapped fs p₁ p₂ hp1 hp2]
  show truthyParse (printJson (.objV fs)) = some (.objV fs)
  exact truthyParse_print fs hv

/-- The message of the C7 counterexample: four sibling empty objects at
nesting depth 2. -/
def msgDepthC7 : JsVal :=
  .objV [("a", .objV []), ("b", .objV []), ("c", .objV []), ("d", .objV [])]

/-- The envelope carrying `msgDepthC7` (no string content anywhere, so
`normalizeContent` reaches the message-dump branch). -/
def payloadDepthC7 : JsVal :=
  .objV [("choices", .arrV [.objV [("message", msgDepthC7)]])]

theorem truncateLongString_length (s : String) :
    (truncateLongString s).length ≤ 1014 := by
  unfold truncateLongString
  split
  · have h1 : (String.mk (s.data.take 1000) ++ "...[Truncated]").length =
        (s.data.take 1000).length + 14 := by
      rw [show (String.mk (s.data.take 1000) ++ "...[Truncated]").length =
        (s.data.take 1000 ++ ("...[Truncated]").data).length from rfl,
        List.length_append]
      rfl
    rw [h1, List.length_take]
    omega
  · rename_i h
    omega

theorem dumpBoundedList_append (xs ys : List JsVal) :
    dumpBoundedList (xs ++ ys) = (dumpBoundedList xs && dumpBoundedList ys) := by
  induction xs with
  | nil => simp [dumpBoundedList]
  | cons x xs ih => simp [dumpBoundedList, ih, Bool.and_assoc]

theorem replacerVisitListTake_length (m : Nat) :
    ∀ (k : Nat) (xs : List JsVal) (depth : Nat),
      ((replacerVisitListTake m k xs depth).1).length = min k xs.length := by
  intro k xs
  induction xs generalizing k with
  | nil => intro depth; cases k <;> simp [replacerVisitListTake]
  | cons x xs ih =>
    intro depth
    cases k with
    | zero => simp [replacerVisitListTake]
    | succ k =>
      rw [replacerVisitListTake]
      dsimp only
      simp only [List.length_cons, ih]
      omega

theorem replacerVisit_bounded_aux :
    ∀ (n : Nat) (v : JsVal) (depth : Nat), sizeOf v ≤ n →
      dumpBounded ((replacerVisit 3 v depth).1) = true := by
  intro n
  induction n with
  | zero => intro v depth h; exfalso; cases v <;> simp at h
  | succ n ih =>
    have hlist : ∀ (xs : List JsVal) (depth : Nat), (∀ x ∈ xs, sizeOf x ≤ n) →
        dumpBoundedList ((replacerVisitList 3 xs depth).1) = true := by
      intro xs
      induction xs with
      | nil => intro depth _; simp [replacerVisitList, dumpBoundedList]
      | cons x xs ihx =>
        intro depth hsz
        rw [replacerVisitList]
        dsimp only
        rw [dumpBoundedList, Bool.and_eq_true]
        exact ⟨ih x depth (hsz x (by simp)),
          ihx _ (fun z hz => hsz z (by simp [hz]))⟩
    have htake : ∀ (xs : List JsVal) (k depth : Nat),
        (∀ x ∈ xs, sizeOf x ≤ n) →
        dumpBoundedList ((replacerVisitListTake 3 k xs depth).1) = true := by
      intro xs
      induction xs with
      | nil => intro k depth _; cases k <;> simp [replacerVisitListTake, dumpBoundedList]
      | cons x xs ihx =>
        intro k depth hsz
        cases k with
        | zero => simp [replacerVisitListTake, dumpBoundedList]
        | succ k =>
          rw [replacerVisitListTake]
          dsimp only
          rw [dumpBoundedList, Bool.and_eq_true]
          exact ⟨ih x depth (hsz x (by simp)),
            ihx k _ (fun z hz => hsz z (by simp [hz]))⟩
    have hfields : ∀ (kvs : List (String × JsVal)) (depth : Nat),
        (∀ p ∈ kvs, sizeOf p.2 ≤ n) →
        dumpBoundedFields ((replacerVisitFields 3 kvs depth).1) = true := by
      intro kvs
      induction kvs with
      | nil => intro depth _; simp [replacerVisitFields, dumpBoundedFields]
      | cons kv kvs ihx =>
        obtain ⟨k, v⟩ := kv
        intro depth hsz
        rw [replacerVisitFields]
        dsimp only
        rw [dumpBoundedFields, Bool.and_eq_true]
        exact ⟨ih v depth (hsz (k, v) (by simp)),
          ihx _ (fun z hz => hsz z (by simp [hz]))⟩
    intro v depth h
    have hmarker : dumpBounded (.strV maxDepthMarker) = true := by decide
    by_cases hd : 3 < depth
    · cases v
      all_goals rw [replacerVisit]
      all_goals try exact fun x hx => JsVal.noConfusion hx
      all_goals rw [if_pos hd]
      all_goals exact hmarker
    · cases v with
      | nullV =>
        rw [replacerVisit]
        · rw [if_neg hd]
          exact (by decide : dumpBounded .nullV = true)
        all_goals exact fun x hx => JsVal.noConfusion hx
      | boolV b =>
        rw [replacerVisit]
        · rw [if_neg hd]
          show dumpBounded (.boolV b) = true
          cases b <;> decide
        all_goals exact fun x hx => JsVal.noConfusion hx
      | numV q =>
        rw [replacerVisit]
        · rw [if_neg hd]
          rfl
        all_goals exact fun x hx => JsVal.noConfusion hx
      | strV s =>
        rw [replacerVisit, if_neg hd]
        show dumpBounded (.strV (truncateLongString s)) = true
        rw [dumpBounded, decide_eq_true_eq]
        exact truncateLongString_length s
      | arrV elems =>
        have hsz : ∀ x ∈ elems, sizeOf x ≤ n := by
          intro x hx
          have h1 : sizeOf x < sizeOf elems := List.sizeOf_lt_of_mem hx
          have h2 : sizeOf (JsVal.arrV elems) = 1 + sizeOf elems := by simp
          omega
        rw [replacerVisit, if_neg hd]
        by_cases hlen : 100 < elems.length
        · rw [if_pos hlen]
          dsimp only
          rw [dumpBounded, Bool.and_eq_true]
          constructor
          · rw [decide_eq_true_eq, List.length_append,
              replacerVisitListTake_length]
            simp only [List.length_cons, List.length_nil]
            omega
          · rw [dumpBoundedList_append, Bool.and_eq_true]
            refine ⟨htake elems 100 (depth + 1) hsz, ?_⟩
            by_cases hd2 : 3 < (replacerVisitListTake 3 100 elems (depth + 1)).2
            · rw [if_pos hd2]
              decide
            · rw [if_neg hd2]
              decide
        · rw [if_neg hlen]
          dsimp only
          rw [dumpBounded, Bool.and_eq_true]
          constructor
          · rw [decide_eq_true_eq]
            have h1 : ∀ (l : List JsVal) (d : Nat),
                ((replacerVisitList 3 l d).1).length = l.length := by
              intro l
              induction l with
              | nil => intro d; simp [replacerVisitList]
              | cons a l ihl =>
                intro d
                rw [replacerVisitList]
                dsimp only
                simp only [List.length_cons, ihl]
            rw [h1]
            omega
          · exact hlist elems (depth + 1) hsz
      | objV fields =>
        have hsz : ∀ p ∈ fields, sizeOf p.2 ≤ n := by
          intro p hp
          have h1 : sizeOf p < sizeOf fields := List.sizeOf_lt_of_mem hp
          have h2 : sizeOf (JsVal.objV fields) = 1 + sizeOf fields := by simp
          have h3 : sizeOf p.2 < sizeOf p := by
            obtain ⟨k, v⟩ := p
            simp
          omega
        rw [replacerVisit, if_neg hd]
        show dumpBoundedFields ((replacerVisitFields 3 fields (depth + 1)).1) = true
        exact hfields fields (depth + 1) hsz

theorem replacerVisit_bounded (v : JsVal) (depth : Nat) :
    dumpBounded ((replacerVisit 3 v depth).1) = true :=
  replacerVisit_bounded_aux (sizeOf v) v depth (le_refl _)

/-- Counterexample to C7: the safe dump does not cap NESTING depth at 3.
The depth counter counts every object or array visited, in depth-first
order, and is never decremented, so in a message of nesting depth 2 the
fourth sibling field already collapses to the depth marker. -/
theorem safeStringify_depth_is_visit_count :
    treeDepth msgDepthC7 = 2 ∧
    (replacerVisit 3 msgDepthC7 0).1 =
      .objV [("a", .objV []), ("b", .objV []), ("c", .objV []),
        ("d", .strV maxDepthMarker)] ∧
    normalizeContent payloadDepthC7 = safeStringify msgDepthC7 :=
  ⟨rfl, rfl, rfl⟩

/-- C7 (amended): `normalizeContent` is total and tries, in priority
order, the message string content (returned verbatim when its trim is
nonempty), the choice-level string content, the joined array-of-parts
content, a safe dump of a message with at least one key, and finally a
safe dump of the whole payload; the replacer pass of the dump leaves
every string at most 1014 characters and every array at most 101
elements, but its depth counter counts visited object nodes rather than
nesting depth. -/
theorem normalizeContent_priority_and_bounds (payload : JsVal) :
    (∀ s, nonEmptyStr (strContentOf (messageOf payload)) = some s →
      normalizeContent payload = s) ∧
    (∀ t, nonEmptyStr (strContentOf (messageOf payload)) = none →
      nonEmptyStr (strContentOf (choice0 payload)) = some t →
      normalizeContent payload = t) ∧
    (∀ j, nonEmptyStr (strContentOf (messageOf payload)) = none →
      nonEmptyStr (strContentOf (choice0 payload)) = none →
      nonEmptyStr (arrayContentJoined (messageOf payload)) = some j →
      normalizeContent payload = j) ∧
    (nonEmptyStr (strContentOf (messageOf payload)) = none →
      nonEmptyStr (strContentOf (choice0 payload)) = none →
      nonEmptyStr (arrayContentJoined (messageOf payload)) = none →
      (jsTruthy (messageOf payload) &&
        decide (0 < objKeysLength (messageOf payload))) = true →
      normalizeContent payload = safeStringify (messageOf payload)) ∧
    (nonEmptyStr (strContentOf (messageOf payload)) = none →
      nonEmptyStr (strContentOf (choice0 payload)) = none →
      nonEmptyStr (arrayContentJoined (messageOf payload)) = none →
      (jsTruthy (messageOf payload) &&
        decide (0 < objKeysLength (messageOf payload))) = false →
      normalizeContent payload = safeStringify payload) ∧
    dumpBounded ((replacerVisit 3 payload 0).1) = true ∧
    dumpBounded ((replacerVisit 3 (messageOf payload) 0).1) = true := by
  refine ⟨?_, ?_, ?_, ?_, ?_, replacerVisit_bounded payload 0,
    replacerVisit_bounded (messageOf payload) 0⟩
  · intro s h1
    simp only [normalizeContent, h1]
  · intro t h1 h2
    simp only [normalizeContent, h1, h2]
  · intro j h1 h2 h3
    simp only [normalizeContent, h1, h2, h3]
  · intro h1 h2 h3 h4
    simp only [normalizeContent, h1, h2, h3]
    rw [if_pos h4]
  · intro h1 h2 h3 h4
    simp only [normalizeContent, h1, h2, h3]
    rw [if_neg (by rw [h4]; simp)]

/-- A payload whose message carries plain nonempty string content. -/
def payloadContentW : JsVal :=
  .objV [("choices", .arrV [.objV [("message",
    .objV [("content", .strV "hello")])]])]

/-- Witness for the amended C7: the string-content branch returns the
content verbatim, and an empty payload falls through to the full dump. -/
theorem normalizeContent_priority_and_bounds_witness :
    normalizeContent payloadContentW = "hello" ∧
    normalizeContent (.objV []) = safeStringify (.objV []) := by
  constructor
  · exact (normalizeContent_priority_and_bounds payloadContentW).1 "hello" rfl
  · exact (normalizeContent_priority_and_bounds
      (.objV [])).2.2.2.2.1 rfl rfl rfl rfl

/-- A 300001-character text with no newline and no sentence punctuation:
one paragraph that is also one sentence. -/
def oversizedNoBreakText : String := String.mk (List.replicate 300001 'a')

/-- Counterexample to C4: under the 100000-character budget the splitter
does not return the input unchanged (a leading space is trimmed away), and
an over-budget text without blank lines or sentence punctuation comes back
as a single chunk that still exceeds the budget. -/
theorem splitTextIntoChunks_claim_fails :
    ((" a" : String).length ≤ 100000 ∧ splitTextIntoChunks " a" 25000 ≠ [" a"]) ∧
    (100000 < oversizedNoBreakText.length ∧
      splitTextIntoChunks oversizedNoBreakText 25000 = [oversizedNoBreakText]) := by
  constructor
  · refine ⟨by decide, ?_⟩
    have h1 : splitBlank (" a").data = [[' ', 'a']] := by
      rw [splitBlank, splitBlankAux_no_newline _ _ (by decide)]
      rfl
    have h2 : splitTextIntoChunks " a" 25000 = ["a"] := by
      unfold splitTextIntoChunks
      dsimp only
      rw [h1]
      rfl
    rw [h2]
    decide
  · have hdata : oversizedNoBreakText.data = List.replicate 300001 'a' := rfl
    have hlen : oversizedNoBreakText.length = 300001 := by
      rw [show oversizedNoBreakText.length = oversizedNoBreakText.data.length from rfl,
        hdata, List.length_replicate]
    refine ⟨by omega, ?_⟩
    have hchar : ∀ c ∈ oversizedNoBreakText.data, c = 'a' := by
      rw [hdata]
      intro c hc
      exact List.eq_of_mem_replicate hc
    have hnn : ∀ c ∈ oversizedNoBreakText.data, ¬ c = '\n' := by
      intro c hc
      rw [hchar c hc]
      decide
    have hws : ∀ c ∈ oversizedNoBreakText.data, isJsWhitespace c = false := by
      intro c hc
      rw [hchar c hc]
      decide
    have hsp : ∀ c ∈ oversizedNoBreakText.data, isSentencePunct c = false := by
      intro c hc
      rw [hchar c hc]
      decide
    have hne : oversizedNoBreakText.data ≠ [] := by
      rw [hdata]
      intro h0
      have h1 := congrArg List.length h0
      rw [List.length_replicate, List.length_nil] at h1
      exact absurd h1 (by omega)
    have htriml : jsTrimList oversizedNoBreakText.data = oversizedNoBreakText.data :=
      jsTrimList_no_ws hws
    have hsb : splitBlank oversizedNoBreakText.data = [oversizedNoBreakText.data] := by
      rw [splitBlank, splitBlankAux_no_newline _ _ hnn]
      simp
    have hss : splitSentences oversizedNoBreakText.data =
        [oversizedNoBreakText.data] := by
      rw [splitSentences, splitSentencesAux_no_punct _ _ hsp]
      simp
    have hcl : chunkLoop 100000 [oversizedNoBreakText.data] [] =
        [oversizedNoBreakText.data] := by
      rw [chunkLoop, if_neg (fun hg => absurd hg.2 (by decide))]
      rw [if_neg (by decide), List.nil_append, List.nil_append]
      rw [chunkLoop, htriml, if_neg hne]
    have hsl : sentenceLoop 100000 [oversizedNoBreakText.data] [] =
        [oversizedNoBreakText.data] := by
      rw [sentenceLoop, if_neg (fun hg => absurd hg.2 (by decide))]
      rw [if_neg (by decide), List.nil_append, List.nil_append]
      rw [sentenceLoop, htriml, if_neg hne]
    have hdl : oversizedNoBreakText.data.length = 300001 := by
      rw [hdata, List.length_replicate]
    unfold splitTextIntoChunks
    dsimp only
    rw [show (25000 * 4 : Nat) = 100000 from rfl, hsb, hcl]
    simp only [List.flatMap_cons, List.flatMap_nil, List.append_nil]
    rw [if_pos (by omega), hss, hsl]
    simp only [List.map_cons, List.map_nil]

/-- C4 (amended): with the 100000-character budget, any text of length at
most the budget whose trim is nonempty yields exactly one chunk: the input
with each blank-line paragraph separator normalized to a double newline
and outer whitespace trimmed. -/
theorem splitTextIntoChunks_under_budget (text : String)
    (hlen : text.length ≤ 100000) (htrim : jsTrim text ≠ "") :
    splitTextIntoChunks text 25000 =
      [String.mk (normalizeParagraphs text.data)] := by
  obtain ⟨p, ps, hparts⟩ : ∃ p ps, splitBlank text.data = p :: ps := by
    cases hsp : splitBlank text.data with
    | nil => exact absurd hsp (splitBlankAux_ne_nil text.data [])
    | cons p ps => exact ⟨p, ps, rfl⟩
  have hsize := splitBlankAux_size text.data []
  rw [show splitBlankAux text.data [] = splitBlank text.data from rfl, hparts]
    at hsize
  have hdlen : text.data.length = text.length := rfl
  have hfj : (foldJoin [] (p :: ps)).length ≤ 100000 := by
    rw [foldJoin_nil_cons]
    have h1 := foldJoin_len_le ps p
    simp only [sumLen, List.map_cons, List.sum_cons, List.length_cons,
      List.length_nil] at hsize h1
    omega
  have hcl := chunkLoop_no_split (p :: ps) [] 100000 hfj
  have hnorm : jsTrimList (foldJoin [] (p :: ps)) =
      normalizeParagraphs text.data := by
    rw [foldJoin_trim_eq_join, normalizeParagraphs, hparts]
  have htrimne : jsTrimList text.data ≠ [] := by
    intro h0
    apply htrim
    rw [jsTrim, h0]
  have hex : ∃ c ∈ text.data, isJsWhitespace c = false := by
    by_contra hno
    push_neg at hno
    apply htrimne
    rw [jsTrimList_eq_nil_iff]
    intro c hc
    have h1 := hno c hc
    simpa using h1
  have hfilter : (joinWithSep (splitBlank text.data)).filter
      (fun c => !(isJsWhitespace c)) =
      text.data.filter (fun c => !(isJsWhitespace c)) := by
    rw [joinWithSep_filter]
    have h2 := splitBlankAux_filter text.data []
    rw [show splitBlankAux text.data [] = splitBlank text.data from rfl] at h2
    simpa using h2
  have hne2 : normalizeParagraphs text.data ≠ [] := by
    rw [normalizeParagraphs]
    intro h0
    obtain ⟨c, hc, hcf⟩ := hex
    have hall := (jsTrimList_eq_nil_iff _).mp h0
    have hcmem : c ∈ (joinWithSep (splitBlank text.data)).filter
        (fun c => !(isJsWhitespace c)) := by
      rw [hfilter]
      exact List.mem_filter.mpr ⟨hc, by rw [hcf]; rfl⟩
    have h3 := hall c (List.mem_of_mem_filter hcmem)
    rw [hcf] at h3
    cases h3
  have hne3 : jsTrimList (foldJoin [] (p :: ps)) ≠ [] := by
    rw [hnorm]
    exact hne2
  have hlen2 : ¬ (100000 < (jsTrimList (foldJoin [] (p :: ps))).length) := by
    have h4 := jsTrimList_length_le (foldJoin [] (p :: ps))
    omega
  unfold splitTextIntoChunks
  dsimp only
  rw [show (25000 * 4 : Nat) = 100000 from rfl, hparts, hcl, if_neg hne3]
  simp only [List.flatMap_cons, List.flatMap_nil, List.append_nil]
  rw [if_neg hlen2]
  simp only [List.map_cons, List.map_nil]
  rw [hnorm]

/-- Witness for the amended C4 at a concrete input: a two-paragraph text
with a whitespace-bearing blank-line separator comes back as one chunk with
the separator normalized to a plain double newline. -/
theorem splitTextIntoChunks_under_budget_witness :
    splitTextIntoChunks "a\n \nb" 25000 =
      [String.mk (normalizeParagraphs ("a\n \nb").data)] ∧
    String.mk (normalizeParagraphs ("a\n \nb").data) = "a\n\nb" := by
  constructor
  · exact splitTextIntoChunks_under_budget "a\n \nb" (by decide) (by decide)
  · have hsb : splitBlank ("a\n \nb").data = [['a'], ['b']] := by
      rw [splitBlank]
      rw [show ("a\n \nb").data = ['a', '\n', ' ', '\n', 'b'] from rfl]
      rw [splitBlankAux, if_neg (by decide)]
      rw [splitBlankAux, if_pos (by decide)]
      rw [show (blankSepExtra [' ', '\n', 'b']).getD 0 = 2 from by decide]
      rw [show (([' ', '\n', 'b'] : List Char).drop 2) = ['b'] from rfl]
      rw [splitBlankAux, if_neg (by decide)]
      rw [splitBlankAux]
      rfl
    rw [normalizeParagraphs, hsb]
    rfl

/-- Witness for C3: a lone failing chunk yields the designated error; a
failing chunk followed by a successful one yields a merged result. -/
theorem analyzeMultipleChunks_fatal_witness :
    analyzeMultipleChunksModel [.error "network down"] =
      .error noValidResultsMsg ∧
    (∃ t, analyzeMultipleChunksModel
      [.error "network down", .ok chunkResA] = .ok t) := by
  constructor
  · exact (analyzeMultipleChunks_fatal [.error "network down"]).1.mpr
      (by intro o ho; simp at ho; subst ho; rfl)
  · exact (analyzeMultipleChunks_fatal _).2.2
      ⟨.ok chunkResA, by simp, by intro h; cases h⟩

/-- C9: a strict well-formed JSON result object round-trips - the parser
applied to its serialization returns the very record (so every field value
is preserved), both bare and wrapped in prose without braces before it or
closing braces after it (strategy 1 extracts the brace span); the
transform keeps the parsed record as `rawResult`. -/
theorem analyzeSingleChunkParse_roundtrip :
    ∀ (fs : List (String × JsVal)) (useLocalModel : Bool) (p₁ p₂ : List Char),
      cleanValue (.objV fs) = true →
      (∀ c ∈ p₁, ¬c = braceOpen) → (∀ c ∈ p₂, ¬c = braceClose) →
      jsonParse (printJson (.objV fs)) = some (.objV fs) ∧
      analyzeSingleChunkParse useLocalModel (String.mk (printJson (.objV fs))) =
        transformSOC1Result (.objV fs) ∧
      analyzeSingleChunkParse useLocalModel
          (String.mk (p₁ ++ (printJson (.objV fs) ++ p₂))) =
        transformSOC1Result (.objV fs) ∧
      (transformSOC1Result (.objV fs)).rawResult = .objV fs := by
  intro fs b p₁ p₂ hv hp1 hp2
  have hjson := jsonParse_print (.objV fs) hv
  have hs1w := strategy1_wrapped fs p₁ p₂ hv hp1 hp2
  have hs1 : strategy1 (printJson (.objV fs)) = some (.objV fs) := by
    have h0 := strategy1_wrapped fs [] [] hv (by simp) (by simp)
    simpa using h0
  refine ⟨hjson, ?_, ?_, rfl⟩
  · unfold analyzeSingleChunkParse
    dsimp only
    rw [hs1]
  · unfold analyzeSingleChunkParse
    dsimp only
    rw [hs1w]

/-- A concrete well-formed result record for the C9 witness. -/
def roundtripFields : List (String × JsVal) :=
  [("executiveSummary", .objV [
      ("serviceOrganization", .strV "Acme Corp"),
      ("auditor", .strV "Smith LLP"),
      ("opinion", .strV "unqualified"),
      ("reportPeriod", .strV "2024")]),
   ("controlFailures", .arrV [.objV [
      ("id", .strV "cf-1"),
      ("description", .strV "Backup restore failed"),
      ("effectiveness", .strV "ineffective"),
      ("pageNumbers", .arrV [.numV 12])]]),
   ("exclusions", .arrV []),
   ("carveOuts", .arrV [])]

/-- Witness for C9 at a concrete record, bare and wrapped in prose. -/
theorem analyzeSingleChunkParse_roundtrip_witness :
    analyzeSingleChunkParse false (String.mk (printJson (.objV roundtripFields))) =
      transformSOC1Result (.objV roundtripFields) ∧
    analyzeSingleChunkParse false
        (String.mk (("Here is the result: ").data ++
          (printJson (.objV roundtripFields) ++ (" End of answer.").data))) =
      transformSOC1Result (.objV roundtripFields) :=
  ⟨(analyzeSingleChunkParse_roundtrip roundtripFields false [] []
      (by decide) (by decide) (by decide)).2.1,
   (analyzeSingleChunkParse_roundtrip roundtripFields false
      ("Here is the result: ").data (" End of answer.").data
      (by decide) (by decide) (by decide)).2.2.1⟩

end SOC1
